import Mathlib

/-!
# svcore: compressed dense 3-D model and plugin enumeration

A shallow embedding of

* `data/model/BasicCompressedDenseThreeDimensionalModel.cpp` (the compressed
  column cache: `setColumn`, `truncateAndStore`, `expandAndRetrieve`,
  `getColumn`, `getValueAt`, `setCompletion`),
* the descriptor enumeration loops of
  `plugin/FeatureExtractionPluginFactory.cpp` and
  `plugin/LADSPAPluginFactory.cpp`, with the library handling, the instance
  bookkeeping and `getPluginPath` of the latter,
* `base/ResizeableBitset.h`,
* `scan`, `clear` and `getStartupFailureReport` of `plugin/PluginScan.cpp`,
* the frame total of `writeSelection` in `data/fileio/CSVFileWriter.cpp`,

followed by theorems about them.
-/

/-! ## Definitions: the embedding of the sources -/

/-- A value of the C++ type `float`, as far as the cache can observe it: the
cache copies values and compares them with `==`, `<` and `>`, and asks
`ISNAN` / `ISINF`; it never does arithmetic on them.  Finite values are
rationals (every finite `float` is one); `fin 0` is `+0.0` and `negZero` is
`-0.0`. -/
inductive FVal where
  | nan
  | posInf
  | negInf
  | negZero
  | fin (q : ℚ)
deriving DecidableEq

namespace FVal

/-- The position of a value in the IEEE order: `none` for NaN (unordered),
otherwise a class (-1 for -inf, 0 for finite, 1 for +inf) and the finite
value.  The two zeros have the same position. -/
def key : FVal → Option (Int × ℚ)
  | nan => none
  | posInf => some (1, 0)
  | negInf => some (-1, 0)
  | negZero => some (0, 0)
  | fin q => some (0, q)

/-- The C++ comparison `a == b` on floats: false when either side is NaN,
true for `+0.0 == -0.0`. -/
def feq (a b : FVal) : Bool :=
  match a.key, b.key with
  | some x, some y => decide (x = y)
  | _, _ => false

/-- The C++ comparison `a < b` on floats: false when either side is NaN. -/
def flt (a b : FVal) : Bool :=
  match a.key, b.key with
  | some x, some y => decide (x.1 < y.1 ∨ (x.1 = y.1 ∧ x.2 < y.2))
  | _, _ => false

/-- The C++ comparison `a > b` on floats. -/
def fgt (a b : FVal) : Bool := flt b a

/-- Modelled from the spec: the macro `ISNAN` of `system/System.h`, which is
not among the sources ("non-finite entries (NaN/Inf)"). -/
def ISNAN : FVal → Bool
  | nan => true
  | _ => false

/-- Modelled from the spec: the macro `ISINF` of `system/System.h`, which is
not among the sources ("non-finite entries (NaN/Inf)"). -/
def ISINF : FVal → Bool
  | posInf => true
  | negInf => true
  | _ => false

/-- Two floats are the same value: both NaN, or equal under `==`.  This is
identity except that a zero is the same value as the zero of the other
sign. -/
def sameValue (a b : FVal) : Prop := a.key = b.key

instance (a b : FVal) : Decidable (sameValue a b) := by
  unfold sameValue; infer_instance

/-- The rational denoted by a finite float. -/
def toRat? : FVal → Option ℚ
  | negZero => some 0
  | fin q => some q
  | _ => none

end FVal

/-- A column of the model: `std::vector<float>`. -/
abbrev Column := List FVal

/-- Modelled from the spec: `in_range_for(container, i)` of
`base/BaseTypes.h`, which is not among the sources: `i` is a valid index of
a container of the given size. -/
def in_range_for (size : Nat) (i : Int) : Bool :=
  decide (0 ≤ i) && decide (i < (size : Int))

namespace BasicCompressedDenseThreeDimensionalModel

/-- The signals the model emits (`getId()` arguments omitted: there is one
model). -/
inductive Signal where
  | modelChanged
  | modelChangedWithin (startFrame endFrame : Int)
  | ready
  | completionChanged
deriving DecidableEq

/-- The member variables of `BasicCompressedDenseThreeDimensionalModel` that
the modelled functions read or write.  `m_yBinCount` is an `int` in the
source; it is a natural number here (a negative bin count makes
`vector::resize` throw).  `m_trunc` holds `signed char` offsets. -/
structure Model where
  m_resolution : Int
  m_yBinCount : Nat
  m_minimum : FVal
  m_maximum : FVal
  m_haveExtents : Bool
  m_notifyOnAdd : Bool
  m_sinceLastNotifyMin : Int
  m_sinceLastNotifyMax : Int
  m_completion : Int
  m_data : List Column
  m_trunc : List Int
deriving DecidableEq

/-- The constructor. -/
def create (resolution : Int) (yBinCount : Nat) (notifyOnAdd : Bool) : Model :=
  { m_resolution := resolution
    m_yBinCount := yBinCount
    m_minimum := FVal.fin 0
    m_maximum := FVal.fin 0
    m_haveExtents := false
    m_notifyOnAdd := notifyOnAdd
    m_sinceLastNotifyMin := -1
    m_sinceLastNotifyMax := -1
    m_completion := 100
    m_data := []
    m_trunc := [] }

def getMinimumLevel (s : Model) : FVal := s.m_minimum

def getMaximumLevel (s : Model) : FVal := s.m_maximum

/-- `rightHeight(c)`: `c` itself when it has `m_yBinCount` values, otherwise
a copy resized to `m_yBinCount` values, new values being `0.0`. -/
def rightHeight (h : Nat) (c : Column) : Column :=
  if c.length = h then c
  else c.take h ++ List.replicate (h - c.length) (FVal.fin 0)

/-- The body of `expandAndRetrieve(index)`, with a bound on the depth of the
recursion.  `none` stands for a failed assertion (`index` out of range, also
in the recursive call when the stored offset points below column 0), an
out-of-range access, or an exhausted depth bound. -/
def expandAux (h : Nat) (data : List Column) (trunc : List Int) :
    Nat → Nat → Option Column
  | 0, _ => none
  | fuel + 1, index =>
    match data[index]?, trunc[index]? with
    | some c, some t =>
      if index = 0 then some (rightHeight h c)
      else if t = 0 then some (rightHeight h c)
      else
        let top : Bool := decide (0 < t)
        let tdist : Nat := t.natAbs
        if index < tdist then none
        else
          match expandAux h data trunc fuel (index - tdist) with
          | none => none
          | some p =>
            if top then some (c ++ p.drop c.length)
            else if c.length ≤ p.length then
              some (p.take (p.length - c.length) ++ c)
            else none
    | _, _ => none

/-- `expandAndRetrieve(index)`.  Every recursive call is at a strictly
smaller index, so a depth of `index + 1` is never exhausted. -/
def expandAndRetrieve (s : Model) (index : Nat) : Option Column :=
  expandAux s.m_yBinCount s.m_data s.m_trunc (index + 1) index

/-- `getColumn(index)`: the expanded column, or an empty column when the
index is out of range. -/
def getColumn (s : Model) (index : Int) : Option Column :=
  if in_range_for s.m_data.length index then expandAndRetrieve s index.toNat
  else some []

/-- The loop counting identical values at the bottom, entered at bin `i`
with `n` bins left: the number of further matches before the first
mismatch. -/
def bottomLoop (values p : Column) : Nat → Nat → Nat
  | 0, _ => 0
  | n + 1, i =>
    match values[i]?, p[i]? with
    | some a, some b => if FVal.feq a b then bottomLoop values p n (i + 1) + 1 else 0
    | _, _ => 0

/-- The loop counting identical values at the top, `for (i = h; i > 0; --i)`
comparing bin `i - 1`. -/
def topLoop (values p : Column) : Nat → Nat
  | 0 => 0
  | i + 1 =>
    match values[i]?, p[i]? with
    | some a, some b => if FVal.feq a b then topLoop values p i + 1 else 0
    | _, _ => 0

/-- The constant `maxdist` of `truncateAndStore`. -/
def maxdist : Nat := 6

/-- `truncateAndStore(index, values)`; only `m_data` and `m_trunc` change.
`none` stands for a failed assertion. -/
def truncateAndStore (s : Model) (index : Nat) (values : Column) : Option Model :=
  if s.m_data.length ≤ index then none
  else
    let s0 : Model := { s with m_trunc := s.m_trunc.set index 0 }
    if index = 0 ∨ values.length ≠ s.m_yBinCount then
      some { s0 with m_data := s0.m_data.set index values }
    else
      match s0.m_trunc[index - 1]? with
      | none => none
      | some ptrunc =>
        let known : Bool := decide (ptrunc ≠ 0)
        let top : Bool := decide (0 < ptrunc)
        let tdist : Nat := ptrunc.natAbs + 1
        if index < tdist then none
        else
          match expandAndRetrieve s0 (index - tdist) with
          | none => none
          | some p =>
            let h := s.m_yBinCount
            if p.length = h ∧ tdist ≤ maxdist then
              let bcount := if !known || !top then bottomLoop values p h 0 else 0
              let tcount := if !known || top then topLoop values p h else 0
              let top : Bool := if !known then decide (bcount < tcount) else top
              let limit := h / 4
              if limit < (if top then tcount else bcount) then
                if !top then
                  some { s0 with
                    m_data := s0.m_data.set index (values.drop bcount)
                    m_trunc := s0.m_trunc.set index (-(tdist : Int)) }
                else
                  some { s0 with
                    m_data := s0.m_data.set index (values.take (h - tcount))
                    m_trunc := s0.m_trunc.set index (tdist : Int) }
              else some { s0 with m_data := s0.m_data.set index values }
            else some { s0 with m_data := s0.m_data.set index values }

/-- The state of the extents loop of `setColumn`. -/
structure Extents where
  minimum : FVal
  maximum : FVal
  haveExtents : Bool
  allChange : Bool
deriving DecidableEq

/-- One iteration of the extents loop of `setColumn`. -/
def extentsStep (e : Extents) (value : FVal) : Extents :=
  if FVal.ISNAN value || FVal.ISINF value then e
  else
    let c1 : Bool := !e.haveExtents || FVal.flt value e.minimum
    let minimum := if c1 then value else e.minimum
    let c2 : Bool := !e.haveExtents || FVal.fgt value e.maximum
    let maximum := if c2 then value else e.maximum
    { minimum := minimum, maximum := maximum, haveExtents := true,
      allChange := e.allChange || c1 || c2 }

/-- The extents loop of `setColumn` over all the values. -/
def scanExtents (s : Model) (values : Column) : Extents :=
  values.foldl extentsStep
    { minimum := s.m_minimum, maximum := s.m_maximum,
      haveExtents := s.m_haveExtents, allChange := false }

/-- The extents found by the loop, written back to the members. -/
def applyExtents (s : Model) (e : Extents) : Model :=
  { s with
    m_minimum := e.minimum, m_maximum := e.maximum, m_haveExtents := e.haveExtents }

/-- The `while` loop at the head of `setColumn`: empty columns and zero
offsets are appended until `index` is in range. -/
def growTo (s : Model) (index : Nat) : Model :=
  { s with
    m_data := s.m_data ++ List.replicate (index + 1 - s.m_data.length) []
    m_trunc := s.m_trunc ++ List.replicate (index + 1 - s.m_data.length) 0 }

/-- The notification part of `setColumn`, after the column is stored. -/
def notifyAfterStore (s : Model) (index : Nat) (allChange : Bool) :
    Model × List Signal :=
  let windowStart : Int := (index : Int) * s.m_resolution
  if s.m_notifyOnAdd then
    if allChange then (s, [Signal.modelChanged])
    else (s, [Signal.modelChangedWithin windowStart (windowStart + s.m_resolution)])
  else
    if allChange then
      ({ s with m_sinceLastNotifyMin := -1, m_sinceLastNotifyMax := -1 },
        [Signal.modelChanged])
    else
      let lo := if s.m_sinceLastNotifyMin = -1 ∨ windowStart < s.m_sinceLastNotifyMin
        then windowStart else s.m_sinceLastNotifyMin
      let hi := if s.m_sinceLastNotifyMax = -1 ∨ windowStart > s.m_sinceLastNotifyMax
        then windowStart else s.m_sinceLastNotifyMax
      ({ s with m_sinceLastNotifyMin := lo, m_sinceLastNotifyMax := hi }, [])

/-- `setColumn(index, values)` for `index >= 0`: the new state and the
signals emitted, in order.  `none` stands for a failed assertion inside
`truncateAndStore`. -/
def setColumn (s : Model) (index : Nat) (values : Column) :
    Option (Model × List Signal) :=
  let s1 := growTo s index
  let e := scanExtents s1 values
  let s2 := applyExtents s1 e
  match truncateAndStore s2 index values with
  | none => none
  | some s3 => some (notifyAfterStore s3 index e.allChange)

/-- `setCompletion(completion, update)`: the new state and the signals
emitted, in order. -/
def setCompletion (s : Model) (completion : Int) (update : Bool) :
    Model × List Signal :=
  if s.m_completion ≠ completion then
    let s1 : Model := { s with m_completion := completion }
    if completion = 100 then
      ({ s1 with m_notifyOnAdd := true }, [Signal.modelChanged, Signal.ready])
    else if !s1.m_notifyOnAdd then
      if update ∧ 0 ≤ s1.m_sinceLastNotifyMin ∧ 0 ≤ s1.m_sinceLastNotifyMax then
        ({ s1 with m_sinceLastNotifyMin := -1, m_sinceLastNotifyMax := -1 },
          [Signal.modelChangedWithin s1.m_sinceLastNotifyMin
            (s1.m_sinceLastNotifyMax + s1.m_resolution)])
      else (s1, [Signal.completionChanged])
    else (s1, [Signal.completionChanged])
  else (s, [])

/-- A sequence of `setColumn` calls, the signals dropped. -/
def setColumns (s : Model) : List (Nat × Column) → Option Model
  | [] => some s
  | (index, values) :: rest =>
    match setColumn s index values with
    | none => none
    | some (s1, _) => setColumns s1 rest

/-- The finite values of a column, as rationals, in order. -/
def finiteValues (c : Column) : List ℚ := c.filterMap FVal.toRat?

/-- All the values passed to a sequence of `setColumn` calls, in order. -/
def writtenValues : List (Nat × Column) → Column
  | [] => []
  | (_, values) :: rest => values ++ writtenValues rest

/-- The running extents: none until a finite value has been seen, then the
pair of `m_minimum` and `m_maximum`. -/
def runningExtents (s : Model) : Option (FVal × FVal) :=
  if s.m_haveExtents then some (s.m_minimum, s.m_maximum) else none

/-- The storage invariant: the two vectors have one length, every offset
points at an existing earlier column within `maxdist`, and a truncated column
holds at most `m_yBinCount` values. -/
structure Inv (s : Model) : Prop where
  len : s.m_trunc.length = s.m_data.length
  bound : ∀ (i : Nat) (t : Int), s.m_trunc[i]? = some t →
    t.natAbs ≤ i ∧ t.natAbs ≤ maxdist
  short : ∀ (i : Nat) (t : Int) (c : Column), s.m_trunc[i]? = some t → t ≠ 0 →
    s.m_data[i]? = some c → c.length ≤ s.m_yBinCount

/-- The forms in which `truncateAndStore` leaves column `index`: the stored
values and the stored offset. -/
inductive StoredAs (s : Model) (index : Nat) (values : Column) : Column → Int → Prop where
  | verbatim : StoredAs s index values values 0
  | bottom (tdist b : Nat) (p : Column) :
      index ≠ 0 → values.length = s.m_yBinCount →
      1 ≤ tdist → tdist ≤ index → tdist ≤ maxdist →
      expandAndRetrieve s (index - tdist) = some p → p.length = s.m_yBinCount →
      b ≤ s.m_yBinCount →
      (∀ j, j < b → ∃ x y, values[j]? = some x ∧ p[j]? = some y ∧ FVal.feq x y = true) →
      StoredAs s index values (values.drop b) (-(tdist : Int))
  | top (tdist tc : Nat) (p : Column) :
      index ≠ 0 → values.length = s.m_yBinCount →
      1 ≤ tdist → tdist ≤ index → tdist ≤ maxdist →
      expandAndRetrieve s (index - tdist) = some p → p.length = s.m_yBinCount →
      tc ≤ s.m_yBinCount →
      (∀ j, s.m_yBinCount - tc ≤ j → j < s.m_yBinCount →
        ∃ x y, values[j]? = some x ∧ p[j]? = some y ∧ FVal.feq x y = true) →
      StoredAs s index values (values.take (s.m_yBinCount - tc)) (tdist : Int)

/-- The state in which `truncateAndStore` leaves the model. -/
def stored (s : Model) (index : Nat) (c : Column) (t : Int) : Model :=
  { s with m_data := s.m_data.set index c, m_trunc := s.m_trunc.set index t }

/-- The model on which `setColumn` calls `truncateAndStore`. -/
def beforeStore (s : Model) (index : Nat) (values : Column) : Model :=
  applyExtents (growTo s index) (scanExtents (growTo s index) values)

/-- The extents are those of the finite values `seen` so far. -/
def ExtentsOf (e : Extents) (seen : List ℚ) : Prop :=
  (e.haveExtents = false → seen = []) ∧
  (e.haveExtents = true → ∃ lo hi, e.minimum.toRat? = some lo ∧ e.maximum.toRat? = some hi ∧
    lo ∈ seen ∧ hi ∈ seen ∧ ∀ q ∈ seen, lo ≤ q ∧ q ≤ hi)

/-- The extents held by a model. -/
def extentsIn (s : Model) : Extents :=
  { minimum := s.m_minimum, maximum := s.m_maximum, haveExtents := s.m_haveExtents,
    allChange := false }

/-- How the extents of a loop state relate to the extents `e0` the loop
started from, when those were already held. -/
def Widened (e0 e : Extents) : Prop :=
  e.haveExtents = true ∧
  (e.minimum = e0.minimum ∨ FVal.flt e.minimum e0.minimum = true) ∧
  (e.maximum = e0.maximum ∨ FVal.flt e0.maximum e.maximum = true) ∧
  (e.allChange = true →
    FVal.flt e.minimum e0.minimum = true ∨ FVal.flt e0.maximum e.maximum = true)

end BasicCompressedDenseThreeDimensionalModel

/-- Modelled from the spec: `PluginIdentifier::createIdentifier` of
`plugin/PluginIdentifier.cpp`, which is not among the sources: the composite
key (type, library, label) "serialized to a single delimited string". -/
def PluginIdentifier.createIdentifier (type soname label : String) : String :=
  type ++ ":" ++ soname ++ ":" ++ label

namespace FeatureExtractionPluginFactory

/-- The result of `TestPluginLoadability` (declared in `system/System.h`,
which is not among the sources; the values are those the factory tests). -/
inductive PluginLoadStatus where
  | UnknownPluginLoadStatus
  | PluginLoadOK
  | PluginLoadFailedToLoadLibrary
  | PluginLoadFailedToFindDescriptor
  | PluginLoadFailedElsewhere
deriving DecidableEq

/-- What a loaded Vamp library answers: `vampGetPluginDescriptor` is missing
(`none`), or it returns descriptors with the given identifiers at indices
0, 1, ... and null from then on. -/
structure VampLibrary where
  descriptorFn : Option (List String)

/-- The surroundings of the factory: the loadability test, `DLOPEN` (`none`
when the library does not load) and `PluginIdentifier::createIdentifier`. -/
structure Host where
  TestPluginLoadability : String → PluginLoadStatus
  DLOPEN : String → Option VampLibrary
  createIdentifier : String → String → String → String

/-- The loop of `winnowPluginCandidates` over the candidates, with the
vectors `good`, `bad` and `badStatuses`. -/
def winnowLoop (host : Host) :
    List String → List String → List (String × PluginLoadStatus) →
      List String × List (String × PluginLoadStatus)
  | [], good, bad => (good, bad)
  | c :: rest, good, bad =>
    let status := host.TestPluginLoadability c
    if status = PluginLoadStatus.PluginLoadOK then winnowLoop host rest (good ++ [c]) bad
    else if status = PluginLoadStatus.UnknownPluginLoadStatus then
      winnowLoop host rest (good ++ [c]) bad
    else winnowLoop host rest good (bad ++ [(c, status)])

/-- `winnowPluginCandidates(candidates, warningMessage)`: the good
candidates, and the failed ones with their statuses when the warning message
is written (`none` when it is left alone). -/
def winnowPluginCandidates (host : Host) (candidates : List String) :
    List String × Option (List (String × PluginLoadStatus)) :=
  let r := winnowLoop host candidates [] []
  (r.1, if r.2.isEmpty then none else some r.2)

/-- The first `while` loop over the descriptors of one library, entered at
`index` with the map `known`: the final value of `ok`. -/
def duplicateScan : List String → Nat → List (String × Nat) → Bool
  | [], _, _ => true
  | identifier :: rest, index, known =>
    if (known.lookup identifier).isSome then false
    else duplicateScan rest (index + 1) ((identifier, index) :: known)

/-- The second `while` loop over the descriptors of one library: one
identifier is pushed onto `rv` per descriptor. -/
def pushIdentifiers (host : Host) (soname : String) : List String → List String → List String
  | [], rv => rv
  | identifier :: rest, rv =>
    pushIdentifiers host soname rest (rv ++ [host.createIdentifier "vamp" soname identifier])

/-- The state of the loop of `getPluginIdentifiers` over the candidates:
`rv`, and the library handles that are open. -/
structure ScanState where
  rv : List String
  openHandles : List String

/-- One iteration of the loop of `getPluginIdentifiers` over the
candidates. -/
def scanCandidate (host : Host) (st : ScanState) (soname : String) : ScanState :=
  match host.DLOPEN soname with
  | none => st
  | some lib =>
    let st1 : ScanState := { st with openHandles := soname :: st.openHandles }
    match lib.descriptorFn with
    | none => { st1 with openHandles := st1.openHandles.erase soname }
    | some table =>
      let ok := duplicateScan table 0 []
      let rv := if ok then pushIdentifiers host soname table st1.rv else st1.rv
      { rv := rv, openHandles := st1.openHandles.erase soname }

/-- `getPluginIdentifiers()`, given the files that
`getPluginCandidateFiles()` returns. -/
def getPluginIdentifiers (host : Host) (candidateFiles : List String) : ScanState :=
  (winnowPluginCandidates host candidateFiles).1.foldl (scanCandidate host)
    { rv := [], openHandles := [] }

/-- What one candidate contributes to the result when it is scanned: the
identifiers of its descriptors, in index order, if it loads, has the
descriptor function and no identifier occurs twice; nothing otherwise. -/
def contribution (host : Host) (soname : String) : List String :=
  match host.DLOPEN soname with
  | none => []
  | some lib =>
    match lib.descriptorFn with
    | none => []
    | some table =>
      if table.Nodup then table.map (host.createIdentifier "vamp" soname) else []

end FeatureExtractionPluginFactory

namespace LADSPAPluginFactory

/-- One port of a LADSPA descriptor: its `PortDescriptors` bits that the
factory reads, and its name. -/
structure Port where
  isControl : Bool
  isInput : Bool
  name : String
deriving DecidableEq

/-- The fields of `LADSPA_Descriptor` that `discoverPlugins` reads. -/
structure LADSPA_Descriptor where
  UniqueID : Nat
  Label : String
  Name : String
  Maker : String
  Copyright : String
  Ports : List Port
deriving DecidableEq

/-- `RealTimePluginDescriptor`. -/
structure RealTimePluginDescriptor where
  name : String
  label : String
  maker : String
  copyright : String
  category : String
  isSynth : Bool
  parameterCount : Nat
  audioInputPortCount : Nat
  controlOutputPortCount : Nat
  controlOutputPortNames : List String
deriving DecidableEq

/-- What a loaded LADSPA library answers: `ladspa_descriptor` is missing
(`none`), or it returns the given descriptors at indices 0, 1, ... and null
from then on. -/
structure LADSPALibrary where
  descriptorFn : Option (List LADSPA_Descriptor)

/-- The surroundings of the factory: `DLOPEN` (`none` when the library does
not load) and `PluginIdentifier::createIdentifier`. -/
structure Host where
  DLOPEN : String → Option LADSPALibrary
  createIdentifier : String → String → String → String

/-- The members of the factory that `discoverPlugins(soname)` writes, and
the library handles that are open.  `m_rtDescriptors` is a `std::map`: an
association list with one entry per key. -/
structure Factory where
  m_identifiers : List String
  m_rtDescriptors : List (String × RealTimePluginDescriptor)
  openHandles : List String
deriving DecidableEq

/-- Assignment `m[key] = value` on a `std::map`. -/
def mapAssign {β : Type} (m : List (String × β)) (key : String) (value : β) :
    List (String × β) :=
  if (m.lookup key).isSome then
    m.map (fun kv => if kv.1 = key then (key, value) else kv)
  else m ++ [(key, value)]

/-- The loop of `discoverPlugins` over the ports of a descriptor. -/
def countPort (rtd : RealTimePluginDescriptor) (port : Port) : RealTimePluginDescriptor :=
  if port.isControl then
    if port.isInput then { rtd with parameterCount := rtd.parameterCount + 1 }
    else if port.name ≠ "latency" ∧ port.name ≠ "_latency" then
      { rtd with
        controlOutputPortCount := rtd.controlOutputPortCount + 1
        controlOutputPortNames := rtd.controlOutputPortNames ++ [port.name] }
    else rtd
  else if port.isInput then { rtd with audioInputPortCount := rtd.audioInputPortCount + 1 }
  else rtd

/-- The record `discoverPlugins` builds for a descriptor (in a build without
`HAVE_LRDF`, where the category stays empty). -/
def makeDescriptor (descriptor : LADSPA_Descriptor) : RealTimePluginDescriptor :=
  descriptor.Ports.foldl countPort
    { name := descriptor.Name, label := descriptor.Label, maker := descriptor.Maker,
      copyright := descriptor.Copyright, category := "", isSynth := false,
      parameterCount := 0, audioInputPortCount := 0, controlOutputPortCount := 0,
      controlOutputPortNames := [] }

/-- One iteration of the `while` loop of `discoverPlugins(soname)` over the
descriptors. -/
def discoverStep (host : Host) (soname : String) (f : Factory)
    (descriptor : LADSPA_Descriptor) : Factory :=
  let identifier := host.createIdentifier "ladspa" soname descriptor.Label
  { f with
    m_identifiers := f.m_identifiers ++ [identifier]
    m_rtDescriptors := mapAssign f.m_rtDescriptors identifier (makeDescriptor descriptor) }

/-- `discoverPlugins(soname)`. -/
def discoverPlugins (host : Host) (f : Factory) (soname : String) : Factory :=
  match host.DLOPEN soname with
  | none => f
  | some lib =>
    let f1 : Factory := { f with openHandles := soname :: f.openHandles }
    match lib.descriptorFn with
    | none => f1
    | some table =>
      let f2 := table.foldl (discoverStep host soname) f1
      { f2 with openHandles := f2.openHandles.erase soname }

end LADSPAPluginFactory

namespace FeatureExtractionPluginFactory

/-- The two libraries of the example: `first.so` exports the descriptors
`A` and `B`, `second.so` exports `A` twice; both pass the loadability
test. -/
def exampleHost : Host :=
  { TestPluginLoadability := fun _ => PluginLoadStatus.PluginLoadOK
    DLOPEN := fun soname =>
      if soname = "first.so" then some { descriptorFn := some ["A", "B"] }
      else if soname = "second.so" then some { descriptorFn := some ["A", "A"] }
      else none
    createIdentifier := PluginIdentifier.createIdentifier }

end FeatureExtractionPluginFactory

namespace LADSPAPluginFactory

/-- Two descriptors with the one label `A`. -/
def duplicateTable : List LADSPA_Descriptor :=
  [{ UniqueID := 1, Label := "A", Name := "first", Maker := "", Copyright := "", Ports := [] },
   { UniqueID := 2, Label := "A", Name := "second", Maker := "", Copyright := "", Ports := [] }]

/-- A library `dup.so` whose `ladspa_descriptor` returns the label `A` at
indices 0 and 1. -/
def duplicateHost : Host :=
  { DLOPEN := fun soname =>
      if soname = "dup.so" then some { descriptorFn := some duplicateTable } else none
    createIdentifier := PluginIdentifier.createIdentifier }

/-- The factory before any discovery. -/
def emptyFactory : Factory :=
  { m_identifiers := [], m_rtDescriptors := [], openHandles := [] }

end LADSPAPluginFactory

namespace FeatureExtractionPluginFactory

/-- A candidate passes the pre-validation when its status is
`PluginLoadOK` or `UnknownPluginLoadStatus`. -/
def passes (host : Host) (c : String) : Bool :=
  decide (host.TestPluginLoadability c = PluginLoadStatus.PluginLoadOK) ||
  decide (host.TestPluginLoadability c = PluginLoadStatus.UnknownPluginLoadStatus)

end FeatureExtractionPluginFactory

namespace LADSPAPluginFactory

/-- A library `nofn.so` that loads but does not export
`ladspa_descriptor`. -/
def noEntryPointHost : Host :=
  { DLOPEN := fun soname =>
      if soname = "nofn.so" then some { descriptorFn := none } else none
    createIdentifier := PluginIdentifier.createIdentifier }

end LADSPAPluginFactory

namespace BasicCompressedDenseThreeDimensionalModel

/-- The values of the last call in the sequence that wrote `index`, if
any. -/
def lastWritten (index : Nat) : List (Nat × Column) → Option Column
  | [] => none
  | (i, values) :: rest =>
    match lastWritten index rest with
    | some w => some w
    | none => if i = index then some values else none

end BasicCompressedDenseThreeDimensionalModel

namespace FeatureExtractionPluginFactory

/-- The surroundings of the factory that deal with files, beside those of
`Host`: `PluginIdentifier::parseIdentifier` (type, library, label), the
search path that `getPluginPath()` returns, and what `QDir` and `QFileInfo`
answer: whether a directory exists, the names `dir[0]`, `dir[1]`, ... of its
files matching `PLUGIN_GLOB`, `QDir::filePath`, `QFileInfo::fileName`,
`baseName`, `exists() && isFile()`, `isAbsolute` and `absolutePath`. -/
structure FileHost extends Host where
  parseIdentifier : String → String × String × String
  pluginPath : List String
  dirExists : String → Bool
  entryList : String → List String
  filePath : String → String → String
  fileName : String → String
  baseName : String → String
  isFile : String → Bool
  isAbsolute : String → Bool
  absolutePath : String → String

/-- `getPluginCandidateFiles()`: the outer loop runs over the search path,
the inner loop over the files of the directory. -/
def getPluginCandidateFiles (host : FileHost) : List String :=
  host.pluginPath.foldl
    (fun candidates dirname =>
      (host.entryList dirname).foldl
        (fun candidates name => candidates ++ [host.filePath dirname name]) candidates)
    []

/-- A search path that names the directory `/plugins` twice; the directory
holds the one plugin file `a.so`. -/
def repeatedPathHost : FileHost :=
  { exampleHost with
    parseIdentifier := fun _ => ("", "", "")
    pluginPath := ["/plugins", "/plugins"]
    dirExists := fun d => decide (d = "/plugins")
    entryList := fun d => if d = "/plugins" then ["a.so"] else []
    filePath := fun d name => d ++ "/" ++ name
    fileName := fun f => f
    baseName := fun f => f
    isFile := fun _ => false
    isAbsolute := fun _ => false
    absolutePath := fun _ => "" }

/-- A search path of the two directories `/a` and `/b`; `/a` holds the
plugin files `x.so` and `y.so`, `/b` holds `x.so`. -/
def twoDirectoryHost : FileHost :=
  { exampleHost with
    parseIdentifier := fun _ => ("", "", "")
    pluginPath := ["/a", "/b"]
    dirExists := fun d => decide (d = "/a") || decide (d = "/b")
    entryList := fun d =>
      if d = "/a" then ["x.so", "y.so"] else if d = "/b" then ["x.so"] else []
    filePath := fun d name => d ++ "/" ++ name
    fileName := fun f => f
    baseName := fun f => f
    isFile := fun _ => false
    isAbsolute := fun _ => false
    absolutePath := fun _ => "" }

/-- `findPluginFile(soname, inDir)` for a non-empty `inDir`. -/
def findPluginFileIn (host : FileHost) (soname inDir : String) : String :=
  if !host.dirExists inDir then ""
  else
    let file := host.filePath inDir (host.fileName soname)
    if host.isFile file then file
    else
      match (host.entryList inDir).find?
          (fun name => host.baseName (host.filePath inDir name) = host.baseName soname) with
      | some name => host.filePath inDir name
      | none => ""

/-- The loop of `findPluginFile(soname)` over the plugin path. -/
def findInPath (host : FileHost) (soname : String) : List String → String
  | [] => ""
  | dir :: rest =>
    if dir ≠ "" then
      let file := findPluginFileIn host soname dir
      if file ≠ "" then file else findInPath host soname rest
    else findInPath host soname rest

/-- `findPluginFile(soname)`, that is with `inDir` empty. -/
def findPluginFile (host : FileHost) (soname : String) : String :=
  if host.isAbsolute soname ∧ host.isFile soname then soname
  else
    let file :=
      if host.isAbsolute soname ∧ host.absolutePath soname ≠ "" then
        findPluginFileIn host soname (host.absolutePath soname)
      else ""
    if file ≠ "" then file else findInPath host soname host.pluginPath

/-- A call that changed which library handles are open: a `DLOPEN` that
returned a handle, or a `DLCLOSE`. -/
inductive LibraryCall where
  | opened (handle : String)
  | closed (handle : String)
deriving DecidableEq

/-- The members of the factory that `instantiatePlugin` writes: the map
`m_handleMap` from plugin to library handle (an association list with one
entry per plugin), and the library handles that are open. -/
structure Instances where
  m_handleMap : List (Nat × String)
  openHandles : List String
deriving DecidableEq

/-- What `instantiatePlugin` returns (`none` for null), the members after
the call, and the library calls made during it. -/
structure Instantiation where
  rv : Option Nat
  state : Instances
  calls : List LibraryCall
deriving DecidableEq

/-- The `while` loop of `instantiatePlugin` over the descriptors: the first
descriptor whose identifier is `label`, if any. -/
def findDescriptor (label : String) : List String → Option String
  | [] => none
  | identifier :: rest =>
    if label = identifier then some identifier else findDescriptor label rest

/-- `instantiatePlugin(identifier, inputSampleRate)`; `plugin` is the
address of the `Vamp::PluginHostAdapter` that `new` returns.  `DLCLOSE` is
taken to release the handle. -/
def instantiatePlugin (host : FileHost) (st : Instances) (identifier : String)
    (plugin : Nat) : Instantiation :=
  let type := (host.parseIdentifier identifier).1
  let soname := (host.parseIdentifier identifier).2.1
  let label := (host.parseIdentifier identifier).2.2
  if type ≠ "vamp" then { rv := none, state := st, calls := [] }
  else
    let found := findPluginFile host soname
    if found = "" then { rv := none, state := st, calls := [] }
    else
      match host.DLOPEN found with
      | none => { rv := none, state := st, calls := [] }
      | some lib =>
        let st1 : Instances := { st with openHandles := found :: st.openHandles }
        let done : Instantiation :=
          { rv := none
            state := { st1 with openHandles := st1.openHandles.erase found }
            calls := [LibraryCall.opened found, LibraryCall.closed found] }
        match lib.descriptorFn with
        | none => done
        | some table =>
          match findDescriptor label table with
          | none => done
          | some _ =>
            { rv := some plugin
              state := { st1 with
                m_handleMap :=
                  (plugin, found) :: st1.m_handleMap.filter (fun kv => kv.1 ≠ plugin) }
              calls := [LibraryCall.opened found] }

/-- A host in which the library of `vamp:first.so:A` is the file
`/plugins/first.so`, exporting `A` and `B`. -/
def instantiateHost : FileHost :=
  { TestPluginLoadability := fun _ => PluginLoadStatus.PluginLoadOK
    DLOPEN := fun soname =>
      if soname = "/plugins/first.so" then some { descriptorFn := some ["A", "B"] } else none
    createIdentifier := PluginIdentifier.createIdentifier
    parseIdentifier := fun identifier =>
      if identifier = "vamp:first.so:C" then ("vamp", "first.so", "C") else ("", "", "")
    pluginPath := ["/plugins"]
    dirExists := fun d => decide (d = "/plugins")
    entryList := fun d => if d = "/plugins" then ["first.so"] else []
    filePath := fun d name => d ++ "/" ++ name
    fileName := fun f => f
    baseName := fun f => f
    isFile := fun f => decide (f = "/plugins/first.so")
    isAbsolute := fun _ => false
    absolutePath := fun _ => "" }

/-- A factory with one live plugin, from another library. -/
def oneInstance : Instances :=
  { m_handleMap := [(7, "/plugins/other.so")]
    openHandles := ["/plugins/other.so"] }

end FeatureExtractionPluginFactory

namespace LADSPAPluginFactory

/-- The surroundings of the factory beside those of `Host`:
`PluginIdentifier::parseIdentifier` (type, library, label), the list that
`getPluginPath()` returns, what `QFileInfo`, `QFile` and `QDir` answer
(`exists`, `fileName`, `baseName`, the names of a directory's files matching
`PLUGIN_GLOB`, `filePath`), and the seven strings that `enumeratePlugins`
pushes for port `p` of a descriptor (its number, name, type and the display
hint, minimum, maximum and default, which come from floating-point code). -/
structure FileHost extends Host where
  parseIdentifier : String → String × String × String
  pluginPath : List String
  fileExists : String → Bool
  fileName : String → String
  baseName : String → String
  entryList : String → List String
  filePath : String → String → String
  portStrings : LADSPA_Descriptor → Nat → List String

/-- All the members of the factory: those of `Factory`, the map
`m_libraryHandles` from library name to handle (a handle is named by the
file that was opened), the set `m_instances` of live instances (the address
of each with its identifier), and the maps `m_taxonomy` (by unique ID) and
`m_fallbackCategories` (by identifier).  The maps are association lists with
one entry per key. -/
structure FactoryState extends Factory where
  m_libraryHandles : List (String × String)
  m_instances : List (Nat × String)
  m_taxonomy : List (Nat × String)
  m_fallbackCategories : List (String × String)
deriving DecidableEq

/-- The statements `libraryHandle = DLOPEN(file, RTLD_NOW); if
(libraryHandle) m_libraryHandles[soName] = libraryHandle;`. -/
def openAs (host : FileHost) (f : FactoryState) (soName file : String) : FactoryState :=
  match host.DLOPEN file with
  | some _ =>
    { f with
      m_libraryHandles := mapAssign f.m_libraryHandles soName file
      openHandles := file :: f.openHandles }
  | none => f

/-- The loop of `loadLibrary(soName)` over the plugin path; it ends at the
first directory that has the file name or a file with the base name. -/
def loadFromPath (host : FileHost) (f : FactoryState) (soName : String) :
    List String → FactoryState
  | [] => f
  | dir :: rest =>
    if host.fileExists (host.filePath dir (host.fileName soName)) then
      openAs host f soName (host.filePath dir (host.fileName soName))
    else
      match (host.entryList dir).find?
          (fun entry => host.baseName (host.filePath dir entry) = host.baseName soName) with
      | some entry => openAs host f soName (host.filePath dir entry)
      | none => loadFromPath host f soName rest

/-- `loadLibrary(soName)`. -/
def loadLibrary (host : FileHost) (f : FactoryState) (soName : String) : FactoryState :=
  match host.DLOPEN soName with
  | some _ =>
    { f with
      m_libraryHandles := mapAssign f.m_libraryHandles soName soName
      openHandles := soName :: f.openHandles }
  | none =>
    if host.fileExists soName then f
    else loadFromPath host f soName host.pluginPath

/-- `unloadLibrary(soName)`; `DLCLOSE` is taken to release the handle. -/
def unloadLibrary (f : FactoryState) (soName : String) : FactoryState :=
  match f.m_libraryHandles.lookup soName with
  | some handle =>
    { f with
      m_libraryHandles := f.m_libraryHandles.filter (fun kv => kv.1 ≠ soName)
      openHandles := f.openHandles.erase handle }
  | none => f

/-- `getLADSPADescriptor(identifier)`: the members afterwards and the
descriptor (`none` for null).  `DLSYM` on a handle answers for the file the
handle was opened from. -/
def getLADSPADescriptor (host : FileHost) (f : FactoryState) (identifier : String) :
    FactoryState × Option LADSPA_Descriptor :=
  let soname := (host.parseIdentifier identifier).2.1
  let label := (host.parseIdentifier identifier).2.2
  let f1 := if (f.m_libraryHandles.lookup soname).isNone then loadLibrary host f soname else f
  match f1.m_libraryHandles.lookup soname with
  | none => (f1, none)
  | some handle =>
    match (host.DLOPEN handle).bind (fun lib => lib.descriptorFn) with
    | none => (f1, none)
    | some table => (f1, table.find? (fun descriptor => descriptor.Label = label))

/-- `instantiatePlugin(identifier, ...)`; `inst` is the address of the
`LADSPAPluginInstance` that `new` returns. -/
def instantiatePlugin (host : FileHost) (f : FactoryState) (identifier : String)
    (inst : Nat) : FactoryState × Option Nat :=
  match getLADSPADescriptor host f identifier with
  | (f1, some _) =>
    ({ f1 with
        m_instances := (inst, identifier) :: f1.m_instances.filter (fun i => i.1 ≠ inst) },
      some inst)
  | (f1, none) => (f1, none)

/-- `releasePlugin(instance, identifier)`. -/
def releasePlugin (host : FileHost) (f : FactoryState) (inst : Nat) (identifier : String) :
    FactoryState :=
  if (f.m_instances.lookup inst).isNone then f
  else
    let soname := (host.parseIdentifier identifier).2.1
    let f1 : FactoryState :=
      { f with m_instances := f.m_instances.filter (fun i => i.1 ≠ inst) }
    let stillInUse := f1.m_instances.any (fun i => (host.parseIdentifier i.2).2.1 = soname)
    if !stillInUse then unloadLibrary f1 soname else f1

/-- `unloadUnusedLibraries()`. -/
def unloadUnusedLibraries (host : FileHost) (f : FactoryState) : FactoryState :=
  let toUnload := (f.m_libraryHandles.filter (fun kv =>
    !f.m_instances.any (fun i => (host.parseIdentifier i.2).2.1 = kv.1))).map (fun kv => kv.1)
  toUnload.foldl unloadLibrary f

/-- The category `enumeratePlugins` pushes for a plugin. -/
def category (f : FactoryState) (identifier : String) (descriptor : LADSPA_Descriptor) :
    String :=
  if (f.m_taxonomy.lookup descriptor.UniqueID).isSome ∧
      (f.m_taxonomy.lookup descriptor.UniqueID).getD "" ≠ "" then
    (f.m_taxonomy.lookup descriptor.UniqueID).getD ""
  else if (f.m_fallbackCategories.lookup identifier).isSome then
    (f.m_fallbackCategories.lookup identifier).getD ""
  else ""

/-- The strings `enumeratePlugins` pushes for one plugin. -/
def pluginEntries (host : FileHost) (f : FactoryState) (identifier : String)
    (descriptor : LADSPA_Descriptor) : List String :=
  [identifier, descriptor.Name, toString descriptor.UniqueID, descriptor.Label,
    descriptor.Maker, descriptor.Copyright, "false", "false",
    category f identifier descriptor, toString descriptor.Ports.length] ++
  (List.range descriptor.Ports.length).flatMap (host.portStrings descriptor)

/-- One iteration of the loop of `enumeratePlugins` over `m_identifiers`. -/
def enumerateStep (host : FileHost) (acc : FactoryState × List String) (identifier : String) :
    FactoryState × List String :=
  match getLADSPADescriptor host acc.1 identifier with
  | (f1, none) => (f1, acc.2)
  | (f1, some descriptor) => (f1, acc.2 ++ pluginEntries host f1 identifier descriptor)

/-- `enumeratePlugins(list)`. -/
def enumeratePlugins (host : FileHost) (f : FactoryState) (list : List String) :
    FactoryState × List String :=
  let r := f.m_identifiers.foldl (enumerateStep host) (f, list)
  (unloadUnusedLibraries host r.1, r.2)

/-- The factory with no identifier, library or plugin yet. -/
def emptyState : FactoryState :=
  { emptyFactory with
    m_libraryHandles := []
    m_instances := []
    m_taxonomy := []
    m_fallbackCategories := [] }

/-- The descriptor with label `A` of the library `lib.so`. -/
def descriptorA : LADSPA_Descriptor :=
  { UniqueID := 1, Label := "A", Name := "first", Maker := "", Copyright := "", Ports := [] }

/-- A host in which `lib.so` loads and exports the one descriptor `A`, and
identifiers of the form `ladspa:lib.so:label` are parsed for the labels `A`
and `B`. -/
def oneLibraryHost : FileHost :=
  { DLOPEN := fun soname =>
      if soname = "lib.so" then some { descriptorFn := some [descriptorA] } else none
    createIdentifier := PluginIdentifier.createIdentifier
    parseIdentifier := fun identifier =>
      if identifier = "ladspa:lib.so:A" then ("ladspa", "lib.so", "A")
      else if identifier = "ladspa:lib.so:B" then ("ladspa", "lib.so", "B")
      else ("", "", "")
    pluginPath := []
    fileExists := fun _ => false
    fileName := fun f => f
    baseName := fun f => f
    entryList := fun _ => []
    filePath := fun d name => d ++ "/" ++ name
    portStrings := fun _ _ => [] }

/-- A host in which `lib.so` loads, with the factory holding `lib.so` for
the two live instances 1 and 2, both of `ladspa:lib.so:A`. -/
def sharedState : FactoryState :=
  { emptyFactory with
    openHandles := ["lib.so"]
    m_libraryHandles := [("lib.so", "lib.so")]
    m_instances := [(1, "ladspa:lib.so:A"), (2, "ladspa:lib.so:A")]
    m_taxonomy := []
    m_fallbackCategories := [] }

/-- The handle `getLADSPADescriptor` uses for the library `soname`: the one
in `m_libraryHandles`, or else the one `loadLibrary` puts there. -/
def handleFor (host : FileHost) (f : FactoryState) (soname : String) : Option String :=
  (if (f.m_libraryHandles.lookup soname).isNone then loadLibrary host f soname
    else f).m_libraryHandles.lookup soname

/-- A factory that knows the identifiers `ladspa:lib.so:A` and
`ladspa:lib.so:B`, with a taxonomy entry for the unique ID 1 and a fallback
category for the first identifier. -/
def categoryState : FactoryState :=
  { emptyFactory with
    m_identifiers := ["ladspa:lib.so:A", "ladspa:lib.so:B"]
    m_libraryHandles := []
    m_instances := []
    m_taxonomy := [(1, "Filters")]
    m_fallbackCategories := [("ladspa:lib.so:A", "Fallback")] }

/-- The states the loop of `enumeratePlugins` passes through, seen from its
first state: a library has the handle it had at the start or the handle a
load from the first state would give it. -/
def LoadedFrom (host : FileHost) (f g : FactoryState) : Prop :=
  ∀ soname, g.m_libraryHandles.lookup soname = f.m_libraryHandles.lookup soname ∨
    g.m_libraryHandles.lookup soname = handleFor host f soname

end LADSPAPluginFactory

namespace BasicCompressedDenseThreeDimensionalModel

/-- `setResolution(sz)`. -/
def setResolution (s : Model) (sz : Int) : Model := { s with m_resolution := sz }

/-- `setHeight(sz)`. -/
def setHeight (s : Model) (sz : Nat) : Model := { s with m_yBinCount := sz }

/-- `setMinimumLevel(level)`. -/
def setMinimumLevel (s : Model) (level : FVal) : Model := { s with m_minimum := level }

/-- `setMaximumLevel(level)`. -/
def setMaximumLevel (s : Model) (level : FVal) : Model := { s with m_maximum := level }

/-- The calls that change a cache: `setColumn`, `setCompletion` and the
setters of the class. -/
inductive Operation where
  | setColumn (index : Nat) (values : Column)
  | setCompletion (completion : Int) (update : Bool)
  | setStartFrame (f : Int)
  | setResolution (sz : Int)
  | setHeight (sz : Nat)
  | setMinimumLevel (level : FVal)
  | setMaximumLevel (level : FVal)
  | setValueUnit (unit : String)
  | setBinName (n : Nat) (name : String)
  | setBinNames (names : List String)
  | setBinValues (values : Column)
  | setBinValueUnit (unit : String)

/-- One call on the cache: the new state and the signals emitted.
`setStartFrame`, `setValueUnit`, `setBinName`, `setBinNames`, `setBinValues`
and `setBinValueUnit` write members that no modelled function reads
(`m_startFrame`, `m_unit`, `m_binNames`, `m_binValues`, `m_binValueUnit`), so
they leave the modelled members as they are; the two bin-name setters emit
`modelChanged`. -/
def perform (s : Model) : Operation → Option (Model × List Signal)
  | Operation.setColumn index values => setColumn s index values
  | Operation.setCompletion completion update => some (setCompletion s completion update)
  | Operation.setStartFrame _ => some (s, [])
  | Operation.setResolution sz => some (setResolution s sz, [])
  | Operation.setHeight sz => some (setHeight s sz, [])
  | Operation.setMinimumLevel level => some (setMinimumLevel s level, [])
  | Operation.setMaximumLevel level => some (setMaximumLevel s level, [])
  | Operation.setValueUnit _ => some (s, [])
  | Operation.setBinName _ _ => some (s, [Signal.modelChanged])
  | Operation.setBinNames _ => some (s, [Signal.modelChanged])
  | Operation.setBinValues _ => some (s, [])
  | Operation.setBinValueUnit _ => some (s, [])

/-- A sequence of calls, the signals dropped. -/
def performAll (s : Model) : List Operation → Option Model
  | [] => some s
  | op :: rest =>
    match perform s op with
    | none => none
    | some (s1, _) => performAll s1 rest

/-- The offset stored for the column before `index`: `m_trunc[index - 1]`. -/
def previousOffset (s : Model) (index : Nat) : Int := s.m_trunc.getD (index - 1) 0

/-- The distance from `index` to the column it refers to when written: one
more than the distance the column before it refers over. -/
def referenceDistance (s : Model) (index : Nat) : Nat := (previousOffset s index).natAbs + 1

/-- The matching leading run, in the words of the specification: the number
of bins, from bin 0 up, in which the column and its reference hold equal
values (C++ `==`) before the first bin in which they differ. -/
def leadingRun (values p : Column) : Nat :=
  ((values.zip p).takeWhile (fun ab => FVal.feq ab.1 ab.2)).length

/-- The matching trailing run, in the words of the specification: the same
count from the last bin down, for two columns of one length. -/
def trailingRun (values p : Column) : Nat := leadingRun values.reverse p.reverse

/-- The direction chosen, in the words of the specification: that of the
column before when it is truncated (`ptrunc` not zero), and otherwise top
exactly when the matching trailing run is strictly longer than the matching
leading run. -/
def topChosen (ptrunc : Int) (values p : Column) : Bool :=
  if ptrunc = 0 then decide (leadingRun values p < trailingRun values p)
  else decide (0 < ptrunc)

/-- The matched run in the chosen direction. -/
def matchedRun (ptrunc : Int) (values p : Column) : Nat :=
  if topChosen ptrunc values p then trailingRun values p else leadingRun values p

/-- The stored values and the stored offset, in the words of the
specification: truncated in the chosen direction when the matched run exceeds
a quarter of the bin count, verbatim otherwise. -/
def storedForm (h : Nat) (ptrunc : Int) (values p : Column) : Column × Int :=
  if h / 4 < matchedRun ptrunc values p then
    if topChosen ptrunc values p then
      (values.take (h - matchedRun ptrunc values p), ((ptrunc.natAbs + 1 : Nat) : Int))
    else
      (values.drop (matchedRun ptrunc values p), -((ptrunc.natAbs + 1 : Nat) : Int))
  else (values, 0)

/-- An example column of eight values. -/
def scenarioColumn0 : Column :=
  [FVal.fin 1, FVal.fin 2, FVal.fin 3, FVal.fin 4, FVal.fin 5, FVal.fin 6, FVal.fin 7,
    FVal.fin 8]

/-- An example column that differs from `scenarioColumn0` in its last value
only. -/
def scenarioColumn1 : Column :=
  [FVal.fin 1, FVal.fin 2, FVal.fin 3, FVal.fin 4, FVal.fin 5, FVal.fin 6, FVal.fin 7,
    FVal.fin 9]

/-- An example column that differs from `scenarioColumn0` in its first value
only. -/
def scenarioColumn2 : Column :=
  [FVal.fin 0, FVal.fin 2, FVal.fin 3, FVal.fin 4, FVal.fin 5, FVal.fin 6, FVal.fin 7,
    FVal.fin 8]

/-- The state of a fresh cache of eight bins after `scenarioColumn0` is
written at index 0. -/
def scenarioState : Model :=
  { m_resolution := 1
    m_yBinCount := 8
    m_minimum := FVal.fin 1
    m_maximum := FVal.fin 8
    m_haveExtents := true
    m_notifyOnAdd := true
    m_sinceLastNotifyMin := -1
    m_sinceLastNotifyMax := -1
    m_completion := 100
    m_data := [scenarioColumn0]
    m_trunc := [0] }

end BasicCompressedDenseThreeDimensionalModel

namespace LADSPAPluginFactory

/-- The two environment variables `getPluginPath` reads; `none` stands for a
null pointer returned by `getenv`. -/
structure Environment where
  LADSPA_PATH : Option String
  HOME : Option String

/-- The value of `path` when `getPluginPath` enters its loop: `LADSPA_PATH`
when it is set and not empty, and otherwise the built-in default, with
`$HOME/.ladspa` put first when `HOME` is set. -/
def searchPath (env : Environment) : String :=
  let path : String :=
    match env.LADSPA_PATH with
    | some cpath => cpath
    | none => ""
  if path = "" then
    let path := "/usr/local/lib/ladspa:/usr/lib/ladspa"
    match env.HOME with
    | some home => home ++ "/.ladspa:" ++ path
    | none => path
  else path

/-- The position of the first `ch` in a sequence of characters. -/
def findFirst (ch : Char) : List Char → Option Nat
  | [] => none
  | x :: rest => if x = ch then some 0 else (findFirst ch rest).map (fun k => k + 1)

/-- `path.find(ch, index)`: the position of the first `ch` at or after
`index`; `none` stands for `npos`. -/
def find (path : List Char) (ch : Char) (index : Nat) : Option Nat :=
  (findFirst ch (path.drop index)).map (fun k => index + k)

/-- `path.substr(index, count)`. -/
def substr (path : List Char) (index count : Nat) : List Char :=
  (path.drop index).take count

/-- The loop of `getPluginPath` and the `push_back` that follows it, with a
bound on the number of iterations; `none` stands for an exhausted bound.  The
strings come from `getenv`, so they hold no NUL character and the conversion
through `c_str()` keeps every character. -/
def splitLoop (path : List Char) : Nat → Nat → List String → Option (List String)
  | 0, _, _ => none
  | fuel + 1, index, pathList =>
    match find path ':' index with
    | some newindex =>
      splitLoop path fuel (newindex + 1)
        (pathList ++ [String.mk (substr path index (newindex - index))])
    | none => some (pathList ++ [String.mk (path.drop index)])

/-- `getPluginPath()`.  Every iteration moves `index` past one more character,
so `path.size() + 1` iterations are never exhausted. -/
def getPluginPath (env : Environment) : Option (List String) :=
  splitLoop (searchPath env).data ((searchPath env).data.length + 1) 0 []

/-- The calls on the factory that change the live instances or the library
handles. -/
inductive FactoryCall where
  | instantiatePlugin (identifier : String) (inst : Nat)
  | releasePlugin (inst : Nat) (identifier : String)
  | enumeratePlugins (list : List String)
  | unloadUnusedLibraries

/-- The members after one call. -/
def call (host : FileHost) (f : FactoryState) : FactoryCall → FactoryState
  | FactoryCall.instantiatePlugin identifier inst => (instantiatePlugin host f identifier inst).1
  | FactoryCall.releasePlugin inst identifier => releasePlugin host f inst identifier
  | FactoryCall.enumeratePlugins list => (enumeratePlugins host f list).1
  | FactoryCall.unloadUnusedLibraries => unloadUnusedLibraries host f

/-- The members after a sequence of calls. -/
def calls (host : FileHost) (f : FactoryState) (cs : List FactoryCall) : FactoryState :=
  cs.foldl (call host) f

/-- Every live instance has an identifier whose library name is a key of
`m_libraryHandles`. -/
def LiveLoaded (host : FileHost) (f : FactoryState) : Prop :=
  ∀ i ∈ f.m_instances,
    (f.m_libraryHandles.lookup (host.parseIdentifier i.2).2.1).isSome = true

/-- Two instances of `ladspa:lib.so:A` are created, the first is released,
and the plugins are enumerated. -/
def exampleCalls : List FactoryCall :=
  [FactoryCall.instantiatePlugin "ladspa:lib.so:A" 1,
   FactoryCall.instantiatePlugin "ladspa:lib.so:A" 2,
   FactoryCall.releasePlugin 1 "ladspa:lib.so:A",
   FactoryCall.enumeratePlugins [],
   FactoryCall.unloadUnusedLibraries]

end LADSPAPluginFactory

/-- The members of a `ResizeableBitset` built with a size: the bytes of the
vector `*m_bits` and `m_size`. -/
structure ResizeableBitset where
  m_bits : List Nat
  m_size : Nat
deriving DecidableEq

namespace ResizeableBitset

/-- The constructor `ResizeableBitset(size)`: `(size >> 3) + 1` zero bytes. -/
def create (size : Nat) : ResizeableBitset :=
  { m_bits := List.replicate ((size >>> 3) + 1) 0, m_size := size }

/-- `get(column)`; `none` stands for an access outside the vector. -/
def get (s : ResizeableBitset) (column : Nat) : Option Bool :=
  match s.m_bits[column >>> 3]? with
  | none => none
  | some byte => some (decide (byte &&& (1 <<< (column &&& 7)) ≠ 0))

/-- `set(column)`; the byte is stored as a `uint8_t`. -/
def set (s : ResizeableBitset) (column : Nat) : Option ResizeableBitset :=
  match s.m_bits[column >>> 3]? with
  | none => none
  | some byte =>
    some { s with
      m_bits := s.m_bits.set (column >>> 3) ((byte ||| (1 <<< (column &&& 7))) % 2 ^ 8) }

/-- `reset(column)`; `255 ^^^ mask` is the complement of the mask in eight
bits. -/
def reset (s : ResizeableBitset) (column : Nat) : Option ResizeableBitset :=
  match s.m_bits[column >>> 3]? with
  | none => none
  | some byte =>
    some { s with
      m_bits := s.m_bits.set (column >>> 3)
        ((byte &&& (255 ^^^ (1 <<< (column &&& 7)))) % 2 ^ 8) }

/-- The assignment `operator=` applied to the object `self` with argument
`b`; `sameObject` tells whether `&b == this`.  When `b` is another object the
first statement, `if (&b != this) return *this;`, returns at once.  When `b`
is the object itself the vector is deleted and then read, for which `none`
stands. -/
def assign (self _b : ResizeableBitset) (sameObject : Bool) : Option ResizeableBitset :=
  if !sameObject then some self
  else none

end ResizeableBitset

/-- The members of `PluginScan` that `scan`, `clear`, `scanSucceeded` and
`getStartupFailureReport` use.  `m_kp` is a `std::map` from tag to
`KnownPlugins`, of which the failure report is kept: an association list with
one entry per key. -/
structure PluginScan where
  m_succeeded : Bool
  m_kp : List (String × String)
deriving DecidableEq

namespace PluginScan

/-- One entry of the list `getHelperExecutables` returns. -/
structure HelperExec where
  executable : String
  tag : String
deriving DecidableEq

/-- The surroundings of a scan: what `new KnownPlugins(executable, logger)`
does for a helper, either throwing a `std::exception` (`none`) or giving an
object with the given failure report. -/
structure Host where
  knownPlugins : String → Option String

/-- The return statements of `getStartupFailureReport`. -/
inductive StartupFailureReport where
  | failedToScan
  | didNotScan
  | noFailure
  | failedToLoad
deriving DecidableEq

/-- The constructor. -/
def create : PluginScan := { m_succeeded := false, m_kp := [] }

/-- `clear()`. -/
def clear (_s : PluginScan) : PluginScan := { m_succeeded := false, m_kp := [] }

/-- One iteration of the second loop of `scan()` over the helpers. -/
def scanStep (host : Host) (s : PluginScan) (p : HelperExec) : PluginScan :=
  match host.knownPlugins p.executable with
  | none => s
  | some kp =>
    if (s.m_kp.lookup p.tag).isSome then s
    else { m_kp := s.m_kp ++ [(p.tag, kp)], m_succeeded := true }

/-- `scan()`, with `helpers` the list that `getHelperExecutables` returns. -/
def scan (host : Host) (s : PluginScan) (helpers : List HelperExec) : PluginScan :=
  helpers.foldl (scanStep host) (clear s)

/-- `scanSucceeded()`. -/
def scanSucceeded (s : PluginScan) : Bool := s.m_succeeded

/-- `getStartupFailureReport()`: the return statement taken. -/
def getStartupFailureReport (s : PluginScan) : StartupFailureReport :=
  if !s.m_succeeded then StartupFailureReport.failedToScan
  else if s.m_kp.isEmpty then StartupFailureReport.didNotScan
  else
    let report := s.m_kp.foldl (fun report kp => report ++ kp.2) ""
    if report = "" then StartupFailureReport.noFailure
    else StartupFailureReport.failedToLoad

/-- The calls that change a `PluginScan`. -/
inductive ScanCall where
  | scan (helpers : List HelperExec)
  | clear

/-- The members after one call. -/
def call (host : Host) (s : PluginScan) : ScanCall → PluginScan
  | ScanCall.scan helpers => scan host s helpers
  | ScanCall.clear => clear s

/-- The members after construction and a sequence of calls. -/
def calls (host : Host) (cs : List ScanCall) : PluginScan :=
  cs.foldl (call host) create

/-- The flag is set exactly when the helper table is not empty. -/
def FlagTracksTable (s : PluginScan) : Prop := s.m_succeeded = true ↔ s.m_kp ≠ []

end PluginScan

namespace CSVFileWriter

/-- A `Selection`: its start and end frames (`sv_frame_t`, a 64-bit signed
integer). -/
structure Selection where
  startFrame : Int
  endFrame : Int
deriving DecidableEq

/-- Conversion to `int`: the value modulo `2 ^ 32` in the range of a 32-bit
signed integer. -/
def toInt32 (x : Int) : Int := (x + 2 ^ 31) % 2 ^ 32 - 2 ^ 31

/-- Arithmetic in `sv_frame_t`: the value modulo `2 ^ 64` in the range of a
64-bit signed integer. -/
def toInt64 (x : Int) : Int := (x + 2 ^ 63) % 2 ^ 64 - 2 ^ 63

/-- The function passed to `std::accumulate`, computing in `sv_frame_t`. -/
def addSelection (acc : Int) (current : Selection) : Int :=
  toInt64 (acc + toInt64 (current.endFrame - current.startFrame))

/-- `nFramesToWrite` of `writeSelection`: `std::accumulate` with the initial
value `0`, an `int`, so that the accumulator is an `int` and the result of
each call of the function is converted to `int` when it is assigned to it. -/
def nFramesToWrite (selections : List Selection) : Int :=
  selections.foldl (fun acc current => toInt32 (addSelection (acc : Int) current)) 0

/-- The sum of the lengths of the selections. -/
def exactFrameCount (selections : List Selection) : Int :=
  (selections.map (fun s => s.endFrame - s.startFrame)).sum

/-- The progress percentage `100 * nFramesWrittenSoFar / nFramesToWrite`,
computed in `sv_frame_t`; `none` stands for a division by zero. -/
def progress (nFramesWrittenSoFar nFramesToWrite : Int) : Option Int :=
  if nFramesToWrite = 0 then none
  else some (toInt64 (Int.tdiv (toInt64 (100 * nFramesWrittenSoFar)) nFramesToWrite))

end CSVFileWriter

/-! ## Theorems -/

namespace FVal

/-! ## Lemmas: float comparison -/

theorem sameValue_refl (a : FVal) : sameValue a a := rfl

theorem sameValue_symm {a b : FVal} (h : sameValue a b) : sameValue b a := Eq.symm h

theorem flt_of_toRat? {a b : FVal} {x y : ℚ} (ha : a.toRat? = some x) (hb : b.toRat? = some y) :
    flt a b = decide (x < y) := by
  cases a <;> cases b <;> simp_all [toRat?, flt, key]

theorem toRat?_eq_none_iff (a : FVal) : a.toRat? = none ↔ (ISNAN a || ISINF a) = true := by
  cases a <;> simp [toRat?, ISNAN, ISINF]

theorem flt_irrefl (a : FVal) : flt a a = false := by
  unfold flt
  cases a.key <;> simp

theorem flt_trans {a b c : FVal} (h1 : flt a b = true) (h2 : flt b c = true) :
    flt a c = true := by
  unfold flt at *
  cases ha : a.key <;> cases hb : b.key <;> cases hc : c.key <;> simp_all
  rename_i x y z
  rcases h1 with h1 | ⟨h1, h1b⟩ <;> rcases h2 with h2 | ⟨h2, h2b⟩
  · exact Or.inl (lt_trans h1 h2)
  · exact Or.inl (h2 ▸ h1)
  · exact Or.inl (h1 ▸ h2)
  · exact Or.inr ⟨h1.trans h2, lt_trans h1b h2b⟩

theorem ne_of_flt {a b : FVal} (h : flt a b = true) : a ≠ b := by
  intro hab
  subst hab
  rw [flt_irrefl] at h
  cases h

/-- Two floats are the same value exactly when they are identical or both
are zeros. -/
theorem sameValue_iff (a b : FVal) :
    sameValue a b ↔ a = b ∨ (a.toRat? = some 0 ∧ b.toRat? = some 0) := by
  unfold sameValue
  cases a <;> cases b <;> simp [key, toRat?, Prod.ext_iff]
  · exact eq_comm
  · intro h1 h2
    rw [h1, h2]

theorem sameValue_of_feq {a b : FVal} (h : feq a b = true) : sameValue a b := by
  unfold feq at h
  unfold sameValue
  cases ha : a.key <;> cases hb : b.key <;> simp_all

end FVal

namespace BasicCompressedDenseThreeDimensionalModel

/-! ## Lemmas: the counting loops -/

theorem bottomLoop_le (values p : Column) (n i : Nat) : bottomLoop values p n i ≤ n := by
  induction n generalizing i with
  | zero => simp [bottomLoop]
  | succ n ih =>
    unfold bottomLoop
    split
    · split
      · have := ih (i + 1); omega
      · omega
    · omega

theorem bottomLoop_spec (values p : Column) (n i j : Nat) (hij : i ≤ j)
    (hj : j < i + bottomLoop values p n i) :
    ∃ a b, values[j]? = some a ∧ p[j]? = some b ∧ FVal.feq a b = true := by
  induction n generalizing i with
  | zero => simp [bottomLoop] at hj; omega
  | succ n ih =>
    unfold bottomLoop at hj
    split at hj
    · rename_i a b ha hb
      split at hj
      · rename_i hab
        rcases Nat.eq_or_lt_of_le hij with h | h
        · subst h; exact ⟨a, b, ha, hb, hab⟩
        · exact ih (i + 1) h (by omega)
      · omega
    · omega

theorem topLoop_le (values p : Column) (i : Nat) : topLoop values p i ≤ i := by
  induction i with
  | zero => simp [topLoop]
  | succ i ih =>
    unfold topLoop
    split
    · split
      · omega
      · omega
    · omega

theorem topLoop_spec (values p : Column) (i j : Nat) (hij : i - topLoop values p i ≤ j)
    (hj : j < i) :
    ∃ a b, values[j]? = some a ∧ p[j]? = some b ∧ FVal.feq a b = true := by
  induction i with
  | zero => omega
  | succ i ih =>
    unfold topLoop at hij
    split at hij
    · rename_i a b ha hb
      split at hij
      · rename_i hab
        rcases Nat.eq_or_lt_of_le (Nat.le_of_lt_succ hj) with h | h
        · subst h; exact ⟨a, b, ha, hb, hab⟩
        · exact ih (by omega) h
      · omega
    · omega

/-! ## Lemmas: expansion -/

theorem expandAux_fuel (h : Nat) (data : List Column) (trunc : List Int)
    (f1 f2 index : Nat) (h1 : index < f1) (h2 : index < f2) :
    expandAux h data trunc f1 index = expandAux h data trunc f2 index := by
  induction f1 generalizing f2 index with
  | zero => omega
  | succ f1 ih =>
    cases f2 with
    | zero => omega
    | succ f2 =>
      unfold expandAux
      split
      · rename_i c t hc ht
        by_cases h0 : index = 0
        · simp [h0]
        · by_cases ht0 : t = 0
          · simp [h0, ht0]
          · simp only [h0, ht0, if_false]
            by_cases hlt : index < t.natAbs
            · simp [hlt]
            · have hpos : 0 < t.natAbs := Int.natAbs_pos.mpr ht0
              simp only [hlt, if_false]
              rw [ih f2 (index - t.natAbs) (by omega) (by omega)]
      · rfl

/-- The unfolding equation of `expandAndRetrieve`, the recursive call being
`expandAndRetrieve` itself as in the source. -/
theorem expandAndRetrieve_eq (s : Model) (index : Nat) :
    expandAndRetrieve s index =
      match s.m_data[index]?, s.m_trunc[index]? with
      | some c, some t =>
        if index = 0 then some (rightHeight s.m_yBinCount c)
        else if t = 0 then some (rightHeight s.m_yBinCount c)
        else if index < t.natAbs then none
        else
          match expandAndRetrieve s (index - t.natAbs) with
          | none => none
          | some p =>
            if 0 < t then some (c ++ p.drop c.length)
            else if c.length ≤ p.length then
              some (p.take (p.length - c.length) ++ c)
            else none
      | _, _ => none := by
  unfold expandAndRetrieve
  rw [expandAux]
  split
  · rename_i c t hc ht
    simp only [hc, ht]
    by_cases h0 : index = 0
    · simp [h0]
    · by_cases ht0 : t = 0
      · simp [h0, ht0]
      · simp only [h0, ht0, if_false]
        by_cases hlt : index < t.natAbs
        · simp [hlt]
        · have hpos : 0 < t.natAbs := Int.natAbs_pos.mpr ht0
          simp only [hlt, if_false]
          rw [expandAux_fuel s.m_yBinCount s.m_data s.m_trunc index
            (index - t.natAbs + 1) (index - t.natAbs) (by omega) (by omega)]
          simp
  · rfl

/-- The expansion of column `j` reads only the columns up to `j`. -/
theorem expandAux_congr (h : Nat) (d1 d2 : List Column) (t1 t2 : List Int)
    (fuel j : Nat)
    (hd : ∀ k, k ≤ j → d1[k]? = d2[k]?) (ht : ∀ k, k ≤ j → t1[k]? = t2[k]?) :
    expandAux h d1 t1 fuel j = expandAux h d2 t2 fuel j := by
  induction fuel generalizing j with
  | zero => rfl
  | succ fuel ih =>
    unfold expandAux
    rw [hd j (Nat.le_refl j), ht j (Nat.le_refl j)]
    split
    · rename_i c t hc htt
      by_cases h0 : j = 0
      · simp [h0]
      · by_cases ht0 : t = 0
        · simp [h0, ht0]
        · simp only [h0, ht0, if_false]
          by_cases hlt : j < t.natAbs
          · simp [hlt]
          · simp only [hlt, if_false]
            rw [ih (j - t.natAbs) (fun k hk => hd k (by omega)) (fun k hk => ht k (by omega))]
    · rfl

theorem expandAndRetrieve_congr (s1 s2 : Model) (j : Nat)
    (hh : s1.m_yBinCount = s2.m_yBinCount)
    (hd : ∀ k, k ≤ j → s1.m_data[k]? = s2.m_data[k]?)
    (ht : ∀ k, k ≤ j → s1.m_trunc[k]? = s2.m_trunc[k]?) :
    expandAndRetrieve s1 j = expandAndRetrieve s2 j := by
  unfold expandAndRetrieve
  rw [hh]
  exact expandAux_congr _ _ _ _ _ _ _ hd ht

theorem rightHeight_length (h : Nat) (c : Column) : (rightHeight h c).length = h := by
  unfold rightHeight
  split
  · assumption
  · simp only [List.length_append, List.length_take, List.length_replicate]
    omega

/-- Under the invariant every in-range column expands, to `m_yBinCount`
values. -/
theorem expandAndRetrieve_some (s : Model) (hs : Inv s) (index : Nat)
    (hi : index < s.m_data.length) :
    ∃ c, expandAndRetrieve s index = some c ∧ c.length = s.m_yBinCount := by
  induction index using Nat.strong_induction_on with
  | _ index ih =>
    have hit : index < s.m_trunc.length := by rw [hs.len]; exact hi
    rw [expandAndRetrieve_eq]
    rw [List.getElem?_eq_getElem hi, List.getElem?_eq_getElem hit]
    simp only
    by_cases h0 : index = 0
    · simp [h0, rightHeight_length]
    · by_cases ht0 : s.m_trunc[index] = 0
      · simp [h0, ht0, rightHeight_length]
      · simp only [h0, ht0, if_false]
        have hb := hs.bound index _ (List.getElem?_eq_getElem hit)
        have hsh := hs.short index _ _ (List.getElem?_eq_getElem hit) ht0
          (List.getElem?_eq_getElem hi)
        have hpos : 0 < (s.m_trunc[index]).natAbs := Int.natAbs_pos.mpr ht0
        have hnlt : ¬ index < (s.m_trunc[index]).natAbs := by omega
        simp only [hnlt, if_false]
        obtain ⟨p, hp, hpl⟩ := ih (index - (s.m_trunc[index]).natAbs) (by omega) (by omega)
        rw [hp]
        simp only
        by_cases htop : 0 < s.m_trunc[index]
        · simp only [htop, if_true]
          refine ⟨_, rfl, ?_⟩
          simp only [List.length_append, List.length_drop]
          omega
        · simp only [htop, if_false]
          have : (s.m_data[index]).length ≤ p.length := by omega
          simp only [this, if_true]
          refine ⟨_, rfl, ?_⟩
          simp only [List.length_append, List.length_take]
          omega

/-! ## Lemmas: storing a column -/

theorem truncateAndStore_some (s : Model) (hs : Inv s) (index : Nat) (values : Column)
    (hi : index < s.m_data.length) :
    ∃ stored t,
      truncateAndStore s index values =
        some { s with m_data := s.m_data.set index stored, m_trunc := s.m_trunc.set index t } ∧
      StoredAs s index values stored t := by
  unfold truncateAndStore
  have hnle : ¬ s.m_data.length ≤ index := by omega
  simp only [hnle, if_false]
  by_cases hv : index = 0 ∨ values.length ≠ s.m_yBinCount
  · simp only [hv, if_true]
    exact ⟨values, 0, rfl, StoredAs.verbatim⟩
  · simp only [hv, if_false]
    have h0 : index ≠ 0 := fun h => hv (Or.inl h)
    have hvl : values.length = s.m_yBinCount := by
      by_contra h; exact hv (Or.inr h)
    have hit : index - 1 < s.m_trunc.length := by rw [hs.len]; omega
    have hne : index ≠ index - 1 := by omega
    have hp1 : (s.m_trunc.set index 0)[index - 1]? = some (s.m_trunc[index - 1]) := by
      rw [List.getElem?_set_ne hne, List.getElem?_eq_getElem hit]
    rw [hp1]
    simp only
    have hb := hs.bound (index - 1) _ (List.getElem?_eq_getElem hit)
    generalize s.m_trunc[index - 1] = ptrunc at hb
    have hnlt : ¬ index < ptrunc.natAbs + 1 := by omega
    simp only [hnlt, if_false]
    have hcongr : expandAndRetrieve { s with m_trunc := s.m_trunc.set index 0 }
        (index - (ptrunc.natAbs + 1)) = expandAndRetrieve s (index - (ptrunc.natAbs + 1)) := by
      apply expandAndRetrieve_congr
      · rfl
      · intro k _; rfl
      · intro k hk
        show (s.m_trunc.set index 0)[k]? = s.m_trunc[k]?
        rw [List.getElem?_set_ne (by omega)]
    rw [hcongr]
    obtain ⟨p, hp, hpl⟩ := expandAndRetrieve_some s hs (index - (ptrunc.natAbs + 1)) (by omega)
    rw [hp]
    simp only [List.set_set]
    by_cases hcond : p.length = s.m_yBinCount ∧ ptrunc.natAbs + 1 ≤ maxdist
    · simp only [hcond, and_self, if_true]
      have hB := StoredAs.bottom (ptrunc.natAbs + 1) _ p h0 hvl (by omega) (by omega) hcond.2
            hp hpl (bottomLoop_le values p s.m_yBinCount 0)
            (fun j hj => bottomLoop_spec values p s.m_yBinCount 0 j (Nat.zero_le j) (by omega))
      have hT := StoredAs.top (ptrunc.natAbs + 1) _ p h0 hvl (by omega) (by omega) hcond.2
            hp hpl (topLoop_le values p s.m_yBinCount)
            (fun j hj1 hj2 => topLoop_spec values p s.m_yBinCount j hj1 hj2)
      rcases lt_trichotomy ptrunc 0 with hneg | hz | hpos
      · have h1 : ptrunc ≠ 0 := by omega
        have h2 : ¬ 0 < ptrunc := by omega
        simp only [h1, h2, ne_eq, not_false_eq_true, decide_True, decide_False, Bool.not_true,
          Bool.not_false, Bool.or_true, Bool.or_false, Bool.false_or, Bool.true_or, if_true,
          if_false, Bool.false_eq_true]
        by_cases hlim : s.m_yBinCount / 4 < bottomLoop values p s.m_yBinCount 0
        · simp only [hlim, if_true]
          exact ⟨_, _, rfl, hB⟩
        · simp only [hlim, if_false]
          exact ⟨values, 0, rfl, StoredAs.verbatim⟩
      · subst hz
        simp only [ne_eq, not_true_eq_false, decide_False, Bool.not_false, Bool.true_or,
          if_true, lt_self_iff_false]
        by_cases hbt : bottomLoop values p s.m_yBinCount 0 < topLoop values p s.m_yBinCount
        · simp only [hbt, decide_True, if_true, Bool.not_true, Bool.false_eq_true, if_false]
          by_cases hlim : s.m_yBinCount / 4 < topLoop values p s.m_yBinCount
          · simp only [hlim, if_true]
            exact ⟨_, _, rfl, hT⟩
          · simp only [hlim, if_false]
            exact ⟨values, 0, rfl, StoredAs.verbatim⟩
        · simp only [hbt, decide_False, if_true, Bool.not_false, Bool.false_eq_true, if_false]
          by_cases hlim : s.m_yBinCount / 4 < bottomLoop values p s.m_yBinCount 0
          · simp only [hlim, if_true]
            exact ⟨_, _, rfl, hB⟩
          · simp only [hlim, if_false]
            exact ⟨values, 0, rfl, StoredAs.verbatim⟩
      · have h1 : ptrunc ≠ 0 := by omega
        simp only [h1, hpos, ne_eq, not_false_eq_true, decide_True, decide_False, Bool.not_true,
          Bool.not_false, Bool.or_true, Bool.or_false, Bool.false_or, Bool.true_or, if_true,
          if_false, Bool.false_eq_true]
        by_cases hlim : s.m_yBinCount / 4 < topLoop values p s.m_yBinCount
        · simp only [hlim, if_true]
          exact ⟨_, _, rfl, hT⟩
        · simp only [hlim, if_false]
          exact ⟨values, 0, rfl, StoredAs.verbatim⟩
    · simp only [hcond, if_false]
      exact ⟨values, 0, rfl, StoredAs.verbatim⟩

theorem forall₂_sameValue_of_getElem? (l1 l2 : Column) (hl : l1.length = l2.length)
    (h : ∀ (j : Nat) (x y : FVal), l1[j]? = some x → l2[j]? = some y → FVal.sameValue x y) :
    List.Forall₂ FVal.sameValue l1 l2 := by
  rw [List.forall₂_iff_get]
  refine ⟨hl, fun j h1 h2 => ?_⟩
  exact h j _ _ (List.getElem?_eq_getElem h1) (List.getElem?_eq_getElem h2)

theorem forall₂_sameValue_refl (l : Column) : List.Forall₂ FVal.sameValue l l :=
  forall₂_sameValue_of_getElem? l l rfl (fun j x y hx hy => by
    rw [hx] at hy
    cases hy
    exact FVal.sameValue_refl x)

theorem StoredAs_zero (s : Model) (index : Nat) (values c : Column) (t : Int)
    (h : StoredAs s index values c t) (hw : index = 0 ∨ values.length ≠ s.m_yBinCount) :
    t = 0 := by
  cases h with
  | verbatim => rfl
  | bottom tdist b p h0 hv _ _ _ _ _ _ _ =>
    rcases hw with hw | hw
    · exact absurd hw h0
    · exact absurd hv hw
  | top tdist tc p h0 hv _ _ _ _ _ _ _ =>
    rcases hw with hw | hw
    · exact absurd hw h0
    · exact absurd hv hw

theorem Inv_stored (s : Model) (hs : Inv s) (index : Nat) (values c : Column) (t : Int)
    (hst : StoredAs s index values c t) : Inv (stored s index c t) := by
  constructor
  · show (s.m_trunc.set index t).length = (s.m_data.set index c).length
    simp [hs.len]
  · intro i t1 hi
    change (s.m_trunc.set index t)[i]? = some t1 at hi
    by_cases hii : index = i
    · subst hii
      rw [List.getElem?_set] at hi
      simp only [if_true] at hi
      split at hi
      · cases hi
        cases hst with
        | verbatim => simp
        | bottom tdist b p _ _ h1 h2 h3 _ _ _ _ =>
          simp only [Int.natAbs_neg, Int.natAbs_ofNat]
          exact ⟨h2, h3⟩
        | top tdist tc p _ _ h1 h2 h3 _ _ _ _ =>
          simp only [Int.natAbs_ofNat]
          exact ⟨h2, h3⟩
      · cases hi
    · rw [List.getElem?_set_ne hii] at hi
      exact hs.bound i t1 hi
  · intro i t1 c1 hi ht1 hc1
    change (s.m_trunc.set index t)[i]? = some t1 at hi
    change (s.m_data.set index c)[i]? = some c1 at hc1
    show c1.length ≤ s.m_yBinCount
    by_cases hii : index = i
    · subst hii
      rw [List.getElem?_set] at hi hc1
      simp only [if_true] at hi hc1
      split at hi
      · split at hc1
        · cases hi
          cases hc1
          cases hst with
          | verbatim => exact absurd rfl ht1
          | bottom tdist b p _ hv _ _ _ _ _ _ _ =>
            simp only [List.length_drop]
            omega
          | top tdist tc p _ hv _ _ _ _ _ _ _ =>
            simp only [List.length_take]
            omega
        · cases hc1
      · cases hi
    · rw [List.getElem?_set_ne hii] at hi hc1
      exact hs.short i t1 c1 hi ht1 hc1

theorem expandAndRetrieve_stored_below (s : Model) (index j : Nat) (c : Column) (t : Int)
    (hj : j < index) :
    expandAndRetrieve (stored s index c t) j = expandAndRetrieve s j := by
  apply expandAndRetrieve_congr
  · rfl
  · intro k hk
    show (s.m_data.set index c)[k]? = s.m_data[k]?
    rw [List.getElem?_set_ne (by omega)]
  · intro k hk
    show (s.m_trunc.set index t)[k]? = s.m_trunc[k]?
    rw [List.getElem?_set_ne (by omega)]

/-- What `expandAndRetrieve(index)` returns right after `truncateAndStore`
stored `values` at `index`. -/
theorem expandAndRetrieve_stored (s : Model) (hs : Inv s) (index : Nat) (values c : Column)
    (t : Int) (hi : index < s.m_data.length) (hst : StoredAs s index values c t) :
    ∃ out, expandAndRetrieve (stored s index c t) index = some out ∧
      (t = 0 → c = values ∧ out = rightHeight s.m_yBinCount values) ∧
      (values.length = s.m_yBinCount → List.Forall₂ FVal.sameValue out values) := by
  have hit : index < s.m_trunc.length := by rw [hs.len]; exact hi
  rw [expandAndRetrieve_eq]
  have hd : (stored s index c t).m_data[index]? = some c := by
    show (s.m_data.set index c)[index]? = some c
    exact List.getElem?_set_self hi
  have htr : (stored s index c t).m_trunc[index]? = some t := by
    show (s.m_trunc.set index t)[index]? = some t
    exact List.getElem?_set_self hit
  rw [hd, htr]
  simp only
  have hy : (stored s index c t).m_yBinCount = s.m_yBinCount := rfl
  rw [hy]
  cases hst with
  | verbatim =>
    simp only [if_true, ite_self]
    refine ⟨_, rfl, fun _ => by simp, fun hv => ?_⟩
    unfold rightHeight
    simp only [hv, if_true]
    exact forall₂_sameValue_refl values
  | bottom tdist b p h0 hv h1 h2 h3 hp hpl hb hspec =>
    have ht0 : ¬ (-(tdist : Int) = 0) := by omega
    have hnlt : ¬ index < (-(tdist : Int)).natAbs := by
      simp only [Int.natAbs_neg, Int.natAbs_ofNat]; omega
    have hnpos : ¬ (0 < -(tdist : Int)) := by omega
    simp only [h0, ht0, hnlt, if_false]
    have hna : (-(tdist : Int)).natAbs = tdist := by simp
    rw [hna, expandAndRetrieve_stored_below s index (index - tdist) _ _ (by omega), hp]
    simp only [hnpos, if_false]
    have hle : (values.drop b).length ≤ p.length := by
      simp only [List.length_drop]; omega
    simp only [hle, if_true]
    refine ⟨_, rfl, fun h => h.elim, fun _ => ?_⟩
    have hlen : p.length - (values.drop b).length = b := by
      simp only [List.length_drop]; omega
    rw [hlen]
    apply forall₂_sameValue_of_getElem?
    · simp only [List.length_append, List.length_take, List.length_drop]; omega
    · intro j x y hx hy
      rw [List.getElem?_append] at hx
      simp only [List.length_take] at hx
      by_cases hjb : j < b
      · have hjm : j < min b p.length := by
          simp only [Nat.lt_min]; omega
        simp only [hjm, if_true] at hx
        rw [List.getElem?_take] at hx
        simp only [hjb, if_true] at hx
        obtain ⟨x1, y1, hx1, hy1, hf⟩ := hspec j hjb
        rw [hx1] at hy
        rw [hy1] at hx
        cases hx
        cases hy
        exact FVal.sameValue_symm (FVal.sameValue_of_feq hf)
      · have hjm : ¬ j < min b p.length := by
          simp only [Nat.lt_min]; omega
        simp only [hjm, if_false] at hx
        rw [List.getElem?_drop] at hx
        have hmin : min b p.length = b := by omega
        rw [hmin] at hx
        have hidx : b + (j - b) = j := by omega
        rw [hidx, hy] at hx
        cases hx
        exact FVal.sameValue_refl x
  | top tdist tc p h0 hv h1 h2 h3 hp hpl hb hspec =>
    have ht0 : ¬ ((tdist : Int) = 0) := by omega
    have hnlt : ¬ index < ((tdist : Int)).natAbs := by
      simp only [Int.natAbs_ofNat]; omega
    have hpos : (0 < (tdist : Int)) := by omega
    simp only [h0, ht0, hnlt, if_false]
    have hna : ((tdist : Int)).natAbs = tdist := by simp
    rw [hna, expandAndRetrieve_stored_below s index (index - tdist) _ _ (by omega), hp]
    simp only [hpos, if_true]
    refine ⟨_, rfl, fun h => h.elim, fun _ => ?_⟩
    have hlen : (values.take (s.m_yBinCount - tc)).length = s.m_yBinCount - tc := by
      simp only [List.length_take]; omega
    rw [hlen]
    apply forall₂_sameValue_of_getElem?
    · simp only [List.length_append, List.length_take, List.length_drop]; omega
    · intro j x y hx hy
      rw [List.getElem?_append] at hx
      simp only [hlen] at hx
      by_cases hjb : j < s.m_yBinCount - tc
      · simp only [hjb, if_true] at hx
        rw [List.getElem?_take] at hx
        simp only [hjb, if_true] at hx
        rw [hy] at hx
        cases hx
        exact FVal.sameValue_refl x
      · simp only [hjb, if_false] at hx
        rw [List.getElem?_drop] at hx
        have hidx : s.m_yBinCount - tc + (j - (s.m_yBinCount - tc)) = j := by omega
        rw [hidx] at hx
        have hjh : j < s.m_yBinCount := by
          have := (List.getElem?_eq_some.mp hy).1
          omega
        obtain ⟨x1, y1, hx1, hy1, hf⟩ := hspec j (by omega) hjh
        rw [hx1] at hy
        rw [hy1] at hx
        cases hx
        cases hy
        exact FVal.sameValue_symm (FVal.sameValue_of_feq hf)

/-! ## Lemmas: `setColumn` -/

theorem Inv_of_eq (s1 s2 : Model) (hh : s2.m_yBinCount = s1.m_yBinCount)
    (hd : s2.m_data = s1.m_data) (ht : s2.m_trunc = s1.m_trunc) (hs : Inv s1) : Inv s2 := by
  constructor
  · rw [hd, ht]; exact hs.len
  · rw [ht]; exact hs.bound
  · rw [hd, ht, hh]; exact hs.short

theorem Inv_create (resolution : Int) (yBinCount : Nat) (notifyOnAdd : Bool) :
    Inv (create resolution yBinCount notifyOnAdd) := by
  constructor
  · rfl
  · intro i t h; simp [create] at h
  · intro i t c h; simp [create] at h

theorem Inv_growTo (s : Model) (hs : Inv s) (index : Nat) : Inv (growTo s index) := by
  constructor
  · simp [growTo, hs.len]
  · intro i t h
    change (s.m_trunc ++ List.replicate (index + 1 - s.m_data.length) 0)[i]? = some t at h
    rw [List.getElem?_append] at h
    split at h
    · exact hs.bound i t h
    · rw [List.getElem?_replicate] at h
      split at h
      · cases h; simp
      · cases h
  · intro i t c h ht hc
    change (s.m_trunc ++ List.replicate (index + 1 - s.m_data.length) 0)[i]? = some t at h
    change (s.m_data ++ List.replicate (index + 1 - s.m_data.length) [])[i]? = some c at hc
    show c.length ≤ s.m_yBinCount
    rw [List.getElem?_append] at h hc
    rw [hs.len] at h
    split at h
    · rename_i hlt
      simp only [hlt, if_true] at hc
      exact hs.short i t c h ht hc
    · rw [List.getElem?_replicate] at h
      split at h
      · cases h; exact absurd rfl ht
      · cases h

theorem growTo_length (s : Model) (index : Nat) : index < (growTo s index).m_data.length := by
  simp only [growTo, List.length_append, List.length_replicate]
  omega

theorem Inv_beforeStore (s : Model) (hs : Inv s) (index : Nat) (values : Column) :
    Inv (beforeStore s index values) :=
  Inv_of_eq (growTo s index) _ rfl rfl rfl (Inv_growTo s hs index)

theorem beforeStore_length (s : Model) (index : Nat) (values : Column) :
    index < (beforeStore s index values).m_data.length :=
  growTo_length s index

theorem notifyAfterStore_fst (s : Model) (index : Nat) (allChange : Bool) :
    (notifyAfterStore s index allChange).1.m_data = s.m_data ∧
    (notifyAfterStore s index allChange).1.m_trunc = s.m_trunc ∧
    (notifyAfterStore s index allChange).1.m_yBinCount = s.m_yBinCount ∧
    (notifyAfterStore s index allChange).1.m_minimum = s.m_minimum ∧
    (notifyAfterStore s index allChange).1.m_maximum = s.m_maximum ∧
    (notifyAfterStore s index allChange).1.m_haveExtents = s.m_haveExtents ∧
    (notifyAfterStore s index allChange).1.m_notifyOnAdd = s.m_notifyOnAdd := by
  unfold notifyAfterStore
  simp only
  split
  · split <;> simp
  · split <;> simp

/-- On a model satisfying the invariant `setColumn` returns, having stored
the column in one of the forms of `StoredAs`. -/
theorem setColumn_some (s : Model) (hs : Inv s) (index : Nat) (values : Column) :
    ∃ c t, StoredAs (beforeStore s index values) index values c t ∧
      setColumn s index values =
        some (notifyAfterStore (stored (beforeStore s index values) index c t) index
          (scanExtents (growTo s index) values).allChange) := by
  obtain ⟨c, t, h1, h2⟩ := truncateAndStore_some (beforeStore s index values)
    (Inv_beforeStore s hs index values) index values (beforeStore_length s index values)
  refine ⟨c, t, h2, ?_⟩
  unfold setColumn
  simp only
  change truncateAndStore (beforeStore s index values) index values = _ at h1
  unfold beforeStore at h1
  rw [h1]
  rfl

theorem Inv_setColumn (s : Model) (hs : Inv s) (index : Nat) (values : Column) :
    ∃ r, setColumn s index values = some r ∧ Inv r.1 ∧ r.1.m_yBinCount = s.m_yBinCount := by
  obtain ⟨c, t, h1, h2⟩ := setColumn_some s hs index values
  refine ⟨_, h2, ?_, ?_⟩
  · have hn := notifyAfterStore_fst (stored (beforeStore s index values) index c t) index
      (scanExtents (growTo s index) values).allChange
    exact Inv_of_eq _ _ hn.2.2.1 hn.1 hn.2.1
      (Inv_stored _ (Inv_beforeStore s hs index values) index values c t h1)
  · have hn := notifyAfterStore_fst (stored (beforeStore s index values) index c t) index
      (scanExtents (growTo s index) values).allChange
    rw [hn.2.2.1]
    rfl

theorem Inv_setColumns (s : Model) (hs : Inv s) (ops : List (Nat × Column)) :
    ∃ s1, setColumns s ops = some s1 ∧ Inv s1 ∧ s1.m_yBinCount = s.m_yBinCount := by
  induction ops generalizing s with
  | nil => exact ⟨s, rfl, hs, rfl⟩
  | cons op ops ih =>
    obtain ⟨index, values⟩ := op
    obtain ⟨r, hr, hinv, hy⟩ := Inv_setColumn s hs index values
    obtain ⟨s1, h1, h2, h3⟩ := ih r.1 hinv
    refine ⟨s1, ?_, h2, by rw [h3, hy]⟩
    unfold setColumns
    rw [hr]
    exact h1

theorem in_range_for_natCast (size index : Nat) (h : index < size) :
    in_range_for size (index : Int) = true := by
  unfold in_range_for
  simp only [Bool.and_eq_true, decide_eq_true_eq]
  omega

/-- What `getColumn(index)` returns right after `setColumn(index, values)`. -/
theorem getColumn_setColumn (s : Model) (hs : Inv s) (index : Nat) (values : Column) :
    ∃ r c t out, setColumn s index values = some r ∧
      r.1.m_data[index]? = some c ∧ r.1.m_trunc[index]? = some t ∧
      getColumn r.1 (index : Int) = some out ∧
      (t = 0 → c = values ∧ out = rightHeight s.m_yBinCount values) ∧
      (values.length = s.m_yBinCount → List.Forall₂ FVal.sameValue out values) ∧
      (index = 0 ∨ values.length ≠ s.m_yBinCount → t = 0) := by
  obtain ⟨c, t, h1, h2⟩ := setColumn_some s hs index values
  have hinv := Inv_beforeStore s hs index values
  have hlen := beforeStore_length s index values
  obtain ⟨out, ho, hz, hsame⟩ := expandAndRetrieve_stored _ hinv index values c t hlen h1
  have hn := notifyAfterStore_fst (stored (beforeStore s index values) index c t) index
      (scanExtents (growTo s index) values).allChange
  refine ⟨_, c, t, out, h2, ?_, ?_, ?_, hz, hsame,
    fun hw => StoredAs_zero (beforeStore s index values) index values c t h1 hw⟩
  · rw [hn.1]
    show ((beforeStore s index values).m_data.set index c)[index]? = some c
    exact List.getElem?_set_self hlen
  · rw [hn.2.1]
    show ((beforeStore s index values).m_trunc.set index t)[index]? = some t
    exact List.getElem?_set_self (by rw [hinv.len]; exact hlen)
  · unfold getColumn
    have hl : index < (notifyAfterStore (stored (beforeStore s index values) index c t) index
        (scanExtents (growTo s index) values).allChange).1.m_data.length := by
      rw [hn.1]
      show index < ((beforeStore s index values).m_data.set index c).length
      rw [List.length_set]
      exact hlen
    rw [in_range_for_natCast _ _ hl]
    simp only [if_true, Int.toNat_ofNat]
    rw [← ho]
    exact expandAndRetrieve_congr _ _ _ hn.2.2.1 (fun k _ => by rw [hn.1])
      (fun k _ => by rw [hn.2.1])

/-- A write leaves every column below the written index as it was read
before. -/
theorem getColumn_setColumn_below (s : Model) (hs : Inv s) (index j : Nat)
    (values : Column) (hj : j < index) (hjr : j < s.m_data.length) :
    ∃ r, setColumn s index values = some r ∧ getColumn r.1 (j : Int) = getColumn s (j : Int) := by
  obtain ⟨c, t, h1, h2⟩ := setColumn_some s hs index values
  have hn := notifyAfterStore_fst (stored (beforeStore s index values) index c t) index
      (scanExtents (growTo s index) values).allChange
  have hlen := beforeStore_length s index values
  refine ⟨_, h2, ?_⟩
  unfold getColumn
  have hl : j < (notifyAfterStore (stored (beforeStore s index values) index c t) index
      (scanExtents (growTo s index) values).allChange).1.m_data.length := by
    rw [hn.1]
    show j < ((beforeStore s index values).m_data.set index c).length
    rw [List.length_set]
    omega
  rw [in_range_for_natCast _ _ hl, in_range_for_natCast _ _ hjr]
  simp only [if_true, Int.toNat_ofNat]
  have e1 : expandAndRetrieve (notifyAfterStore (stored (beforeStore s index values) index c t)
      index (scanExtents (growTo s index) values).allChange).1 j =
      expandAndRetrieve (stored (beforeStore s index values) index c t) j :=
    expandAndRetrieve_congr _ _ _ hn.2.2.1 (fun k _ => by rw [hn.1]) (fun k _ => by rw [hn.2.1])
  rw [e1, expandAndRetrieve_stored_below _ _ _ _ _ hj]
  apply expandAndRetrieve_congr
  · rfl
  · intro k hk
    show (s.m_data ++ List.replicate (index + 1 - s.m_data.length) [])[k]? = s.m_data[k]?
    rw [List.getElem?_append_left (by omega)]
  · intro k hk
    show (s.m_trunc ++ List.replicate (index + 1 - s.m_data.length) 0)[k]? = s.m_trunc[k]?
    rw [List.getElem?_append_left (by rw [hs.len]; omega)]

/-! ## Lemmas: the running extents -/

theorem finiteValues_cons (v : FVal) (vs : Column) :
    finiteValues (v :: vs) = finiteValues [v] ++ finiteValues vs := by
  unfold finiteValues
  cases h : v.toRat? <;> simp [List.filterMap_cons, h]

theorem finiteValues_append (a b : Column) :
    finiteValues (a ++ b) = finiteValues a ++ finiteValues b := by
  unfold finiteValues
  exact List.filterMap_append _ _ _

theorem extentsStep_ExtentsOf (e : Extents) (seen : List ℚ) (v : FVal)
    (h : ExtentsOf e seen) : ExtentsOf (extentsStep e v) (seen ++ finiteValues [v]) := by
  unfold extentsStep
  cases hv : v.toRat? with
  | none =>
    have hnf := (FVal.toRat?_eq_none_iff v).mp hv
    simp only [hnf, if_true]
    have : finiteValues [v] = [] := by simp [finiteValues, hv]
    rw [this, List.append_nil]
    exact h
  | some q =>
    have hnf : ¬ ((FVal.ISNAN v || FVal.ISINF v) = true) := by
      intro hc
      rw [← FVal.toRat?_eq_none_iff, hv] at hc
      cases hc
    simp only [hnf, if_false]
    have hfv : finiteValues [v] = [q] := by simp [finiteValues, hv]
    rw [hfv]
    cases hh : e.haveExtents with
    | false =>
      have hs := h.1 hh
      subst hs
      unfold ExtentsOf
      refine ⟨fun hc => Bool.noConfusion hc, fun _ => ⟨q, q, ?_, ?_, ?_⟩⟩
      · simp [hv]
      · simp [hv]
      · simp
    | true =>
      obtain ⟨lo, hi, hlo, hhi, hlm, hhm, hall⟩ := h.2 hh
      unfold ExtentsOf
      refine ⟨fun hc => Bool.noConfusion hc, fun _ => ?_⟩
      simp only [Bool.not_true, Bool.false_or, FVal.fgt]
      rw [FVal.flt_of_toRat? hv hlo, FVal.flt_of_toRat? hhi hv]
      have hlh : lo ≤ hi := (hall lo hlm).2
      by_cases h1 : q < lo
      · have h2 : ¬ hi < q := by
          intro hc
          exact absurd (lt_of_lt_of_le (lt_trans hc h1) hlh) (lt_irrefl _)
        simp only [h1, h2, decide_True, decide_False, if_true, Bool.false_eq_true, if_false]
        refine ⟨q, hi, hv, hhi, by simp, by simp [hhm], ?_⟩
        intro x hx
        rcases List.mem_append.mp hx with hx | hx
        · exact ⟨le_trans (le_of_lt h1) (hall x hx).1, (hall x hx).2⟩
        · simp only [List.mem_singleton] at hx
          subst hx
          exact ⟨le_refl _, le_of_not_lt h2⟩
      · by_cases h2 : hi < q
        · simp only [h1, h2, decide_True, decide_False, if_true, Bool.false_eq_true, if_false]
          refine ⟨lo, q, hlo, hv, by simp [hlm], by simp, ?_⟩
          intro x hx
          rcases List.mem_append.mp hx with hx | hx
          · exact ⟨(hall x hx).1, le_trans (hall x hx).2 (le_of_lt h2)⟩
          · simp only [List.mem_singleton] at hx
            subst hx
            exact ⟨le_of_not_lt h1, le_refl _⟩
        · simp only [h1, h2, decide_False, Bool.false_eq_true, if_false]
          refine ⟨lo, hi, hlo, hhi, by simp [hlm], by simp [hhm], ?_⟩
          intro x hx
          rcases List.mem_append.mp hx with hx | hx
          · exact hall x hx
          · simp only [List.mem_singleton] at hx
            subst hx
            exact ⟨le_of_not_lt h1, le_of_not_lt h2⟩

theorem foldl_extentsStep_ExtentsOf (values : Column) (e : Extents) (seen : List ℚ)
    (h : ExtentsOf e seen) :
    ExtentsOf (values.foldl extentsStep e) (seen ++ finiteValues values) := by
  induction values generalizing e seen with
  | nil => simpa [finiteValues] using h
  | cons v vs ih =>
    rw [List.foldl_cons, finiteValues_cons, ← List.append_assoc]
    exact ih _ _ (extentsStep_ExtentsOf e seen v h)

theorem setColumn_extents (s : Model) (hs : Inv s) (index : Nat) (values : Column) :
    ∃ r, setColumn s index values = some r ∧
      r.1.m_minimum = (values.foldl extentsStep (extentsIn s)).minimum ∧
      r.1.m_maximum = (values.foldl extentsStep (extentsIn s)).maximum ∧
      r.1.m_haveExtents = (values.foldl extentsStep (extentsIn s)).haveExtents ∧
      r.2 = (notifyAfterStore s index (values.foldl extentsStep (extentsIn s)).allChange).2 ∧
      r.1.m_notifyOnAdd = s.m_notifyOnAdd ∧
      r.1.m_sinceLastNotifyMin =
        (notifyAfterStore s index (values.foldl extentsStep (extentsIn s)).allChange).1.m_sinceLastNotifyMin ∧
      r.1.m_sinceLastNotifyMax =
        (notifyAfterStore s index (values.foldl extentsStep (extentsIn s)).allChange).1.m_sinceLastNotifyMax := by
  obtain ⟨c, t, _, h2⟩ := setColumn_some s hs index values
  refine ⟨_, h2, ?_⟩
  have hn := notifyAfterStore_fst (stored (beforeStore s index values) index c t) index
      (scanExtents (growTo s index) values).allChange
  refine ⟨hn.2.2.2.1, hn.2.2.2.2.1, hn.2.2.2.2.2.1, ?_, hn.2.2.2.2.2.2, ?_, ?_⟩
  · unfold notifyAfterStore
    simp only [stored, beforeStore, applyExtents, growTo, scanExtents, extentsIn]
    split <;> split <;> rfl
  · unfold notifyAfterStore
    simp only [stored, beforeStore, applyExtents, growTo, scanExtents, extentsIn]
    split <;> split <;> rfl
  · unfold notifyAfterStore
    simp only [stored, beforeStore, applyExtents, growTo, scanExtents, extentsIn]
    split <;> split <;> rfl

theorem setColumns_ExtentsOf (ops : List (Nat × Column)) (s : Model) (hs : Inv s)
    (seen : List ℚ) (h : ExtentsOf (extentsIn s) seen) :
    ∃ s1, setColumns s ops = some s1 ∧
      ExtentsOf (extentsIn s1) (seen ++ finiteValues (writtenValues ops)) := by
  induction ops generalizing s seen with
  | nil => exact ⟨s, rfl, by simpa [writtenValues, finiteValues] using h⟩
  | cons op ops ih =>
    obtain ⟨index, values⟩ := op
    obtain ⟨r, hr, hinv, _⟩ := Inv_setColumn s hs index values
    obtain ⟨r1, hr1, hmin, hmax, hhave, _⟩ := setColumn_extents s hs index values
    rw [hr] at hr1
    cases hr1
    have hstep := foldl_extentsStep_ExtentsOf values (extentsIn s) seen h
    have hr' : ExtentsOf (extentsIn r.1) (seen ++ finiteValues values) := by
      unfold ExtentsOf at hstep ⊢
      simp only [extentsIn, hmin, hmax, hhave]
      exact hstep
    obtain ⟨s1, h1, h2⟩ := ih r.1 hinv _ hr'
    refine ⟨s1, ?_, ?_⟩
    · unfold setColumns
      rw [hr]
      exact h1
    · simp only [writtenValues, finiteValues_append]
      rw [← List.append_assoc]
      exact h2

theorem extentsStep_eq_of_allChange_false (e : Extents) (v : FVal)
    (h : (extentsStep e v).allChange = false) : extentsStep e v = e := by
  unfold extentsStep at h ⊢
  split
  · rfl
  · rename_i hnf
    simp only [hnf, if_false] at h
    obtain ⟨mn, mx, hv, ac⟩ := e
    cases hv <;> cases ac <;> cases h1 : FVal.flt v mn <;> cases h2 : FVal.fgt v mx <;>
      simp_all

theorem extentsStep_allChange_mono (e : Extents) (v : FVal) (h : e.allChange = true) :
    (extentsStep e v).allChange = true := by
  unfold extentsStep
  split
  · exact h
  · simp [h]

theorem foldl_extentsStep_allChange_mono (values : Column) (e : Extents)
    (h : e.allChange = true) : (values.foldl extentsStep e).allChange = true := by
  induction values generalizing e with
  | nil => exact h
  | cons v vs ih => exact ih _ (extentsStep_allChange_mono e v h)

theorem foldl_extentsStep_eq_of_allChange_false (values : Column) (e : Extents)
    (h : (values.foldl extentsStep e).allChange = false) : values.foldl extentsStep e = e := by
  induction values generalizing e with
  | nil => rfl
  | cons v vs ih =>
    rw [List.foldl_cons] at h ⊢
    have h1 : (extentsStep e v).allChange = false := by
      cases hc : (extentsStep e v).allChange
      · rfl
      · rw [foldl_extentsStep_allChange_mono vs _ hc] at h
        cases h
    rw [ih _ h, extentsStep_eq_of_allChange_false e v h1]

theorem extentsStep_Widened (e0 e : Extents) (v : FVal) (h : Widened e0 e) :
    Widened e0 (extentsStep e v) := by
  obtain ⟨hh, hmin, hmax, hall⟩ := h
  unfold extentsStep
  split
  · exact ⟨hh, hmin, hmax, hall⟩
  · simp only [hh, Bool.not_true, Bool.false_or, FVal.fgt]
    have hmin1 : ∀ (c : Bool), (c = true → FVal.flt v e.minimum = true) →
        ((if c then v else e.minimum) = e0.minimum ∨
          FVal.flt (if c then v else e.minimum) e0.minimum = true) ∧
        (c = true → FVal.flt (if c then v else e.minimum) e0.minimum = true) ∧
        (FVal.flt e.minimum e0.minimum = true →
          FVal.flt (if c then v else e.minimum) e0.minimum = true) := by
      intro c hc
      cases c
      · simp only [Bool.false_eq_true, if_false]
        exact ⟨hmin, fun h => h.elim, fun h => h⟩
      · simp only [if_true]
        have hv := hc rfl
        have : FVal.flt v e0.minimum = true := by
          rcases hmin with h | h
          · rw [← h]; exact hv
          · exact FVal.flt_trans hv h
        exact ⟨Or.inr this, fun _ => this, fun _ => this⟩
    have hmax1 : ∀ (c : Bool), (c = true → FVal.flt e.maximum v = true) →
        ((if c then v else e.maximum) = e0.maximum ∨
          FVal.flt e0.maximum (if c then v else e.maximum) = true) ∧
        (c = true → FVal.flt e0.maximum (if c then v else e.maximum) = true) ∧
        (FVal.flt e0.maximum e.maximum = true →
          FVal.flt e0.maximum (if c then v else e.maximum) = true) := by
      intro c hc
      cases c
      · simp only [Bool.false_eq_true, if_false]
        exact ⟨hmax, fun h => h.elim, fun h => h⟩
      · simp only [if_true]
        have hv := hc rfl
        have : FVal.flt e0.maximum v = true := by
          rcases hmax with h | h
          · rw [← h]; exact hv
          · exact FVal.flt_trans h hv
        exact ⟨Or.inr this, fun _ => this, fun _ => this⟩
    obtain ⟨a1, a2, a3⟩ := hmin1 (FVal.flt v e.minimum) (fun h => h)
    obtain ⟨b1, b2, b3⟩ := hmax1 (FVal.flt e.maximum v) (fun h => h)
    refine ⟨rfl, a1, b1, ?_⟩
    intro hc
    simp only [Bool.or_eq_true] at hc
    rcases hc with (hc | hc) | hc
    · rcases hall hc with h | h
      · exact Or.inl (a3 h)
      · exact Or.inr (b3 h)
    · exact Or.inl (a2 hc)
    · exact Or.inr (b2 hc)

theorem foldl_extentsStep_Widened (values : Column) (e0 e : Extents) (h : Widened e0 e) :
    Widened e0 (values.foldl extentsStep e) := by
  induction values generalizing e with
  | nil => exact h
  | cons v vs ih => exact ih _ (extentsStep_Widened e0 e v h)

theorem extentsStep_haveExtents_of_allChange (e : Extents) (v : FVal)
    (h : e.allChange = true → e.haveExtents = true) :
    (extentsStep e v).allChange = true → (extentsStep e v).haveExtents = true := by
  unfold extentsStep
  split
  · exact h
  · intro _; rfl

theorem foldl_extentsStep_haveExtents_of_allChange (values : Column) (e : Extents)
    (h : e.allChange = true → e.haveExtents = true) :
    (values.foldl extentsStep e).allChange = true →
      (values.foldl extentsStep e).haveExtents = true := by
  induction values generalizing e with
  | nil => exact h
  | cons v vs ih => exact ih _ (extentsStep_haveExtents_of_allChange e v h)

/-- The flag `allChange` of `setColumn` is set exactly when the loop changed
the running extents. -/
theorem allChange_iff (s : Model) (values : Column) :
    (values.foldl extentsStep (extentsIn s)).allChange = true ↔
      (if (values.foldl extentsStep (extentsIn s)).haveExtents then
          some ((values.foldl extentsStep (extentsIn s)).minimum,
            (values.foldl extentsStep (extentsIn s)).maximum)
        else none) ≠ runningExtents s := by
  constructor
  · intro h
    have hh := foldl_extentsStep_haveExtents_of_allChange values (extentsIn s)
      (fun hc => by simp [extentsIn] at hc) h
    rw [hh]
    unfold runningExtents
    cases hs : s.m_haveExtents with
    | false => simp
    | true =>
      have hw : Widened (extentsIn s) (extentsIn s) :=
        ⟨hs, Or.inl rfl, Or.inl rfl, fun hc => by simp [extentsIn] at hc⟩
      obtain ⟨_, _, _, hall⟩ := foldl_extentsStep_Widened values _ _ hw
      simp only [if_true, ne_eq, Option.some.injEq, Prod.mk.injEq, not_and_or]
      rcases hall h with h1 | h1
      · exact Or.inl (FVal.ne_of_flt h1)
      · exact Or.inr (fun hc => FVal.ne_of_flt h1 hc.symm)
  · intro h
    by_contra hc
    have hf : (values.foldl extentsStep (extentsIn s)).allChange = false := by
      cases hx : (values.foldl extentsStep (extentsIn s)).allChange
      · rfl
      · exact absurd hx hc
    rw [foldl_extentsStep_eq_of_allChange_false values _ hf] at h
    exact h rfl

/-! ## The claims -/

/-- C1, counterexample. With four bins, column 0 is written as four `+0.0`
and column 1 as four `-0.0`.  The values match those of column 0 under `==`,
so column 1 is stored truncated with no value of its own, and `getColumn(1)`
returns four `+0.0`: the column read back is not the column written. -/
theorem setColumn_getColumn_loses_zero_sign :
    (setColumns (create 1 4 false)
        [(0, [FVal.fin 0, FVal.fin 0, FVal.fin 0, FVal.fin 0]),
         (1, [FVal.negZero, FVal.negZero, FVal.negZero, FVal.negZero])]).bind
      (fun s => getColumn s 1) = some [FVal.fin 0, FVal.fin 0, FVal.fin 0, FVal.fin 0] ∧
    [FVal.fin 0, FVal.fin 0, FVal.fin 0, FVal.fin 0] ≠
      [FVal.negZero, FVal.negZero, FVal.negZero, FVal.negZero] := by
  decide

/-- C1, amended. Round trip of the compressed cache: in every state reached
from a fresh cache by a sequence of `setColumn` calls, for every index and
every column `c` of `m_yBinCount` values, `setColumn(index, c)` returns and
`getColumn(index)` then returns a column of the length of `c` that holds, bin
for bin, the same value as `c`: equal under the float comparison `==`, or
both NaN.  That is the value written, except that a zero can be read back with
the other sign.  It holds whichever storage form `truncateAndStore` chose. -/
theorem setColumn_getColumn_roundtrip (resolution : Int) (yBinCount : Nat)
    (notifyOnAdd : Bool) (ops : List (Nat × Column)) (index : Nat) (c : Column)
    (hc : c.length = yBinCount) :
    ∃ s, setColumns (create resolution yBinCount notifyOnAdd) ops = some s ∧
      ∃ r out, setColumn s index c = some r ∧ getColumn r.1 (index : Int) = some out ∧
        List.Forall₂ FVal.sameValue out c := by
  obtain ⟨s, h1, hinv, hy⟩ :=
    Inv_setColumns _ (Inv_create resolution yBinCount notifyOnAdd) ops
  refine ⟨s, h1, ?_⟩
  obtain ⟨r, c1, t, out, hr, _, _, hg, _, hsame, _⟩ := getColumn_setColumn s hinv index c
  refine ⟨r, out, hr, hg, hsame ?_⟩
  rw [hy]
  exact hc

theorem setColumn_getColumn_roundtrip_witness :
    [FVal.fin 1, FVal.fin 2, FVal.nan, FVal.fin 5].length = 4 ∧
    ∃ s, setColumns (create 1 4 false)
        [(0, [FVal.fin 1, FVal.fin 2, FVal.fin 3, FVal.fin 4])] = some s ∧
      ∃ r out, setColumn s 1 [FVal.fin 1, FVal.fin 2, FVal.nan, FVal.fin 5] = some r ∧
        getColumn r.1 ((1 : Nat) : Int) = some out ∧
        List.Forall₂ FVal.sameValue out [FVal.fin 1, FVal.fin 2, FVal.nan, FVal.fin 5] :=
  ⟨rfl, setColumn_getColumn_roundtrip 1 4 false
    [(0, [FVal.fin 1, FVal.fin 2, FVal.fin 3, FVal.fin 4])] 1
    [FVal.fin 1, FVal.fin 2, FVal.nan, FVal.fin 5] rfl⟩

/-- C2, at the failing input. With four bins, column 0 is written as
`[1,2,3,4]` and column 1 as the same values, so column 1 is stored truncated
with reference to column 0 and reads back as `[1,2,3,4]`; after column 0 is
overwritten with `[5,6,7,8]`, `getColumn(1)` returns `[5,6,7,8]`: the write
to column 0 changed what column 1 reads as. -/
theorem setColumn_overwrite_changes_later_column :
    (setColumns (create 1 4 false)
        [(0, [FVal.fin 1, FVal.fin 2, FVal.fin 3, FVal.fin 4]),
         (1, [FVal.fin 1, FVal.fin 2, FVal.fin 3, FVal.fin 4])]).bind
      (fun s => getColumn s 1) = some [FVal.fin 1, FVal.fin 2, FVal.fin 3, FVal.fin 4] ∧
    (setColumns (create 1 4 false)
        [(0, [FVal.fin 1, FVal.fin 2, FVal.fin 3, FVal.fin 4]),
         (1, [FVal.fin 1, FVal.fin 2, FVal.fin 3, FVal.fin 4]),
         (0, [FVal.fin 5, FVal.fin 6, FVal.fin 7, FVal.fin 8])]).bind
      (fun s => getColumn s 1) = some [FVal.fin 5, FVal.fin 6, FVal.fin 7, FVal.fin 8] := by
  decide

theorem foldl_extentsStep_of_no_finite (values : Column) (e : Extents)
    (h : finiteValues values = []) : values.foldl extentsStep e = e := by
  induction values generalizing e with
  | nil => rfl
  | cons v vs ih =>
    rw [finiteValues_cons] at h
    obtain ⟨h1, h2⟩ := List.append_eq_nil.mp h
    have hv : v.toRat? = none := by
      cases hv : v.toRat? with
      | none => rfl
      | some q => simp [finiteValues, hv] at h1
    rw [List.foldl_cons, ih _ h2]
    unfold extentsStep
    rw [(FVal.toRat?_eq_none_iff v).mp hv]
    rfl

/-- C3. Running extents: after any sequence of `setColumn` calls on a fresh
cache in which at least one finite value was written, `getMinimumLevel()` is
the least and `getMaximumLevel()` the greatest of all the finite values ever
passed to `setColumn`; and a column without a finite value (NaN and
infinities only) leaves both levels as they were. -/
theorem extents_after_setColumns (resolution : Int) (yBinCount : Nat) (notifyOnAdd : Bool)
    (ops : List (Nat × Column)) (hne : finiteValues (writtenValues ops) ≠ []) :
    ∃ s lo hi, setColumns (create resolution yBinCount notifyOnAdd) ops = some s ∧
      (getMinimumLevel s).toRat? = some lo ∧ (getMaximumLevel s).toRat? = some hi ∧
      lo ∈ finiteValues (writtenValues ops) ∧ hi ∈ finiteValues (writtenValues ops) ∧
      (∀ q ∈ finiteValues (writtenValues ops), lo ≤ q ∧ q ≤ hi) ∧
      ∀ (index : Nat) (values : Column), finiteValues values = [] →
        ∃ r, setColumn s index values = some r ∧
          getMinimumLevel r.1 = getMinimumLevel s ∧ getMaximumLevel r.1 = getMaximumLevel s := by
  have h0 : ExtentsOf (extentsIn (create resolution yBinCount notifyOnAdd)) [] :=
    ⟨fun _ => rfl, fun hc => by simp [extentsIn, create] at hc⟩
  obtain ⟨s, hs, hinv, _⟩ := Inv_setColumns _ (Inv_create resolution yBinCount notifyOnAdd) ops
  obtain ⟨s1, hs1, hext⟩ := setColumns_ExtentsOf ops _
    (Inv_create resolution yBinCount notifyOnAdd) [] h0
  rw [hs] at hs1
  cases hs1
  rw [List.nil_append] at hext
  cases hh : s.m_haveExtents with
  | false => exact absurd (hext.1 hh) hne
  | true =>
    obtain ⟨lo, hi, h1, h2, h3, h4, h5⟩ := hext.2 hh
    refine ⟨s, lo, hi, hs, h1, h2, h3, h4, h5, ?_⟩
    intro index values hnf
    obtain ⟨r, hr, hmin, hmax, _⟩ := setColumn_extents s hinv index values
    refine ⟨r, hr, ?_, ?_⟩
    · unfold getMinimumLevel
      rw [hmin, foldl_extentsStep_of_no_finite values _ hnf]
      rfl
    · unfold getMaximumLevel
      rw [hmax, foldl_extentsStep_of_no_finite values _ hnf]
      rfl

theorem extents_after_setColumns_witness :
    finiteValues (writtenValues
      [(0, [FVal.fin 3, FVal.nan, FVal.fin (-2)]), (0, [FVal.posInf, FVal.fin 7])]) ≠ [] ∧
    ∃ s lo hi, setColumns (create 1 3 false)
        [(0, [FVal.fin 3, FVal.nan, FVal.fin (-2)]), (0, [FVal.posInf, FVal.fin 7])] = some s ∧
      (getMinimumLevel s).toRat? = some lo ∧ (getMaximumLevel s).toRat? = some hi ∧
      lo ∈ finiteValues (writtenValues
        [(0, [FVal.fin 3, FVal.nan, FVal.fin (-2)]), (0, [FVal.posInf, FVal.fin 7])]) ∧
      hi ∈ finiteValues (writtenValues
        [(0, [FVal.fin 3, FVal.nan, FVal.fin (-2)]), (0, [FVal.posInf, FVal.fin 7])]) ∧
      (∀ q ∈ finiteValues (writtenValues
        [(0, [FVal.fin 3, FVal.nan, FVal.fin (-2)]), (0, [FVal.posInf, FVal.fin 7])]),
          lo ≤ q ∧ q ≤ hi) ∧
      ∀ (index : Nat) (values : Column), finiteValues values = [] →
        ∃ r, setColumn s index values = some r ∧
          getMinimumLevel r.1 = getMinimumLevel s ∧ getMaximumLevel r.1 = getMaximumLevel s :=
  ⟨by decide, extents_after_setColumns 1 3 false
    [(0, [FVal.fin 3, FVal.nan, FVal.fin (-2)]), (0, [FVal.posInf, FVal.fin 7])] (by decide)⟩

/-- C5. Wrong-length columns: in every state reached from a fresh cache by
`setColumn` calls, for every index and every column `c` whose length differs
from the bin count `h`, `setColumn(index, c)` returns, stores `c` verbatim
with truncation offset 0, and `getColumn(index)` then returns exactly `h`
values: `c` followed by zeros when `c` is shorter than `h`, the first `h`
values of `c` when it is longer. -/
theorem setColumn_wrong_length (resolution : Int) (yBinCount : Nat) (notifyOnAdd : Bool)
    (ops : List (Nat × Column)) (index : Nat) (c : Column) (hc : c.length ≠ yBinCount) :
    ∃ s r out, setColumns (create resolution yBinCount notifyOnAdd) ops = some s ∧
      setColumn s index c = some r ∧
      r.1.m_data[index]? = some c ∧ r.1.m_trunc[index]? = some 0 ∧
      getColumn r.1 (index : Int) = some out ∧ out.length = yBinCount ∧
      (c.length < yBinCount →
        out = c ++ List.replicate (yBinCount - c.length) (FVal.fin 0)) ∧
      (yBinCount < c.length → out = c.take yBinCount) := by
  obtain ⟨s, hs, hinv, hy⟩ := Inv_setColumns _ (Inv_create resolution yBinCount notifyOnAdd) ops
  have hy2 : s.m_yBinCount = yBinCount := hy
  obtain ⟨r, c1, t, out, hr, hd, ht, hg, hz, _, hw⟩ := getColumn_setColumn s hinv index c
  have ht0 : t = 0 := hw (Or.inr (by rw [hy2]; exact hc))
  obtain ⟨hc1, hout⟩ := hz ht0
  subst ht0
  subst hc1
  rw [hy2] at hout
  refine ⟨s, r, out, hs, hr, hd, ht, hg, ?_, ?_, ?_⟩
  · rw [hout]; exact rightHeight_length _ _
  · intro hlt
    rw [hout]
    unfold rightHeight
    simp only [hc, if_false]
    rw [List.take_of_length_le (by omega)]
  · intro hlt
    rw [hout]
    unfold rightHeight
    simp only [hc, if_false]
    have : yBinCount - c1.length = 0 := by omega
    rw [this]
    simp

theorem setColumn_wrong_length_witness :
    [FVal.fin 1, FVal.fin 2].length ≠ 4 ∧
    ∃ s r out, setColumns (create 1 4 false)
        [(0, [FVal.fin 1, FVal.fin 2, FVal.fin 3, FVal.fin 4])] = some s ∧
      setColumn s 1 [FVal.fin 1, FVal.fin 2] = some r ∧
      r.1.m_data[(1 : Nat)]? = some [FVal.fin 1, FVal.fin 2] ∧
      r.1.m_trunc[(1 : Nat)]? = some 0 ∧
      getColumn r.1 ((1 : Nat) : Int) = some out ∧ out.length = 4 ∧
      ([FVal.fin 1, FVal.fin 2].length < 4 →
        out = [FVal.fin 1, FVal.fin 2] ++
          List.replicate (4 - [FVal.fin 1, FVal.fin 2].length) (FVal.fin 0)) ∧
      (4 < [FVal.fin 1, FVal.fin 2].length → out = [FVal.fin 1, FVal.fin 2].take 4) :=
  ⟨by decide, setColumn_wrong_length 1 4 false
    [(0, [FVal.fin 1, FVal.fin 2, FVal.fin 3, FVal.fin 4])] 1 [FVal.fin 1, FVal.fin 2]
    (by decide)⟩

/-- C6, counterexample. A cache freshly constructed with `notifyOnAdd`
false has `m_completion` 100, so `setCompletion(100)` finds nothing to
change: it emits no signal and leaves `notifyOnAdd` false. -/
theorem setCompletion_fresh_emits_nothing :
    (create 1 4 false).m_notifyOnAdd = false ∧
    (setCompletion (create 1 4 false) 100 true).2 = [] ∧
    (setCompletion (create 1 4 false) 100 true).1.m_notifyOnAdd = false := by
  decide

/-- C6, amended. For every cache whose `notifyOnAdd` is false and whose
stored completion is not already 100, `setCompletion(100)` emits exactly one
`modelChanged` and then one `ready` and switches `notifyOnAdd` to true; when
the stored completion is already 100, as in a freshly constructed cache, the
call changes nothing and emits nothing. -/
theorem setCompletion_100 (s : Model) (update : Bool) :
    (s.m_completion ≠ 100 →
      (setCompletion s 100 update).2 = [Signal.modelChanged, Signal.ready] ∧
      (setCompletion s 100 update).1.m_notifyOnAdd = true) ∧
    (s.m_completion = 100 → setCompletion s 100 update = (s, [])) := by
  constructor
  · intro hc
    unfold setCompletion
    simp [hc]
  · intro hc
    unfold setCompletion
    simp [hc]

theorem setCompletion_100_witness :
    (setCompletion (create 1 4 false) 50 true).1.m_notifyOnAdd = false ∧
    (((setCompletion (create 1 4 false) 50 true).1.m_completion ≠ 100 →
      (setCompletion (setCompletion (create 1 4 false) 50 true).1 100 true).2 =
        [Signal.modelChanged, Signal.ready] ∧
      (setCompletion (setCompletion (create 1 4 false) 50 true).1 100 true).1.m_notifyOnAdd
        = true) ∧
    ((setCompletion (create 1 4 false) 50 true).1.m_completion = 100 →
      setCompletion (setCompletion (create 1 4 false) 50 true).1 100 true =
        ((setCompletion (create 1 4 false) 50 true).1, []))) :=
  ⟨by decide, setCompletion_100 (setCompletion (create 1 4 false) 50 true).1 true⟩

theorem runningExtents_setColumn (s : Model) (hs : Inv s) (index : Nat) (values : Column) :
    ∃ r, setColumn s index values = some r ∧
      r.2 = (notifyAfterStore s index
        (decide (runningExtents r.1 ≠ runningExtents s))).2 ∧
      r.1.m_notifyOnAdd = s.m_notifyOnAdd ∧
      r.1.m_sinceLastNotifyMin = (notifyAfterStore s index
        (decide (runningExtents r.1 ≠ runningExtents s))).1.m_sinceLastNotifyMin ∧
      r.1.m_sinceLastNotifyMax = (notifyAfterStore s index
        (decide (runningExtents r.1 ≠ runningExtents s))).1.m_sinceLastNotifyMax := by
  obtain ⟨r, hr, hmin, hmax, hhave, hsig, hnot, hlo, hhi⟩ := setColumn_extents s hs index values
  have hiff := allChange_iff s values
  have hre : runningExtents r.1 =
      (if (values.foldl extentsStep (extentsIn s)).haveExtents then
          some ((values.foldl extentsStep (extentsIn s)).minimum,
            (values.foldl extentsStep (extentsIn s)).maximum)
        else none) := by
    unfold runningExtents
    rw [hmin, hmax, hhave]
  rw [← hre] at hiff
  have hdec : (values.foldl extentsStep (extentsIn s)).allChange =
      decide (runningExtents r.1 ≠ runningExtents s) := by
    cases hx : (values.foldl extentsStep (extentsIn s)).allChange
    · have : ¬ (runningExtents r.1 ≠ runningExtents s) := fun hc => by
        have := hiff.mpr hc
        rw [hx] at this
        cases this
      exact (decide_eq_false this).symm
    · have := hiff.mp hx
      exact (decide_eq_true this).symm
  rw [hdec] at hsig hlo hhi
  exact ⟨r, hr, hsig, hnot, hlo, hhi⟩

/-- C7, counterexample. On a fresh cache with `notifyOnAdd` false, the first
write of finite values sets the extents, so `setColumn` emits
`modelChanged`: the write is not silent. -/
theorem setColumn_bulk_fill_emits :
    (create 1 4 false).m_notifyOnAdd = false ∧
    (setColumn (create 1 4 false) 0
        [FVal.fin 1, FVal.fin 2, FVal.fin 3, FVal.fin 4]).map (fun r => r.2) =
      some [Signal.modelChanged] := by
  decide

/-- C7, amended. For every `setColumn(index, values)` made while
`notifyOnAdd` is false: if the write does not change the running extents, no
signal is emitted and the touched range is widened to include
`index * resolution` (each end is replaced by `index * resolution` when it is
unset, that is -1, or lies on the wrong side of it); if the write changes
the running extents, one `modelChanged` is emitted and both ends of the
touched range are reset to -1.  `notifyOnAdd` stays false. -/
theorem setColumn_bulk_fill (s : Model) (hs : Inv s) (index : Nat) (values : Column)
    (hn : s.m_notifyOnAdd = false) :
    ∃ r, setColumn s index values = some r ∧ r.1.m_notifyOnAdd = false ∧
      (runningExtents r.1 = runningExtents s →
        r.2 = [] ∧
        r.1.m_sinceLastNotifyMin =
          (if s.m_sinceLastNotifyMin = -1 ∨ (index : Int) * s.m_resolution < s.m_sinceLastNotifyMin
            then (index : Int) * s.m_resolution else s.m_sinceLastNotifyMin) ∧
        r.1.m_sinceLastNotifyMax =
          (if s.m_sinceLastNotifyMax = -1 ∨ (index : Int) * s.m_resolution > s.m_sinceLastNotifyMax
            then (index : Int) * s.m_resolution else s.m_sinceLastNotifyMax) ∧
        r.1.m_sinceLastNotifyMin ≤ (index : Int) * s.m_resolution ∧
        (index : Int) * s.m_resolution ≤ r.1.m_sinceLastNotifyMax) ∧
      (runningExtents r.1 ≠ runningExtents s →
        r.2 = [Signal.modelChanged] ∧
        r.1.m_sinceLastNotifyMin = -1 ∧ r.1.m_sinceLastNotifyMax = -1) := by
  obtain ⟨r, hr, hsig, hnot, hlo, hhi⟩ := runningExtents_setColumn s hs index values
  refine ⟨r, hr, by rw [hnot, hn], ?_, ?_⟩
  · intro he
    have hd : decide (runningExtents r.1 ≠ runningExtents s) = false :=
      decide_eq_false (fun hc => hc he)
    rw [hd] at hsig hlo hhi
    unfold notifyAfterStore at hsig hlo hhi
    simp only [hn, Bool.false_eq_true, if_false] at hsig hlo hhi
    refine ⟨hsig, hlo, hhi, ?_, ?_⟩
    · rw [hlo]
      split
      · exact le_refl _
      · rename_i hc
        simp only [not_or, not_lt] at hc
        exact hc.2
    · rw [hhi]
      split
      · exact le_refl _
      · rename_i hc
        simp only [not_or, not_lt, gt_iff_lt] at hc
        exact hc.2
  · intro he
    have hd : decide (runningExtents r.1 ≠ runningExtents s) = true :=
      decide_eq_true he
    rw [hd] at hsig hlo hhi
    unfold notifyAfterStore at hsig hlo hhi
    simp only [hn, Bool.false_eq_true, if_false, if_true] at hsig hlo hhi
    exact ⟨hsig, hlo, hhi⟩

theorem setColumn_bulk_fill_witness :
    Inv (create 2 4 false) ∧ (create 2 4 false).m_notifyOnAdd = false ∧
    ∃ r, setColumn (create 2 4 false) 3 [FVal.nan, FVal.nan, FVal.nan, FVal.nan] = some r ∧
      r.1.m_notifyOnAdd = false ∧
      (runningExtents r.1 = runningExtents (create 2 4 false) →
        r.2 = [] ∧
        r.1.m_sinceLastNotifyMin =
          (if (create 2 4 false).m_sinceLastNotifyMin = -1 ∨
              ((3 : Nat) : Int) * (create 2 4 false).m_resolution <
                (create 2 4 false).m_sinceLastNotifyMin
            then ((3 : Nat) : Int) * (create 2 4 false).m_resolution
            else (create 2 4 false).m_sinceLastNotifyMin) ∧
        r.1.m_sinceLastNotifyMax =
          (if (create 2 4 false).m_sinceLastNotifyMax = -1 ∨
              ((3 : Nat) : Int) * (create 2 4 false).m_resolution >
                (create 2 4 false).m_sinceLastNotifyMax
            then ((3 : Nat) : Int) * (create 2 4 false).m_resolution
            else (create 2 4 false).m_sinceLastNotifyMax) ∧
        r.1.m_sinceLastNotifyMin ≤ ((3 : Nat) : Int) * (create 2 4 false).m_resolution ∧
        ((3 : Nat) : Int) * (create 2 4 false).m_resolution ≤ r.1.m_sinceLastNotifyMax) ∧
      (runningExtents r.1 ≠ runningExtents (create 2 4 false) →
        r.2 = [Signal.modelChanged] ∧
        r.1.m_sinceLastNotifyMin = -1 ∧ r.1.m_sinceLastNotifyMax = -1) :=
  ⟨Inv_create 2 4 false, rfl,
    setColumn_bulk_fill (create 2 4 false) (Inv_create 2 4 false) 3
      [FVal.nan, FVal.nan, FVal.nan, FVal.nan] rfl⟩

/-- C8. Per-write notification after completion: for every
`setColumn(index, values)` made while `notifyOnAdd` is true, exactly one
signal is emitted: `modelChanged` if the write changed the running extents
(minimum or maximum), and otherwise `modelChangedWithin` over the frame
window from `index * resolution` to `index * resolution + resolution`. -/
theorem setColumn_notifies (s : Model) (hs : Inv s) (index : Nat) (values : Column)
    (hn : s.m_notifyOnAdd = true) :
    ∃ r, setColumn s index values = some r ∧
      (runningExtents r.1 ≠ runningExtents s → r.2 = [Signal.modelChanged]) ∧
      (runningExtents r.1 = runningExtents s →
        r.2 = [Signal.modelChangedWithin ((index : Int) * s.m_resolution)
          ((index : Int) * s.m_resolution + s.m_resolution)]) := by
  obtain ⟨r, hr, hsig, _, _, _⟩ := runningExtents_setColumn s hs index values
  refine ⟨r, hr, ?_, ?_⟩
  · intro he
    have hd : decide (runningExtents r.1 ≠ runningExtents s) = true :=
      decide_eq_true he
    rw [hd] at hsig
    unfold notifyAfterStore at hsig
    simp only [hn, if_true] at hsig
    exact hsig
  · intro he
    have hd : decide (runningExtents r.1 ≠ runningExtents s) = false :=
      decide_eq_false (fun hc => hc he)
    rw [hd] at hsig
    unfold notifyAfterStore at hsig
    simp only [hn, if_true, Bool.false_eq_true, if_false] at hsig
    exact hsig

theorem setColumn_notifies_witness :
    Inv (create 2 4 true) ∧ (create 2 4 true).m_notifyOnAdd = true ∧
    ∃ r, setColumn (create 2 4 true) 3 [FVal.fin 1, FVal.fin 2, FVal.fin 3, FVal.fin 4]
        = some r ∧
      (runningExtents r.1 ≠ runningExtents (create 2 4 true) →
        r.2 = [Signal.modelChanged]) ∧
      (runningExtents r.1 = runningExtents (create 2 4 true) →
        r.2 = [Signal.modelChangedWithin (((3 : Nat) : Int) * (create 2 4 true).m_resolution)
          (((3 : Nat) : Int) * (create 2 4 true).m_resolution +
            (create 2 4 true).m_resolution)]) :=
  ⟨Inv_create 2 4 true, rfl,
    setColumn_notifies (create 2 4 true) (Inv_create 2 4 true) 3
      [FVal.fin 1, FVal.fin 2, FVal.fin 3, FVal.fin 4] rfl⟩

end BasicCompressedDenseThreeDimensionalModel

namespace FeatureExtractionPluginFactory

/-! ## Lemmas: the Vamp scan -/

theorem duplicateScan_iff (table : List String) (index : Nat) (known : List (String × Nat)) :
    duplicateScan table index known = true ↔
      table.Nodup ∧ ∀ x ∈ table, known.lookup x = none := by
  induction table generalizing index known with
  | nil => simp [duplicateScan]
  | cons identifier rest ih =>
    unfold duplicateScan
    cases hk : known.lookup identifier with
    | some v =>
      simp only [Option.isSome_some, if_true]
      constructor
      · intro h; cases h
      · intro h
        have := h.2 identifier (List.mem_cons_self _ _)
        rw [hk] at this
        cases this
    | none =>
      simp only [Option.isSome_none, Bool.false_eq_true, if_false]
      rw [ih, List.nodup_cons]
      constructor
      · rintro ⟨hnd, hall⟩
        refine ⟨⟨?_, hnd⟩, ?_⟩
        · intro hmem
          have := hall identifier hmem
          rw [List.lookup_cons] at this
          simp at this
        · intro x hx
          rcases List.mem_cons.mp hx with hx | hx
          · subst hx; exact hk
          · have := hall x hx
            rw [List.lookup_cons] at this
            split at this
            · cases this
            · exact this
      · rintro ⟨⟨hni, hnd⟩, hall⟩
        refine ⟨hnd, ?_⟩
        intro x hx
        rw [List.lookup_cons]
        have hne : (x == identifier) = false := by
          rw [beq_eq_false_iff_ne]
          intro hc
          subst hc
          exact hni hx
        rw [hne]
        exact hall x (List.mem_cons_of_mem _ hx)

theorem pushIdentifiers_eq (host : Host) (soname : String) (table rv : List String) :
    pushIdentifiers host soname table rv =
      rv ++ table.map (host.createIdentifier "vamp" soname) := by
  induction table generalizing rv with
  | nil => simp [pushIdentifiers]
  | cons identifier rest ih =>
    unfold pushIdentifiers
    rw [ih]
    simp

theorem scanCandidate_rv (host : Host) (st : ScanState) (soname : String) :
    (scanCandidate host st soname).rv = st.rv ++ contribution host soname := by
  unfold scanCandidate contribution
  cases host.DLOPEN soname with
  | none => simp
  | some lib =>
    simp only
    cases lib.descriptorFn with
    | none => simp
    | some table =>
      simp only
      by_cases hnd : table.Nodup
      · have : duplicateScan table 0 [] = true :=
          (duplicateScan_iff table 0 []).mpr ⟨hnd, fun x _ => rfl⟩
        simp only [this, if_true, hnd, pushIdentifiers_eq]
      · have : duplicateScan table 0 [] = false := by
          cases hd : duplicateScan table 0 []
          · rfl
          · exact absurd ((duplicateScan_iff table 0 []).mp hd).1 hnd
        simp [this, hnd]

theorem foldl_scanCandidate_rv (host : Host) (candidates : List String) (st : ScanState) :
    (candidates.foldl (scanCandidate host) st).rv =
      st.rv ++ candidates.flatMap (contribution host) := by
  induction candidates generalizing st with
  | nil => simp
  | cons soname rest ih =>
    rw [List.foldl_cons, ih, scanCandidate_rv, List.flatMap_cons, List.append_assoc]

/-- C9. Duplicate discard in Vamp enumeration: the identifiers returned by
`getPluginIdentifiers` are the concatenation, in candidate order, of what
each candidate that passed the loadability test contributes; a library whose
descriptor table has the same identifier at two distinct indices contributes
nothing, and a library whose identifiers are pairwise distinct contributes
one identifier per descriptor, in index order.  With the tables `A, B` and
`A, A` the result is the two identifiers of the first library. -/
theorem getPluginIdentifiers_duplicate_discard (host : Host) (candidateFiles : List String) :
    (getPluginIdentifiers host candidateFiles).rv =
      (winnowPluginCandidates host candidateFiles).1.flatMap (contribution host) ∧
    (∀ (soname : String) (lib : VampLibrary) (table : List String),
      host.DLOPEN soname = some lib → lib.descriptorFn = some table →
        ((∃ i j, i < j ∧ j < table.length ∧ table[i]? = table[j]?) →
          contribution host soname = []) ∧
        ((∀ i j, i < j → j < table.length → table[i]? ≠ table[j]?) →
          contribution host soname = table.map (host.createIdentifier "vamp" soname))) ∧
    (getPluginIdentifiers exampleHost ["first.so", "second.so"]).rv =
      ["vamp:first.so:A", "vamp:first.so:B"] := by
  refine ⟨?_, ?_, by decide⟩
  · unfold getPluginIdentifiers
    rw [foldl_scanCandidate_rv]
    rfl
  · intro soname lib table hopen hfn
    unfold contribution
    rw [hopen]
    simp only [hfn]
    constructor
    · rintro ⟨i, j, hij, hj, heq⟩
      have : ¬ table.Nodup := by
        rw [List.nodup_iff_getElem?_ne_getElem?]
        intro h
        exact h i j hij hj heq
      simp [this]
    · intro h
      have : table.Nodup := List.nodup_iff_getElem?_ne_getElem?.mpr h
      simp [this]

end FeatureExtractionPluginFactory

namespace LADSPAPluginFactory

/-! ## Lemmas: LADSPA discovery -/

theorem lookup_mapAssign_self {β : Type} (m : List (String × β)) (key : String) (value : β) :
    (mapAssign m key value).lookup key = some value := by
  unfold mapAssign
  split
  · rename_i h
    induction m with
    | nil => simp at h
    | cons kv rest ih =>
      obtain ⟨k, v⟩ := kv
      rw [List.lookup_cons] at h
      by_cases hk : k = key
      · subst hk
        simp [List.lookup_cons]
      · have hne : (key == k) = false := by
          rw [beq_eq_false_iff_ne]; exact fun hc => hk hc.symm
        rw [hne] at h
        simp only [List.map_cons, hk, if_false]
        rw [List.lookup_cons, hne]
        exact ih h
  · rename_i h
    have hn : m.lookup key = none := by
      cases hl : m.lookup key
      · rfl
      · rw [hl] at h; simp at h
    rw [List.lookup_append, hn]
    simp [List.lookup_cons]

theorem lookup_map_other {β : Type} (m : List (String × β)) (key other : String)
    (value : β) (hko : other ≠ key) :
    (m.map (fun kv => if kv.1 = key then (key, value) else kv)).lookup other =
      m.lookup other := by
  induction m with
  | nil => rfl
  | cons kv rest ih =>
    obtain ⟨k, v⟩ := kv
    by_cases hk : k = key
    · subst hk
      have hne : (other == k) = false := by
        rw [beq_eq_false_iff_ne]; exact hko
      simp only [List.map_cons, if_true]
      rw [List.lookup_cons, List.lookup_cons, hne]
      exact ih
    · simp only [List.map_cons, hk, if_false]
      rw [List.lookup_cons, List.lookup_cons, ih]

theorem lookup_mapAssign_isSome {β : Type} (m : List (String × β)) (key other : String)
    (value : β) (h : (m.lookup other).isSome = true) :
    ((mapAssign m key value).lookup other).isSome = true := by
  by_cases hko : other = key
  · subst hko
    rw [lookup_mapAssign_self]
    rfl
  · unfold mapAssign
    split
    · rw [lookup_map_other m key other value hko]
      exact h
    · rw [List.lookup_append]
      cases hl : m.lookup other
      · rw [hl] at h; simp at h
      · simp

theorem foldl_discoverStep (host : Host) (soname : String) (table : List LADSPA_Descriptor)
    (f : Factory) :
    (table.foldl (discoverStep host soname) f).m_identifiers =
        f.m_identifiers ++
          table.map (fun d => host.createIdentifier "ladspa" soname d.Label) ∧
    (∀ key, (f.m_rtDescriptors.lookup key).isSome = true →
      ((table.foldl (discoverStep host soname) f).m_rtDescriptors.lookup key).isSome = true) ∧
    (∀ d ∈ table,
      ((table.foldl (discoverStep host soname) f).m_rtDescriptors.lookup
        (host.createIdentifier "ladspa" soname d.Label)).isSome = true) := by
  induction table generalizing f with
  | nil => simp
  | cons d rest ih =>
    obtain ⟨h1, h2, h3⟩ := ih (discoverStep host soname f d)
    rw [List.foldl_cons]
    refine ⟨?_, ?_, ?_⟩
    · rw [h1]
      simp [discoverStep]
    · intro key hkey
      apply h2
      exact lookup_mapAssign_isSome _ _ _ _ hkey
    · intro d1 hd1
      rcases List.mem_cons.mp hd1 with hd1 | hd1
      · subst hd1
        apply h2
        show ((mapAssign f.m_rtDescriptors _ _).lookup _).isSome = true
        rw [lookup_mapAssign_self]
        rfl
      · exact h3 d1 hd1

/-- C10, counterexample. For a library that returns the label `A` at two
indices, `discoverPlugins(soname)` adds an identifier for each of the two
descriptors and leaves a descriptor record under that identifier: the
library is not excluded. -/
theorem discoverPlugins_keeps_duplicates :
    (discoverPlugins duplicateHost emptyFactory "dup.so").m_identifiers =
      ["ladspa:dup.so:A", "ladspa:dup.so:A"] ∧
    ((discoverPlugins duplicateHost emptyFactory "dup.so").m_rtDescriptors.lookup
      "ladspa:dup.so:A").isSome = true := by
  decide

/-- C10, amended. `LADSPAPluginFactory::discoverPlugins(soname)` has no
duplicate detection: for every library that loads and exports
`ladspa_descriptor`, whether or not a label occurs at two indices, it appends
one identifier per descriptor in index order (a repeated label gives a
repeated identifier) and leaves a descriptor record under the identifier of
every descriptor. -/
theorem discoverPlugins_adds_every_descriptor (host : Host) (f : Factory) (soname : String)
    (lib : LADSPALibrary) (table : List LADSPA_Descriptor)
    (hopen : host.DLOPEN soname = some lib) (hfn : lib.descriptorFn = some table) :
    (discoverPlugins host f soname).m_identifiers =
      f.m_identifiers ++ table.map (fun d => host.createIdentifier "ladspa" soname d.Label) ∧
    ∀ d ∈ table,
      ((discoverPlugins host f soname).m_rtDescriptors.lookup
        (host.createIdentifier "ladspa" soname d.Label)).isSome = true := by
  unfold discoverPlugins
  rw [hopen]
  simp only [hfn]
  obtain ⟨h1, _, h3⟩ := foldl_discoverStep host soname table
    { f with openHandles := soname :: f.openHandles }
  exact ⟨h1, h3⟩

theorem discoverPlugins_adds_every_descriptor_witness :
    duplicateHost.DLOPEN "dup.so" = some { descriptorFn := some duplicateTable } ∧
    (discoverPlugins duplicateHost emptyFactory "dup.so").m_identifiers =
      emptyFactory.m_identifiers ++
        duplicateTable.map
          (fun d => duplicateHost.createIdentifier "ladspa" "dup.so" d.Label) ∧
    ∀ d ∈ duplicateTable,
      ((discoverPlugins duplicateHost emptyFactory "dup.so").m_rtDescriptors.lookup
        (duplicateHost.createIdentifier "ladspa" "dup.so" d.Label)).isSome = true :=
  ⟨rfl, discoverPlugins_adds_every_descriptor duplicateHost emptyFactory "dup.so"
    { descriptorFn := some duplicateTable } duplicateTable rfl rfl⟩

end LADSPAPluginFactory

namespace FeatureExtractionPluginFactory

/-! ## Lemmas: the pre-validation filter -/

theorem winnowLoop_eq (host : Host) (candidates good : List String)
    (bad : List (String × PluginLoadStatus)) :
    winnowLoop host candidates good bad =
      (good ++ candidates.filter (passes host),
       bad ++ (candidates.filter (fun c => !passes host c)).map
        (fun c => (c, host.TestPluginLoadability c))) := by
  induction candidates generalizing good bad with
  | nil => simp [winnowLoop]
  | cons c rest ih =>
    unfold winnowLoop
    simp only
    by_cases h1 : host.TestPluginLoadability c = PluginLoadStatus.PluginLoadOK
    · have hp : passes host c = true := by simp [passes, h1]
      simp only [h1, if_true]
      rw [ih]
      simp [List.filter_cons, hp]
    · by_cases h2 : host.TestPluginLoadability c = PluginLoadStatus.UnknownPluginLoadStatus
      · have hp : passes host c = true := by simp [passes, h2]
        simp only [h1, h2, if_true, if_false]
        rw [ih]
        simp [List.filter_cons, hp]
      · have hp : passes host c = false := by simp [passes, h1, h2]
        simp only [h1, h2, if_false]
        rw [ih]
        simp [List.filter_cons, hp]

theorem passes_eq_false_iff (host : Host) (c : String) :
    passes host c = false ↔
      host.TestPluginLoadability c = PluginLoadStatus.PluginLoadFailedToLoadLibrary ∨
      host.TestPluginLoadability c = PluginLoadStatus.PluginLoadFailedToFindDescriptor ∨
      host.TestPluginLoadability c = PluginLoadStatus.PluginLoadFailedElsewhere := by
  unfold passes
  cases host.TestPluginLoadability c <;> simp

/-- C11. Pre-validation filter: `winnowPluginCandidates` returns exactly the
candidates whose status is `PluginLoadOK` or `UnknownPluginLoadStatus`, in
their original order and multiplicity; a candidate is left out iff its status
is one of the three failures; and the warning message is written iff at
least one candidate is left out. -/
theorem winnowPluginCandidates_spec (host : Host) (candidates : List String) :
    (winnowPluginCandidates host candidates).1 =
      candidates.filter (fun c =>
        decide (host.TestPluginLoadability c = PluginLoadStatus.PluginLoadOK) ||
        decide (host.TestPluginLoadability c = PluginLoadStatus.UnknownPluginLoadStatus)) ∧
    (∀ c ∈ candidates, (c ∉ (winnowPluginCandidates host candidates).1 ↔
      host.TestPluginLoadability c = PluginLoadStatus.PluginLoadFailedToLoadLibrary ∨
      host.TestPluginLoadability c = PluginLoadStatus.PluginLoadFailedToFindDescriptor ∨
      host.TestPluginLoadability c = PluginLoadStatus.PluginLoadFailedElsewhere)) ∧
    ((winnowPluginCandidates host candidates).2.isSome = true ↔
      ∃ c ∈ candidates, c ∉ (winnowPluginCandidates host candidates).1) := by
  have h1 : (winnowPluginCandidates host candidates).1 = candidates.filter (passes host) := by
    unfold winnowPluginCandidates
    simp only [winnowLoop_eq, List.nil_append]
  have hmem : ∀ c ∈ candidates, (c ∉ (winnowPluginCandidates host candidates).1 ↔
      passes host c = false) := by
    intro c hc
    rw [h1, List.mem_filter]
    simp [hc]
  refine ⟨h1, ?_, ?_⟩
  · intro c hc
    rw [hmem c hc, passes_eq_false_iff]
  · have h2 : (winnowPluginCandidates host candidates).2.isSome = true ↔
        (candidates.filter (fun c => !passes host c)) ≠ [] := by
      unfold winnowPluginCandidates
      simp only [winnowLoop_eq, List.nil_append]
      split
      · rename_i he
        simp only [List.isEmpty_iff, List.map_eq_nil_iff] at he
        simp [he]
      · rename_i he
        simp only [List.isEmpty_iff, List.map_eq_nil_iff] at he
        simp [he]
    rw [h2]
    constructor
    · intro hne
      obtain ⟨c, hc⟩ := List.exists_mem_of_ne_nil _ hne
      rw [List.mem_filter] at hc
      refine ⟨c, hc.1, (hmem c hc.1).mpr ?_⟩
      simpa using hc.2
    · rintro ⟨c, hc, hnot⟩
      have hp := (hmem c hc).mp hnot
      intro he
      have : c ∈ candidates.filter (fun c => !passes host c) := by
        rw [List.mem_filter]
        exact ⟨hc, by simp [hp]⟩
      rw [he] at this
      cases this

/-! ## Lemmas: library handles during the Vamp scan -/

theorem scanCandidate_openHandles (host : Host) (st : ScanState) (soname : String) :
    (scanCandidate host st soname).openHandles = st.openHandles := by
  unfold scanCandidate
  cases host.DLOPEN soname with
  | none => rfl
  | some lib =>
    simp only
    cases lib.descriptorFn with
    | none => simp
    | some table => simp

/-- C16. Vamp enumeration never keeps a handle open: whatever a candidate
turns out to be (it does not load, it lacks the descriptor entry point, an
identifier occurs twice, or it is enumerated), the set of open library
handles after the candidate is the set before it; so it is after the whole
loop over the candidates, and `getPluginIdentifiers` ends with no handle
open.  (`DLCLOSE` is taken to release the handle.) -/
theorem getPluginIdentifiers_closes_handles (host : Host) :
    (∀ (st : ScanState) (soname : String),
      (scanCandidate host st soname).openHandles = st.openHandles) ∧
    (∀ (st : ScanState) (candidates : List String),
      (candidates.foldl (scanCandidate host) st).openHandles = st.openHandles) ∧
    (∀ (candidateFiles : List String),
      (getPluginIdentifiers host candidateFiles).openHandles = []) := by
  have h2 : ∀ (candidates : List String) (st : ScanState),
      (candidates.foldl (scanCandidate host) st).openHandles = st.openHandles := by
    intro candidates
    induction candidates with
    | nil => intro st; rfl
    | cons soname rest ih =>
      intro st
      rw [List.foldl_cons, ih, scanCandidate_openHandles]
  refine ⟨scanCandidate_openHandles host, fun st candidates => h2 candidates st, ?_⟩
  intro candidateFiles
  unfold getPluginIdentifiers
  rw [h2]

end FeatureExtractionPluginFactory

namespace LADSPAPluginFactory

/-- C17, at the failing input. For a library that loads but does not
export `ladspa_descriptor`, `discoverPlugins(soname)` returns with the handle
it opened still open. -/
theorem discoverPlugins_leaves_handle_open :
    emptyFactory.openHandles = [] ∧
    (discoverPlugins noEntryPointHost emptyFactory "nofn.so").openHandles = ["nofn.so"] := by
  decide

/-- When the library does not load, or exports `ladspa_descriptor`,
`discoverPlugins(soname)` leaves the open handles as they were. -/
theorem discoverPlugins_openHandles (host : Host) (f : Factory) (soname : String)
    (h : ∀ lib, host.DLOPEN soname = some lib → lib.descriptorFn ≠ none) :
    (discoverPlugins host f soname).openHandles = f.openHandles := by
  have hfold : ∀ (table : List LADSPA_Descriptor) (g : Factory),
      (table.foldl (discoverStep host soname) g).openHandles = g.openHandles := by
    intro table
    induction table with
    | nil => intro g; rfl
    | cons d rest ih =>
      intro g
      rw [List.foldl_cons, ih]
      rfl
  unfold discoverPlugins
  cases hopen : host.DLOPEN soname with
  | none => rfl
  | some lib =>
    simp only
    cases hfn : lib.descriptorFn with
    | none => exact absurd hfn (h lib hopen)
    | some table =>
      simp only [hfold]
      simp

end LADSPAPluginFactory

namespace BasicCompressedDenseThreeDimensionalModel

/-- C19, at the failing input. With four bins, column 0 is written as
`[1,2,3,4]`, column 1 as `[5,6,7,8]` (stored verbatim) and column 2 as
`[5,6,7,8]` (stored truncated, offset -1, referring to column 1); then
column 1 is overwritten with `[1,2,3,4]` and is itself stored truncated
(offset -1, referring to column 0).  Column 2 now refers to a truncated
column, and reads back as `[1,2,3,4]`. -/
theorem setColumn_overwrite_makes_chain :
    (setColumns (create 1 4 false)
        [(0, [FVal.fin 1, FVal.fin 2, FVal.fin 3, FVal.fin 4]),
         (1, [FVal.fin 5, FVal.fin 6, FVal.fin 7, FVal.fin 8]),
         (2, [FVal.fin 5, FVal.fin 6, FVal.fin 7, FVal.fin 8])]).map
      (fun s => s.m_trunc) = some [0, 0, -1] ∧
    (setColumns (create 1 4 false)
        [(0, [FVal.fin 1, FVal.fin 2, FVal.fin 3, FVal.fin 4]),
         (1, [FVal.fin 5, FVal.fin 6, FVal.fin 7, FVal.fin 8]),
         (2, [FVal.fin 5, FVal.fin 6, FVal.fin 7, FVal.fin 8]),
         (1, [FVal.fin 1, FVal.fin 2, FVal.fin 3, FVal.fin 4])]).map
      (fun s => s.m_trunc) = some [0, -1, -1] ∧
    (setColumns (create 1 4 false)
        [(0, [FVal.fin 1, FVal.fin 2, FVal.fin 3, FVal.fin 4]),
         (1, [FVal.fin 5, FVal.fin 6, FVal.fin 7, FVal.fin 8]),
         (2, [FVal.fin 5, FVal.fin 6, FVal.fin 7, FVal.fin 8]),
         (1, [FVal.fin 1, FVal.fin 2, FVal.fin 3, FVal.fin 4])]).bind
      (fun s => getColumn s 2) = some [FVal.fin 1, FVal.fin 2, FVal.fin 3, FVal.fin 4] := by
  decide

/-! ## Lemmas: column 0 -/

theorem StoredAs_index_zero (s : Model) (values c : Column) (t : Int)
    (h : StoredAs s 0 values c t) : c = values ∧ t = 0 := by
  cases h with
  | verbatim => exact ⟨rfl, rfl⟩
  | bottom tdist b p h0 _ _ _ _ _ _ _ _ => exact absurd rfl h0
  | top tdist tc p h0 _ _ _ _ _ _ _ _ => exact absurd rfl h0

theorem setColumn_data_zero (s : Model) (hs : Inv s) (index : Nat) (values : Column) :
    ∃ r, setColumn s index values = some r ∧ Inv r.1 ∧
      r.1.m_data[0]? = if index = 0 then some values else some (s.m_data[0]?.getD []) := by
  obtain ⟨c, t, h1, h2⟩ := setColumn_some s hs index values
  obtain ⟨r, hr, hinv, _⟩ := Inv_setColumn s hs index values
  rw [h2] at hr
  cases hr
  refine ⟨_, h2, hinv, ?_⟩
  have hn := notifyAfterStore_fst (stored (beforeStore s index values) index c t) index
      (scanExtents (growTo s index) values).allChange
  rw [hn.1]
  show ((s.m_data ++ List.replicate (index + 1 - s.m_data.length) []).set index c)[0]? = _
  by_cases h0 : index = 0
  · subst h0
    obtain ⟨hc, _⟩ := StoredAs_index_zero _ _ _ _ h1
    subst hc
    simp only [if_true]
    apply List.getElem?_set_self
    simp only [List.length_append, List.length_replicate]
    omega
  · simp only [h0, if_false]
    rw [List.getElem?_set_ne h0]
    cases hd : s.m_data with
    | nil =>
      simp only [List.nil_append, List.length_nil, Nat.sub_zero, List.getElem?_nil,
        Option.getD_none]
      rw [List.getElem?_replicate]
      simp
    | cons a rest => simp

theorem setColumns_data_zero (ops : List (Nat × Column)) (s : Model) (hs : Inv s) :
    ∃ s1, setColumns s ops = some s1 ∧ Inv s1 ∧
      s1.m_data[0]? =
        match lastWritten 0 ops with
        | some w => some w
        | none => if ops = [] then s.m_data[0]? else some (s.m_data[0]?.getD []) := by
  induction ops generalizing s with
  | nil => exact ⟨s, rfl, hs, by simp [lastWritten]⟩
  | cons op rest ih =>
    obtain ⟨index, values⟩ := op
    obtain ⟨r, hr, hinv, hd⟩ := setColumn_data_zero s hs index values
    obtain ⟨s1, h1, h2, h3⟩ := ih r.1 hinv
    refine ⟨s1, ?_, h2, ?_⟩
    · unfold setColumns
      rw [hr]
      exact h1
    · have hstep : lastWritten 0 ((index, values) :: rest) =
          match lastWritten 0 rest with
          | some w => some w
          | none => if index = 0 then some values else none := by
        rw [lastWritten]
      rw [h3, hstep]
      cases hl : lastWritten 0 rest with
      | some w => rfl
      | none =>
        simp only
        have hsame : (if rest = [] then r.1.m_data[0]? else some (r.1.m_data[0]?.getD []))
            = r.1.m_data[0]? := by
          split
          · rfl
          · rw [hd]; split <;> rfl
        rw [hsame, hd]
        by_cases h0 : index = 0
        · simp [h0]
        · simp [h0]

/-- C20. Column 0 is never stored truncated: in every state reached from a
fresh cache by `setColumn` calls, the truncation offset of column 0 (once
the column exists) is 0, and its stored data is exactly the last column
written to index 0 (the empty column while only other indices have been
written). -/
theorem column_zero_verbatim (resolution : Int) (yBinCount : Nat) (notifyOnAdd : Bool)
    (ops : List (Nat × Column)) :
    ∃ s, setColumns (create resolution yBinCount notifyOnAdd) ops = some s ∧
      (∀ t, s.m_trunc[0]? = some t → t = 0) ∧
      (ops ≠ [] → s.m_trunc[0]? = some 0) ∧
      (∀ values, lastWritten 0 ops = some values → s.m_data[0]? = some values) ∧
      (ops ≠ [] → lastWritten 0 ops = none → s.m_data[0]? = some []) := by
  obtain ⟨s, hs, hinv, hd⟩ :=
    setColumns_data_zero ops _ (Inv_create resolution yBinCount notifyOnAdd)
  have ht : ∀ t, s.m_trunc[0]? = some t → t = 0 := by
    intro t h
    have := (hinv.bound 0 t h).1
    omega
  refine ⟨s, hs, ht, ?_, ?_, ?_⟩
  · intro hne
    have hlen : 0 < s.m_data.length := by
      cases hl : lastWritten 0 ops with
      | some w =>
        rw [hl] at hd
        exact (List.getElem?_eq_some.mp hd).1
      | none =>
        rw [hl] at hd
        simp only [hne, if_false] at hd
        exact (List.getElem?_eq_some.mp hd).1
    have hlt : 0 < s.m_trunc.length := by rw [hinv.len]; exact hlen
    rw [List.getElem?_eq_getElem hlt]
    rw [ht _ (List.getElem?_eq_getElem hlt)]
  · intro values hl
    rw [hl] at hd
    exact hd
  · intro hne hl
    rw [hl] at hd
    simp only [hne, if_false] at hd
    rw [hd]
    rfl

end BasicCompressedDenseThreeDimensionalModel

namespace FeatureExtractionPluginFactory

/-! ## Lemmas: the candidate files -/

theorem foldl_push_filePath (host : FileHost) (dirname : String) (names candidates : List String) :
    names.foldl (fun candidates name => candidates ++ [host.filePath dirname name]) candidates =
      candidates ++ names.map (host.filePath dirname) := by
  induction names generalizing candidates with
  | nil => simp
  | cons name rest ih =>
    rw [List.foldl_cons, ih]
    simp

theorem foldl_directories (host : FileHost) (path candidates : List String) :
    path.foldl
      (fun candidates dirname =>
        (host.entryList dirname).foldl
          (fun candidates name => candidates ++ [host.filePath dirname name]) candidates)
      candidates =
    candidates ++ path.flatMap (fun d => (host.entryList d).map (host.filePath d)) := by
  induction path generalizing candidates with
  | nil => simp
  | cons d rest ih =>
    rw [List.foldl_cons, ih, foldl_push_filePath, List.flatMap_cons, List.append_assoc]

/-- C12, counterexample. With the directory `/plugins` named twice in the
search path, `getPluginCandidateFiles` returns its file `a.so` twice. -/
theorem getPluginCandidateFiles_repeats :
    getPluginCandidateFiles repeatedPathHost = ["/plugins/a.so", "/plugins/a.so"] ∧
    ¬ (getPluginCandidateFiles repeatedPathHost).Nodup := by
  decide

/-- C12, amended. `getPluginCandidateFiles` returns, for each directory of
the search path in order, the paths of that directory's matching files; it
does not remove duplicates, so a directory named twice contributes its files
twice.  The list contains no file path more than once when the search path
names no directory twice, no directory of the search path lists a name twice,
and two different pairs of a directory of the search path and a name it lists
give different paths. -/
theorem getPluginCandidateFiles_spec (host : FileHost) :
    getPluginCandidateFiles host =
      host.pluginPath.flatMap (fun d => (host.entryList d).map (host.filePath d)) ∧
    (host.pluginPath.Nodup →
      (∀ d ∈ host.pluginPath, (host.entryList d).Nodup) →
      (∀ d1 ∈ host.pluginPath, ∀ n1 ∈ host.entryList d1,
        ∀ d2 ∈ host.pluginPath, ∀ n2 ∈ host.entryList d2,
          host.filePath d1 n1 = host.filePath d2 n2 → d1 = d2 ∧ n1 = n2) →
      (getPluginCandidateFiles host).Nodup) := by
  have h1 : getPluginCandidateFiles host =
      host.pluginPath.flatMap (fun d => (host.entryList d).map (host.filePath d)) := by
    unfold getPluginCandidateFiles
    rw [foldl_directories]
    rfl
  refine ⟨h1, ?_⟩
  intro hpath hentries hinj
  rw [h1, List.nodup_flatMap]
  constructor
  · intro d hd
    exact List.Nodup.map_on (fun x hx y hy hxy => (hinj d hd x hx d hd y hy hxy).2)
      (hentries d hd)
  · apply List.Nodup.pairwise_of_forall_ne hpath
    intro a ha b hb hab
    show List.Disjoint _ _
    intro x hxa hxb
    obtain ⟨n1, hn1, h1⟩ := List.mem_map.mp hxa
    obtain ⟨n2, hn2, h2⟩ := List.mem_map.mp hxb
    exact hab (hinj a ha n1 hn1 b hb n2 hn2 (h1.trans h2.symm)).1

theorem getPluginCandidateFiles_spec_witness :
    twoDirectoryHost.pluginPath.Nodup ∧
    (∀ d ∈ twoDirectoryHost.pluginPath, (twoDirectoryHost.entryList d).Nodup) ∧
    (∀ d1 ∈ twoDirectoryHost.pluginPath, ∀ n1 ∈ twoDirectoryHost.entryList d1,
      ∀ d2 ∈ twoDirectoryHost.pluginPath, ∀ n2 ∈ twoDirectoryHost.entryList d2,
        twoDirectoryHost.filePath d1 n1 = twoDirectoryHost.filePath d2 n2 →
          d1 = d2 ∧ n1 = n2) ∧
    getPluginCandidateFiles twoDirectoryHost = ["/a/x.so", "/a/y.so", "/b/x.so"] ∧
    (getPluginCandidateFiles twoDirectoryHost).Nodup :=
  ⟨by decide, by decide, by decide, by decide,
    (getPluginCandidateFiles_spec twoDirectoryHost).2 (by decide) (by decide) (by decide)⟩

/-! ## Lemmas: instantiation -/

theorem findDescriptor_eq_none_iff (label : String) (table : List String) :
    findDescriptor label table = none ↔ label ∉ table := by
  induction table with
  | nil => simp [findDescriptor]
  | cons identifier rest ih =>
    unfold findDescriptor
    by_cases h : label = identifier
    · simp [h]
    · simp [h, ih]

/-- C13. Vamp instantiation is atomic on failure: `instantiatePlugin`
returns null exactly when the identifier type is not `vamp`, the library
file is not found, the library fails to open, the descriptor entry point is
missing, or no descriptor has the label; and whenever it returns null,
`m_handleMap` is unchanged, the open library handles are those open before
the call, and the call either opened no library or opened one and closed it
again; on the type-mismatch and file-not-found paths no library is
opened. -/
theorem instantiatePlugin_failure (host : FileHost) (st : Instances) (identifier : String)
    (plugin : Nat) (hnull : (instantiatePlugin host st identifier plugin).rv = none) :
    (instantiatePlugin host st identifier plugin).state.m_handleMap = st.m_handleMap ∧
    (instantiatePlugin host st identifier plugin).state.openHandles = st.openHandles ∧
    ((instantiatePlugin host st identifier plugin).calls = [] ∨
      ∃ handle, (instantiatePlugin host st identifier plugin).calls =
        [LibraryCall.opened handle, LibraryCall.closed handle]) ∧
    ((host.parseIdentifier identifier).1 ≠ "vamp" ∨
        findPluginFile host (host.parseIdentifier identifier).2.1 = "" →
      (instantiatePlugin host st identifier plugin).calls = []) ∧
    ((host.parseIdentifier identifier).1 ≠ "vamp" ∨
      findPluginFile host (host.parseIdentifier identifier).2.1 = "" ∨
      host.DLOPEN (findPluginFile host (host.parseIdentifier identifier).2.1) = none ∨
      ∃ lib, host.DLOPEN (findPluginFile host (host.parseIdentifier identifier).2.1) = some lib ∧
        (lib.descriptorFn = none ∨
          ∃ table, lib.descriptorFn = some table ∧
            (host.parseIdentifier identifier).2.2 ∉ table)) := by
  unfold instantiatePlugin at hnull ⊢
  simp only [ne_eq, ite_not] at hnull ⊢
  by_cases ht : (host.parseIdentifier identifier).1 = "vamp"
  swap
  · simp [ht]
  · simp only [ht, if_true] at hnull ⊢
    by_cases hf : findPluginFile host (host.parseIdentifier identifier).2.1 = ""
    · simp only [hf, if_true]
      simp
    · simp only [hf, if_false] at hnull ⊢
      cases hopen : host.DLOPEN (findPluginFile host (host.parseIdentifier identifier).2.1) with
      | none => simp
      | some lib =>
        rw [hopen] at hnull
        simp only at hnull ⊢
        cases hfn : lib.descriptorFn with
        | none => simp [hfn]
        | some table =>
          rw [hfn] at hnull
          simp only at hnull ⊢
          cases hd : findDescriptor (host.parseIdentifier identifier).2.2 table with
          | none =>
            have := (findDescriptor_eq_none_iff _ _).mp hd
            simp [hfn, this]
          | some d =>
            rw [hd] at hnull
            simp at hnull

theorem instantiatePlugin_failure_witness :
    (instantiatePlugin instantiateHost oneInstance "vamp:first.so:C" 9).rv = none ∧
    ((instantiatePlugin instantiateHost oneInstance "vamp:first.so:C" 9).state.m_handleMap =
      [(7, "/plugins/other.so")] ∧
    (instantiatePlugin instantiateHost oneInstance "vamp:first.so:C" 9).state.openHandles =
      ["/plugins/other.so"] ∧
    ((instantiatePlugin instantiateHost oneInstance "vamp:first.so:C" 9).calls = [] ∨
      ∃ handle, (instantiatePlugin instantiateHost oneInstance "vamp:first.so:C" 9).calls =
        [LibraryCall.opened handle, LibraryCall.closed handle]) ∧
    ((instantiateHost.parseIdentifier "vamp:first.so:C").1 ≠ "vamp" ∨
        findPluginFile instantiateHost (instantiateHost.parseIdentifier "vamp:first.so:C").2.1
          = "" →
      (instantiatePlugin instantiateHost oneInstance "vamp:first.so:C" 9).calls = []) ∧
    ((instantiateHost.parseIdentifier "vamp:first.so:C").1 ≠ "vamp" ∨
      findPluginFile instantiateHost (instantiateHost.parseIdentifier "vamp:first.so:C").2.1
        = "" ∨
      instantiateHost.DLOPEN (findPluginFile instantiateHost
        (instantiateHost.parseIdentifier "vamp:first.so:C").2.1) = none ∨
      ∃ lib, instantiateHost.DLOPEN (findPluginFile instantiateHost
          (instantiateHost.parseIdentifier "vamp:first.so:C").2.1) = some lib ∧
        (lib.descriptorFn = none ∨
          ∃ table, lib.descriptorFn = some table ∧
            (instantiateHost.parseIdentifier "vamp:first.so:C").2.2 ∉ table))) :=
  ⟨by decide, instantiatePlugin_failure instantiateHost oneInstance "vamp:first.so:C" 9 (by decide)⟩

end FeatureExtractionPluginFactory

namespace LADSPAPluginFactory

/-! ## Lemmas: loading libraries -/

theorem openAs_cases (host : FileHost) (f : FactoryState) (soName file : String) :
    openAs host f soName file = f ∨
    (host.DLOPEN file ≠ none ∧
      openAs host f soName file =
        { f with
          m_libraryHandles := mapAssign f.m_libraryHandles soName file
          openHandles := file :: f.openHandles }) := by
  unfold openAs
  cases h : host.DLOPEN file with
  | none => exact Or.inl rfl
  | some lib => exact Or.inr ⟨by simp, rfl⟩

theorem loadFromPath_cases (host : FileHost) (f : FactoryState) (soName : String)
    (path : List String) :
    loadFromPath host f soName path = f ∨
    ∃ handle, host.DLOPEN handle ≠ none ∧
      loadFromPath host f soName path =
        { f with
          m_libraryHandles := mapAssign f.m_libraryHandles soName handle
          openHandles := handle :: f.openHandles } := by
  induction path with
  | nil => exact Or.inl rfl
  | cons dir rest ih =>
    unfold loadFromPath
    split
    · rcases openAs_cases host f soName (host.filePath dir (host.fileName soName)) with h | h
      · exact Or.inl h
      · exact Or.inr ⟨_, h⟩
    · split
      · rename_i entry _
        rcases openAs_cases host f soName (host.filePath dir entry) with h | h
        · exact Or.inl h
        · exact Or.inr ⟨_, h⟩
      · exact ih

theorem loadLibrary_cases (host : FileHost) (f : FactoryState) (soName : String) :
    loadLibrary host f soName = f ∨
    ∃ handle, host.DLOPEN handle ≠ none ∧
      loadLibrary host f soName =
        { f with
          m_libraryHandles := mapAssign f.m_libraryHandles soName handle
          openHandles := handle :: f.openHandles } := by
  unfold loadLibrary
  cases h : host.DLOPEN soName with
  | some lib => exact Or.inr ⟨soName, by simp [h], rfl⟩
  | none =>
    simp only
    split
    · exact Or.inl rfl
    · exact loadFromPath_cases host f soName host.pluginPath

theorem getLADSPADescriptor_fst (host : FileHost) (f : FactoryState) (identifier : String) :
    (getLADSPADescriptor host f identifier).1 =
      if (f.m_libraryHandles.lookup (host.parseIdentifier identifier).2.1).isNone then
        loadLibrary host f (host.parseIdentifier identifier).2.1
      else f := by
  unfold getLADSPADescriptor
  simp only
  split
  · rfl
  · split <;> rfl

/-- C14, counterexample. `lib.so` loads and exports only the label `A`;
instantiating `ladspa:lib.so:B` on a factory with no library loaded returns
null and leaves `lib.so` in `m_libraryHandles`. -/
theorem instantiatePlugin_null_keeps_library :
    emptyState.m_libraryHandles = [] ∧
    (instantiatePlugin oneLibraryHost emptyState "ladspa:lib.so:B" 1).2 = none ∧
    (instantiatePlugin oneLibraryHost emptyState "ladspa:lib.so:B" 1).1.m_libraryHandles =
      [("lib.so", "lib.so")] := by
  decide

/-- C14, amended. Whenever `LADSPAPluginFactory::instantiatePlugin` returns
null, the set of live instances is unchanged, and `m_libraryHandles` is the
same after the call as before it if the library was already in the table or
could not be loaded; if the call itself loaded the library and then failed
(the entry point is missing or no descriptor has the label), the handle it
opened stays in the table under the library name and stays open. -/
theorem instantiatePlugin_null (host : FileHost) (f : FactoryState) (identifier : String)
    (inst : Nat) (hnull : (instantiatePlugin host f identifier inst).2 = none) :
    (instantiatePlugin host f identifier inst).1.m_instances = f.m_instances ∧
    ((f.m_libraryHandles.lookup (host.parseIdentifier identifier).2.1).isSome = true →
      (instantiatePlugin host f identifier inst).1.m_libraryHandles = f.m_libraryHandles) ∧
    ((instantiatePlugin host f identifier inst).1.m_libraryHandles.lookup
        (host.parseIdentifier identifier).2.1 = none →
      (instantiatePlugin host f identifier inst).1.m_libraryHandles = f.m_libraryHandles ∧
      (instantiatePlugin host f identifier inst).1.openHandles = f.openHandles) ∧
    ((instantiatePlugin host f identifier inst).1.m_libraryHandles = f.m_libraryHandles ∨
      ∃ handle, f.m_libraryHandles.lookup (host.parseIdentifier identifier).2.1 = none ∧
        host.DLOPEN handle ≠ none ∧
        (instantiatePlugin host f identifier inst).1.m_libraryHandles =
          mapAssign f.m_libraryHandles (host.parseIdentifier identifier).2.1 handle ∧
        (instantiatePlugin host f identifier inst).1.openHandles =
          handle :: f.openHandles) := by
  have hfst : (instantiatePlugin host f identifier inst).1 =
      (getLADSPADescriptor host f identifier).1 := by
    unfold instantiatePlugin at hnull ⊢
    split at hnull
    · cases hnull
    · rename_i f1 heq
      rw [heq]
  rw [hfst, getLADSPADescriptor_fst]
  cases hl : f.m_libraryHandles.lookup (host.parseIdentifier identifier).2.1 with
  | some handle =>
    simp only [Option.isNone_some, Bool.false_eq_true, if_false]
    simp
  | none =>
    simp only [Option.isNone_none, if_true]
    rcases loadLibrary_cases host f (host.parseIdentifier identifier).2.1 with h | ⟨handle, hh, h⟩
    · rw [h]
      simp
    · rw [h]
      refine ⟨rfl, ?_, ?_, Or.inr ⟨handle, trivial, hh, rfl, rfl⟩⟩
      · intro hc
        simp at hc
      · intro hc
        change (mapAssign f.m_libraryHandles (host.parseIdentifier identifier).2.1
          handle).lookup (host.parseIdentifier identifier).2.1 = none at hc
        rw [lookup_mapAssign_self] at hc
        cases hc

theorem instantiatePlugin_null_witness :
    (instantiatePlugin oneLibraryHost emptyState "ladspa:lib.so:B" 1).2 = none ∧
    ((instantiatePlugin oneLibraryHost emptyState "ladspa:lib.so:B" 1).1.m_instances =
      emptyState.m_instances ∧
    ((emptyState.m_libraryHandles.lookup
        (oneLibraryHost.parseIdentifier "ladspa:lib.so:B").2.1).isSome = true →
      (instantiatePlugin oneLibraryHost emptyState "ladspa:lib.so:B" 1).1.m_libraryHandles =
        emptyState.m_libraryHandles) ∧
    ((instantiatePlugin oneLibraryHost emptyState "ladspa:lib.so:B" 1).1.m_libraryHandles.lookup
        (oneLibraryHost.parseIdentifier "ladspa:lib.so:B").2.1 = none →
      (instantiatePlugin oneLibraryHost emptyState "ladspa:lib.so:B" 1).1.m_libraryHandles =
        emptyState.m_libraryHandles ∧
      (instantiatePlugin oneLibraryHost emptyState "ladspa:lib.so:B" 1).1.openHandles =
        emptyState.openHandles) ∧
    ((instantiatePlugin oneLibraryHost emptyState "ladspa:lib.so:B" 1).1.m_libraryHandles =
        emptyState.m_libraryHandles ∨
      ∃ handle, emptyState.m_libraryHandles.lookup
          (oneLibraryHost.parseIdentifier "ladspa:lib.so:B").2.1 = none ∧
        oneLibraryHost.DLOPEN handle ≠ none ∧
        (instantiatePlugin oneLibraryHost emptyState "ladspa:lib.so:B" 1).1.m_libraryHandles =
          mapAssign emptyState.m_libraryHandles
            (oneLibraryHost.parseIdentifier "ladspa:lib.so:B").2.1 handle ∧
        (instantiatePlugin oneLibraryHost emptyState "ladspa:lib.so:B" 1).1.openHandles =
          handle :: emptyState.openHandles)) :=
  ⟨by decide, instantiatePlugin_null oneLibraryHost emptyState "ladspa:lib.so:B" 1 (by decide)⟩

/-! ## Lemmas: releasing plugins -/

theorem lookup_filter_ne {β : Type} (m : List (String × β)) (key : String) :
    (m.filter (fun kv => kv.1 ≠ key)).lookup key = none := by
  induction m with
  | nil => rfl
  | cons kv rest ih =>
    obtain ⟨k, v⟩ := kv
    by_cases hk : k = key
    · subst hk
      simpa [List.filter_cons] using ih
    · have hne : (key == k) = false := by
        rw [beq_eq_false_iff_ne]; exact fun hc => hk hc.symm
      simp only [List.filter_cons, ne_eq, hk, not_false_eq_true, decide_True, if_true]
      rw [List.lookup_cons, hne]
      exact ih

theorem filter_ne_of_lookup_none {β : Type} (m : List (String × β)) (key : String)
    (h : m.lookup key = none) : m.filter (fun kv => kv.1 ≠ key) = m := by
  induction m with
  | nil => rfl
  | cons kv rest ih =>
    obtain ⟨k, v⟩ := kv
    rw [List.lookup_cons] at h
    by_cases hk : k = key
    · subst hk
      simp at h
    · have hne : (key == k) = false := by
        rw [beq_eq_false_iff_ne]; exact fun hc => hk hc.symm
      rw [hne] at h
      simp only [List.filter_cons, ne_eq, hk, not_false_eq_true, decide_True, if_true]
      rw [ih h]

theorem unloadLibrary_handles (f : FactoryState) (soName : String) :
    (unloadLibrary f soName).m_libraryHandles =
      f.m_libraryHandles.filter (fun kv => kv.1 ≠ soName) ∧
    (unloadLibrary f soName).m_instances = f.m_instances := by
  unfold unloadLibrary
  cases h : f.m_libraryHandles.lookup soName with
  | some handle => exact ⟨rfl, rfl⟩
  | none => exact ⟨(filter_ne_of_lookup_none _ _ h).symm, rfl⟩

/-- C15. Library unload policy on release: for every factory state and
every tracked instance released with its own identifier, `releasePlugin`
removes the instance from the live set; if a remaining instance has an
identifier naming the same library the handle table is left as it is, and
if none has, the library is removed from the handle table (and nothing
else is). -/
theorem releasePlugin_spec (host : FileHost) (f : FactoryState) (inst : Nat)
    (identifier : String) (htracked : f.m_instances.lookup inst = some identifier) :
    (releasePlugin host f inst identifier).m_instances =
      f.m_instances.filter (fun i => i.1 ≠ inst) ∧
    ((∃ i ∈ f.m_instances.filter (fun i => i.1 ≠ inst),
        (host.parseIdentifier i.2).2.1 = (host.parseIdentifier identifier).2.1) →
      (releasePlugin host f inst identifier).m_libraryHandles = f.m_libraryHandles ∧
      (releasePlugin host f inst identifier).openHandles = f.openHandles) ∧
    ((∀ i ∈ f.m_instances.filter (fun i => i.1 ≠ inst),
        (host.parseIdentifier i.2).2.1 ≠ (host.parseIdentifier identifier).2.1) →
      (releasePlugin host f inst identifier).m_libraryHandles =
        f.m_libraryHandles.filter (fun kv => kv.1 ≠ (host.parseIdentifier identifier).2.1) ∧
      (releasePlugin host f inst identifier).m_libraryHandles.lookup
        (host.parseIdentifier identifier).2.1 = none) := by
  unfold releasePlugin
  simp only [htracked, Option.isNone_some, Bool.false_eq_true, if_false]
  by_cases hany : (f.m_instances.filter (fun i => i.1 ≠ inst)).any
      (fun i => (host.parseIdentifier i.2).2.1 = (host.parseIdentifier identifier).2.1) = true
  · simp only [hany, Bool.not_true, Bool.false_eq_true, if_false]
    refine ⟨(by simp), (fun _ => by simp), ?_⟩
    intro hall
    rw [List.any_eq_true] at hany
    obtain ⟨i, hi, heq⟩ := hany
    exact absurd (of_decide_eq_true heq) (hall i hi)
  · have hfalse : (f.m_instances.filter (fun i => i.1 ≠ inst)).any
        (fun i => (host.parseIdentifier i.2).2.1 = (host.parseIdentifier identifier).2.1)
        = false := by
      cases hx : (f.m_instances.filter (fun i => i.1 ≠ inst)).any
        (fun i => (host.parseIdentifier i.2).2.1 = (host.parseIdentifier identifier).2.1)
      · rfl
      · exact absurd hx hany
    simp only [hfalse, Bool.not_false, if_true]
    refine ⟨(unloadLibrary_handles _ _).2, ?_, ?_⟩
    · rintro ⟨i, hi, heq⟩
      have : (f.m_instances.filter (fun i => i.1 ≠ inst)).any
          (fun i => (host.parseIdentifier i.2).2.1 = (host.parseIdentifier identifier).2.1)
          = true := by
        rw [List.any_eq_true]
        exact ⟨i, hi, decide_eq_true heq⟩
      exact absurd this hany
    · intro _
      rw [(unloadLibrary_handles _ _).1]
      exact ⟨rfl, lookup_filter_ne _ _⟩

theorem releasePlugin_spec_witness :
    sharedState.m_instances.lookup 1 = some "ladspa:lib.so:A" ∧
    ((releasePlugin oneLibraryHost sharedState 1 "ladspa:lib.so:A").m_instances =
      sharedState.m_instances.filter (fun i => i.1 ≠ 1) ∧
    ((∃ i ∈ sharedState.m_instances.filter (fun i => i.1 ≠ 1),
        (oneLibraryHost.parseIdentifier i.2).2.1 =
          (oneLibraryHost.parseIdentifier "ladspa:lib.so:A").2.1) →
      (releasePlugin oneLibraryHost sharedState 1 "ladspa:lib.so:A").m_libraryHandles =
        sharedState.m_libraryHandles ∧
      (releasePlugin oneLibraryHost sharedState 1 "ladspa:lib.so:A").openHandles =
        sharedState.openHandles) ∧
    ((∀ i ∈ sharedState.m_instances.filter (fun i => i.1 ≠ 1),
        (oneLibraryHost.parseIdentifier i.2).2.1 ≠
          (oneLibraryHost.parseIdentifier "ladspa:lib.so:A").2.1) →
      (releasePlugin oneLibraryHost sharedState 1 "ladspa:lib.so:A").m_libraryHandles =
        sharedState.m_libraryHandles.filter
          (fun kv => kv.1 ≠ (oneLibraryHost.parseIdentifier "ladspa:lib.so:A").2.1) ∧
      (releasePlugin oneLibraryHost sharedState 1 "ladspa:lib.so:A").m_libraryHandles.lookup
        (oneLibraryHost.parseIdentifier "ladspa:lib.so:A").2.1 = none)) :=
  ⟨by decide, releasePlugin_spec oneLibraryHost sharedState 1 "ladspa:lib.so:A" (by decide)⟩

/-- Releasing one of two instances that share `lib.so` keeps it loaded;
releasing the other one as well unloads it. -/
theorem releasePlugin_shared_library :
    (releasePlugin oneLibraryHost sharedState 1 "ladspa:lib.so:A").m_libraryHandles =
      [("lib.so", "lib.so")] ∧
    (releasePlugin oneLibraryHost sharedState 1 "ladspa:lib.so:A").m_instances =
      [(2, "ladspa:lib.so:A")] ∧
    (releasePlugin oneLibraryHost
      (releasePlugin oneLibraryHost sharedState 1 "ladspa:lib.so:A") 2
        "ladspa:lib.so:A").m_libraryHandles = [] ∧
    (releasePlugin oneLibraryHost
      (releasePlugin oneLibraryHost sharedState 1 "ladspa:lib.so:A") 2
        "ladspa:lib.so:A").openHandles = [] := by
  decide

/-! ## Lemmas: enumeration -/

theorem getLADSPADescriptor_maps (host : FileHost) (f : FactoryState) (identifier : String) :
    (getLADSPADescriptor host f identifier).1.m_taxonomy = f.m_taxonomy ∧
    (getLADSPADescriptor host f identifier).1.m_fallbackCategories = f.m_fallbackCategories := by
  rw [getLADSPADescriptor_fst]
  split
  · rcases loadLibrary_cases host f (host.parseIdentifier identifier).2.1 with h | ⟨handle, _, h⟩
    · rw [h]; exact ⟨rfl, rfl⟩
    · rw [h]; exact ⟨rfl, rfl⟩
  · exact ⟨rfl, rfl⟩

theorem pluginEntries_congr (host : FileHost) (f g : FactoryState) (identifier : String)
    (descriptor : LADSPA_Descriptor) (ht : g.m_taxonomy = f.m_taxonomy)
    (hf : g.m_fallbackCategories = f.m_fallbackCategories) :
    pluginEntries host g identifier descriptor = pluginEntries host f identifier descriptor := by
  unfold pluginEntries category
  rw [ht, hf]

theorem lookup_mapAssign_other {β : Type} (m : List (String × β)) (key other : String)
    (value : β) (hko : other ≠ key) :
    (mapAssign m key value).lookup other = m.lookup other := by
  unfold mapAssign
  split
  · exact lookup_map_other m key other value hko
  · rename_i hnot
    clear hnot
    induction m with
    | nil =>
      have hne : (other == key) = false := by simpa using hko
      simp [List.lookup, hne]
    | cons kv rest ih =>
      obtain ⟨k, v⟩ := kv
      rw [List.cons_append, List.lookup_cons, List.lookup_cons, ih]

theorem openAs_handles (host : FileHost) (g : FactoryState) (soName file : String) :
    (openAs host g soName file).m_libraryHandles =
      if (host.DLOPEN file).isSome then mapAssign g.m_libraryHandles soName file
      else g.m_libraryHandles := by
  unfold openAs
  cases host.DLOPEN file <;> rfl

theorem loadFromPath_deterministic (host : FileHost) (g1 g2 : FactoryState) (soName : String)
    (path : List String) :
    ∃ o : Option String,
      (loadFromPath host g1 soName path).m_libraryHandles =
        (match o with
          | some file => mapAssign g1.m_libraryHandles soName file
          | none => g1.m_libraryHandles) ∧
      (loadFromPath host g2 soName path).m_libraryHandles =
        (match o with
          | some file => mapAssign g2.m_libraryHandles soName file
          | none => g2.m_libraryHandles) := by
  have hopen : ∀ file, ∃ o : Option String,
      (openAs host g1 soName file).m_libraryHandles =
        (match o with
          | some file => mapAssign g1.m_libraryHandles soName file
          | none => g1.m_libraryHandles) ∧
      (openAs host g2 soName file).m_libraryHandles =
        (match o with
          | some file => mapAssign g2.m_libraryHandles soName file
          | none => g2.m_libraryHandles) := by
    intro file
    rw [openAs_handles, openAs_handles]
    by_cases h : (host.DLOPEN file).isSome = true
    · exact ⟨some file, by simp [h], by simp [h]⟩
    · exact ⟨none, by simp [h], by simp [h]⟩
  induction path with
  | nil => exact ⟨none, rfl, rfl⟩
  | cons dir rest ih =>
    unfold loadFromPath
    split
    · exact hopen _
    · split
      · exact hopen _
      · exact ih

theorem loadLibrary_deterministic (host : FileHost) (g1 g2 : FactoryState) (soName : String) :
    ∃ o : Option String,
      (loadLibrary host g1 soName).m_libraryHandles =
        (match o with
          | some file => mapAssign g1.m_libraryHandles soName file
          | none => g1.m_libraryHandles) ∧
      (loadLibrary host g2 soName).m_libraryHandles =
        (match o with
          | some file => mapAssign g2.m_libraryHandles soName file
          | none => g2.m_libraryHandles) := by
  unfold loadLibrary
  cases host.DLOPEN soName with
  | some lib => exact ⟨some soName, rfl, rfl⟩
  | none =>
    simp only
    split
    · exact ⟨none, rfl, rfl⟩
    · exact loadFromPath_deterministic host g1 g2 soName host.pluginPath

theorem handleFor_of_lookup_some (host : FileHost) (f : FactoryState) (soname handle : String)
    (h : f.m_libraryHandles.lookup soname = some handle) :
    handleFor host f soname = some handle := by
  unfold handleFor
  simp [h]

theorem handleFor_eq (host : FileHost) (f g : FactoryState) (h : LoadedFrom host f g)
    (soname : String) : handleFor host g soname = handleFor host f soname := by
  cases hg : g.m_libraryHandles.lookup soname with
  | some handle =>
    rw [handleFor_of_lookup_some host g soname handle hg]
    rcases h soname with h1 | h1
    · rw [hg] at h1
      rw [handleFor_of_lookup_some host f soname handle h1.symm]
    · rw [← h1, hg]
  | none =>
    obtain ⟨o, h1, h2⟩ := loadLibrary_deterministic host g f soname
    have hgl : handleFor host g soname =
        (loadLibrary host g soname).m_libraryHandles.lookup soname := by
      unfold handleFor
      simp [hg]
    cases hf : f.m_libraryHandles.lookup soname with
    | none =>
      have hfl : handleFor host f soname =
          (loadLibrary host f soname).m_libraryHandles.lookup soname := by
        unfold handleFor
        simp [hf]
      rw [hgl, hfl, h1, h2]
      cases o with
      | some file => simp only [lookup_mapAssign_self]
      | none => simp only [hg, hf]
    | some handle =>
      rcases h soname with h3 | h3
      · rw [hg, hf] at h3
        cases h3
      · rw [hgl, h1, ← h3, hg]
        cases o with
        | some file =>
          exfalso
          rw [handleFor_of_lookup_some host f soname handle hf, hg] at h3
          cases h3
        | none => simp only [hg]

theorem getLADSPADescriptor_snd (host : FileHost) (f : FactoryState) (identifier : String) :
    (getLADSPADescriptor host f identifier).2 =
      match handleFor host f (host.parseIdentifier identifier).2.1 with
      | none => none
      | some handle =>
        match (host.DLOPEN handle).bind (fun lib => lib.descriptorFn) with
        | none => none
        | some table =>
          table.find? (fun descriptor => descriptor.Label = (host.parseIdentifier identifier).2.2)
          := by
  unfold getLADSPADescriptor handleFor
  simp only
  generalize (if (f.m_libraryHandles.lookup (host.parseIdentifier identifier).2.1).isNone
    then loadLibrary host f (host.parseIdentifier identifier).2.1
    else f) = f1
  cases f1.m_libraryHandles.lookup (host.parseIdentifier identifier).2.1 with
  | none => rfl
  | some handle =>
    simp only
    cases (host.DLOPEN handle).bind (fun lib => lib.descriptorFn) <;> rfl

theorem LoadedFrom_getLADSPADescriptor (host : FileHost) (f g : FactoryState)
    (h : LoadedFrom host f g) (identifier : String) :
    LoadedFrom host f (getLADSPADescriptor host g identifier).1 := by
  rw [getLADSPADescriptor_fst]
  split
  · rename_i hnone
    obtain ⟨o, h1, _⟩ :=
      loadLibrary_deterministic host g g (host.parseIdentifier identifier).2.1
    intro soname
    rw [h1]
    cases o with
    | none => exact h soname
    | some file =>
      by_cases hs : soname = (host.parseIdentifier identifier).2.1
      · subst hs
        right
        rw [← handleFor_eq host f g h]
        unfold handleFor
        rw [if_pos hnone, h1]
      · simp only [lookup_mapAssign_other _ _ _ _ hs]
        exact h soname
  · exact h

theorem foldl_enumerateStep_exact (host : FileHost) (f : FactoryState)
    (identifiers : List String) (acc : FactoryState × List String)
    (hl : LoadedFrom host f acc.1) (ht : acc.1.m_taxonomy = f.m_taxonomy)
    (hf : acc.1.m_fallbackCategories = f.m_fallbackCategories) :
    (identifiers.foldl (enumerateStep host) acc).2 =
      acc.2 ++ identifiers.flatMap (fun identifier =>
        match (getLADSPADescriptor host f identifier).2 with
        | none => []
        | some descriptor => pluginEntries host f identifier descriptor) := by
  induction identifiers generalizing acc with
  | nil => simp
  | cons identifier rest ih =>
    rw [List.foldl_cons, List.flatMap_cons]
    have hmaps := getLADSPADescriptor_maps host acc.1 identifier
    have hload := LoadedFrom_getLADSPADescriptor host f acc.1 hl identifier
    have hsnd : (getLADSPADescriptor host acc.1 identifier).2 =
        (getLADSPADescriptor host f identifier).2 := by
      rw [getLADSPADescriptor_snd, getLADSPADescriptor_snd, handleFor_eq host f acc.1 hl]
    cases hg : getLADSPADescriptor host acc.1 identifier with
    | mk f1 d =>
      rw [hg] at hmaps hload hsnd
      simp only at hsnd
      rw [← hsnd]
      cases d with
      | none =>
        have hstep : enumerateStep host acc identifier = (f1, acc.2) := by
          unfold enumerateStep
          rw [hg]
        rw [hstep, ih (f1, acc.2) hload (by rw [← ht]; exact hmaps.1)
          (by rw [← hf]; exact hmaps.2)]
        simp
      | some descriptor =>
        have hstep : enumerateStep host acc identifier =
            (f1, acc.2 ++ pluginEntries host f1 identifier descriptor) := by
          unfold enumerateStep
          rw [hg]
        have hpe : pluginEntries host f1 identifier descriptor =
            pluginEntries host f identifier descriptor :=
          pluginEntries_congr host f f1 identifier descriptor (by rw [← ht]; exact hmaps.1)
            (by rw [← hf]; exact hmaps.2)
        rw [hstep, ih (f1, acc.2 ++ pluginEntries host f1 identifier descriptor) hload
          (by rw [← ht]; exact hmaps.1) (by rw [← hf]; exact hmaps.2), hpe]
        simp only [List.append_assoc]

/-- C18. Category precedence: `enumeratePlugins` appends, for each identifier
of `m_identifiers` in order, nothing when `getLADSPADescriptor` finds no
descriptor for it and otherwise the record of the identifier and its
descriptor.  The record begins with the identifier, holds the unique ID as
entry 2 and the category as entry 8; the category is the taxonomy entry for
the unique ID when that entry exists and is non-empty, otherwise the fallback
entry for the identifier when one exists, otherwise the empty string. -/
theorem enumeratePlugins_category (host : FileHost) (f : FactoryState) (list : List String) :
    (enumeratePlugins host f list).2 =
      list ++ f.m_identifiers.flatMap (fun identifier =>
        match (getLADSPADescriptor host f identifier).2 with
        | none => []
        | some descriptor => pluginEntries host f identifier descriptor) ∧
    (∀ (identifier : String) (descriptor : LADSPA_Descriptor),
      (pluginEntries host f identifier descriptor)[0]? = some identifier ∧
      (pluginEntries host f identifier descriptor)[2]? = some (toString descriptor.UniqueID) ∧
      (pluginEntries host f identifier descriptor)[8]? =
        some (category f identifier descriptor)) ∧
    (∀ (identifier : String) (descriptor : LADSPA_Descriptor),
      (∀ t, f.m_taxonomy.lookup descriptor.UniqueID = some t → t ≠ "" →
        category f identifier descriptor = t) ∧
      (f.m_taxonomy.lookup descriptor.UniqueID = none ∨
          f.m_taxonomy.lookup descriptor.UniqueID = some "" →
        (∀ fallback, f.m_fallbackCategories.lookup identifier = some fallback →
          category f identifier descriptor = fallback) ∧
        (f.m_fallbackCategories.lookup identifier = none →
          category f identifier descriptor = ""))) := by
  refine ⟨?_, ?_, ?_⟩
  · unfold enumeratePlugins
    exact foldl_enumerateStep_exact host f f.m_identifiers (f, list)
      (fun _ => Or.inl rfl) rfl rfl
  · intro identifier descriptor
    exact ⟨rfl, rfl, rfl⟩
  · intro identifier descriptor
    unfold category
    refine ⟨?_, ?_⟩
    · intro t ht hne
      simp [ht, hne]
    · intro ht
      have hcond : ¬ ((f.m_taxonomy.lookup descriptor.UniqueID).isSome = true ∧
          (f.m_taxonomy.lookup descriptor.UniqueID).getD "" ≠ "") := by
        rcases ht with ht | ht <;> simp [ht]
      simp only [hcond, if_false]
      refine ⟨?_, ?_⟩
      · intro fallback hfb
        simp [hfb]
      · intro hfb
        simp [hfb]

/-- With the library `lib.so` exporting the one descriptor `A` (unique ID 1),
the identifier `ladspa:lib.so:A` is enumerated with the taxonomy category of
its unique ID, which takes precedence over its fallback category, and
`ladspa:lib.so:B`, for which there is no descriptor, is not enumerated. -/
theorem enumeratePlugins_categoryState :
    (enumeratePlugins oneLibraryHost categoryState []).2 =
      ["ladspa:lib.so:A", "first", "1", "A", "", "", "false", "false", "Filters", "0"] ∧
    (enumeratePlugins oneLibraryHost { categoryState with m_taxonomy := [(1, "")] } []).2 =
      ["ladspa:lib.so:A", "first", "1", "A", "", "", "false", "false", "Fallback", "0"] ∧
    (enumeratePlugins oneLibraryHost
        { categoryState with m_taxonomy := [], m_fallbackCategories := [] } []).2 =
      ["ladspa:lib.so:A", "first", "1", "A", "", "", "false", "false", "", "0"] := by
  decide

end LADSPAPluginFactory

namespace BasicCompressedDenseThreeDimensionalModel

/-! ## Lemmas: the notification flag -/

theorem truncateAndStore_notifyOnAdd (s : Model) (index : Nat) (values : Column) (s1 : Model)
    (h : truncateAndStore s index values = some s1) :
    s1.m_notifyOnAdd = s.m_notifyOnAdd := by
  unfold truncateAndStore at h
  simp only at h
  repeat' split at h
  all_goals first
    | (cases h; done)
    | (injection h with h; subst h; rfl)

theorem setColumn_notifyOnAdd (s : Model) (index : Nat) (values : Column)
    (r : Model × List Signal) (h : setColumn s index values = some r) :
    r.1.m_notifyOnAdd = s.m_notifyOnAdd := by
  unfold setColumn at h
  simp only at h
  split at h
  · cases h
  · rename_i s3 h3
    injection h with h
    subst h
    rw [(notifyAfterStore_fst s3 index _).2.2.2.2.2.2, truncateAndStore_notifyOnAdd _ _ _ _ h3]
    rfl

theorem setCompletion_notifyOnAdd (s : Model) (completion : Int) (update : Bool)
    (h : s.m_notifyOnAdd = true) :
    (setCompletion s completion update).1.m_notifyOnAdd = true := by
  unfold setCompletion
  split_ifs <;> simp_all

theorem perform_notifyOnAdd (s : Model) (op : Operation) (r : Model × List Signal)
    (h : s.m_notifyOnAdd = true) (hr : perform s op = some r) :
    r.1.m_notifyOnAdd = true := by
  cases op with
  | setColumn index values =>
    rw [setColumn_notifyOnAdd s index values r hr, h]
  | setCompletion completion update =>
    injection hr with hr
    subst hr
    exact setCompletion_notifyOnAdd s completion update h
  | _ =>
    injection hr with hr
    subst hr
    exact h

/-- C21. After any sequence of `setColumn` calls on a fresh cache, every
stored truncation offset `t` at column `i` has `|t| ≤ 6` and `|t| ≤ i`, so
`i - |t|` is an index of the cache, strictly below `i` when `t` is not zero;
and `expandAndRetrieve` returns a column of `m_yBinCount` values at every index
in range, with any depth bound above the index. -/
theorem bounded_back_references (resolution : Int) (yBinCount : Nat) (notifyOnAdd : Bool)
    (ops : List (Nat × Column)) :
    ∃ s, setColumns (create resolution yBinCount notifyOnAdd) ops = some s ∧
      (∀ (i : Nat) (t : Int), s.m_trunc[i]? = some t →
        t.natAbs ≤ 6 ∧ t.natAbs ≤ i ∧ i - t.natAbs < s.m_data.length ∧
          (t ≠ 0 → i - t.natAbs < i)) ∧
      (∀ index, index < s.m_data.length →
        ∃ col, expandAndRetrieve s index = some col ∧ col.length = s.m_yBinCount ∧
          ∀ fuel, index < fuel →
            expandAux s.m_yBinCount s.m_data s.m_trunc fuel index = some col) := by
  obtain ⟨s, hrun, hs, _⟩ :=
    Inv_setColumns (create resolution yBinCount notifyOnAdd)
      (Inv_create resolution yBinCount notifyOnAdd) ops
  refine ⟨s, hrun, ?_, ?_⟩
  · intro i t ht
    obtain ⟨h1, h2⟩ := hs.bound i t ht
    have hi : i < s.m_trunc.length := by
      by_contra hc
      rw [List.getElem?_eq_none (by omega)] at ht
      cases ht
    rw [hs.len] at hi
    refine ⟨h2, h1, by omega, fun hne => ?_⟩
    have : 0 < t.natAbs := Int.natAbs_pos.mpr hne
    omega
  · intro index hi
    obtain ⟨col, hc, hl⟩ := expandAndRetrieve_some s hs index hi
    refine ⟨col, hc, hl, fun fuel hf => ?_⟩
    rw [← hc]
    exact expandAux_fuel _ _ _ fuel (index + 1) index hf (by omega)

/-- C22, counterexample. In the scenario of the claim column 1 is stored with
offset -1, not +1: the seven matching values are at the bottom of the column
(bins 0 to 6), so `truncateAndStore` takes its bottom direction. -/
theorem spec_scenario_offset_is_not_top :
    ∃ s, setColumns (create 1 8 true)
        [(0, [FVal.fin 1, FVal.fin 2, FVal.fin 3, FVal.fin 4, FVal.fin 5, FVal.fin 6,
              FVal.fin 7, FVal.fin 8]),
         (1, [FVal.fin 1, FVal.fin 2, FVal.fin 3, FVal.fin 4, FVal.fin 5, FVal.fin 6,
              FVal.fin 7, FVal.fin 9])] = some s ∧
      s.m_trunc[1]? ≠ some 1 ∧ s.m_trunc[1]? = some (-1) :=
  ⟨_, rfl, by decide, by decide⟩

/-- C22, amended. On a fresh cache with bin count 8, after
`setColumn(0, [1,2,3,4,5,6,7,8])` and `setColumn(1, [1,2,3,4,5,6,7,9])`,
column 1 is stored bottom-truncated with reference to column 0: its stored
offset is -1 (distance 1, the bottom direction of `truncateAndStore`), the one
value stored is `[9]`, column 0 is stored whole, and `getColumn(1)` returns the
eight values written. -/
theorem spec_scenario_bottom_truncated :
    ∃ s, setColumns (create 1 8 true)
        [(0, [FVal.fin 1, FVal.fin 2, FVal.fin 3, FVal.fin 4, FVal.fin 5, FVal.fin 6,
              FVal.fin 7, FVal.fin 8]),
         (1, [FVal.fin 1, FVal.fin 2, FVal.fin 3, FVal.fin 4, FVal.fin 5, FVal.fin 6,
              FVal.fin 7, FVal.fin 9])] = some s ∧
      s.m_trunc = [0, -1] ∧
      s.m_data = [[FVal.fin 1, FVal.fin 2, FVal.fin 3, FVal.fin 4, FVal.fin 5, FVal.fin 6,
              FVal.fin 7, FVal.fin 8], [FVal.fin 9]] ∧
      getColumn s 1 = some [FVal.fin 1, FVal.fin 2, FVal.fin 3, FVal.fin 4, FVal.fin 5,
        FVal.fin 6, FVal.fin 7, FVal.fin 9] :=
  ⟨_, rfl, by decide, by decide, by decide⟩

/-- C25. Once `m_notifyOnAdd` is true it stays true: no sequence of
`setColumn`, `setCompletion` and setter calls that runs from a state with
`m_notifyOnAdd` true ends in a state with `m_notifyOnAdd` false. -/
theorem notifyOnAdd_permanent (s : Model) (ops : List Operation) (s1 : Model)
    (h : s.m_notifyOnAdd = true) (hrun : performAll s ops = some s1) :
    s1.m_notifyOnAdd = true := by
  induction ops generalizing s with
  | nil =>
    injection hrun with hrun
    subst hrun
    exact h
  | cons op rest ih =>
    rw [performAll] at hrun
    split at hrun
    · cases hrun
    · rename_i s2 sig hp
      exact ih s2 (perform_notifyOnAdd s op (s2, sig) h hp) hrun

/-! ## Lemmas: the matching runs -/

theorem leadingRun_cons (a b : FVal) (values p : Column) :
    leadingRun (a :: values) (b :: p) =
      if FVal.feq a b = true then leadingRun values p + 1 else 0 := by
  unfold leadingRun
  rw [List.zip_cons_cons, List.takeWhile_cons]
  split <;> simp_all

theorem leadingRun_le (values p : Column) :
    leadingRun values p ≤ values.length ∧ leadingRun values p ≤ p.length := by
  induction values generalizing p with
  | nil => simp [leadingRun]
  | cons a values ih =>
    cases p with
    | nil => simp [leadingRun]
    | cons b p =>
      rw [leadingRun_cons]
      have := ih p
      split
      · simp; omega
      · simp

/-- Below the leading run the two columns hold equal values. -/
theorem leadingRun_match (values p : Column) (j : Nat) (hj : j < leadingRun values p) :
    ∃ x y, values[j]? = some x ∧ p[j]? = some y ∧ FVal.feq x y = true := by
  induction values generalizing p j with
  | nil => simp [leadingRun] at hj
  | cons a values ih =>
    cases p with
    | nil => simp [leadingRun] at hj
    | cons b p =>
      rw [leadingRun_cons] at hj
      split at hj
      · rename_i hab
        cases j with
        | zero => exact ⟨a, b, by simp, by simp, hab⟩
        | succ j =>
          obtain ⟨x, y, hx, hy, hxy⟩ := ih p j (by omega)
          exact ⟨x, y, by simpa using hx, by simpa using hy, hxy⟩
      · omega

/-- At the bin where the leading run ends, if both columns have one, the
values differ. -/
theorem leadingRun_stop (values p : Column) (x y : FVal)
    (hx : values[leadingRun values p]? = some x) (hy : p[leadingRun values p]? = some y) :
    FVal.feq x y = false := by
  induction values generalizing p with
  | nil => simp at hx
  | cons a values ih =>
    cases p with
    | nil => simp at hy
    | cons b p =>
      rw [leadingRun_cons] at hx hy
      by_cases hab : FVal.feq a b = true
      · simp only [hab, if_true, List.getElem?_cons_succ] at hx hy
        exact ih p hx hy
      · have hab2 : FVal.feq a b = false := by simpa using hab
        simp only [hab2, Bool.false_eq_true, if_false, List.getElem?_cons_zero] at hx hy
        injection hx with hx
        injection hy with hy
        subst hx; subst hy
        exact hab2

/-- In the last `trailingRun` bins two columns of one length hold equal
values. -/
theorem trailingRun_match (values p : Column) (hl : values.length = p.length) (j : Nat)
    (hj1 : values.length - trailingRun values p ≤ j) (hj2 : j < values.length) :
    ∃ x y, values[j]? = some x ∧ p[j]? = some y ∧ FVal.feq x y = true := by
  have hle := leadingRun_le values.reverse p.reverse
  obtain ⟨x, y, hx, hy, hxy⟩ :=
    leadingRun_match values.reverse p.reverse (values.length - 1 - j)
      (by unfold trailingRun at hj1; omega)
  refine ⟨x, y, ?_, ?_, hxy⟩
  · rw [List.getElem?_reverse (by omega)] at hx
    rw [← hx]
    congr 1
    omega
  · rw [List.getElem?_reverse (by omega)] at hy
    rw [← hy]
    congr 1
    omega

/-- In the bin below the last `trailingRun` bins, if there is one, the values
of two columns of one length differ. -/
theorem trailingRun_stop (values p : Column) (hl : values.length = p.length) (x y : FVal)
    (hlt : trailingRun values p < values.length)
    (hx : values[values.length - 1 - trailingRun values p]? = some x)
    (hy : p[values.length - 1 - trailingRun values p]? = some y) :
    FVal.feq x y = false := by
  unfold trailingRun at hlt hx hy
  apply leadingRun_stop values.reverse p.reverse x y
  · rw [List.getElem?_reverse (by simpa using hlt), ← hx]
  · rw [List.getElem?_reverse (by omega), ← hy]
    congr 1
    omega

theorem bottomLoop_eq_leadingRun (values p : Column) (n i : Nat)
    (hv : values.length = i + n) (hp : p.length = i + n) :
    bottomLoop values p n i = leadingRun (values.drop i) (p.drop i) := by
  induction n generalizing i with
  | zero =>
    rw [List.drop_of_length_le (by omega)]
    rfl
  | succ n ih =>
    have h1 : i < values.length := by omega
    have h2 : i < p.length := by omega
    rw [bottomLoop, List.getElem?_eq_getElem h1, List.getElem?_eq_getElem h2,
      List.drop_eq_getElem_cons h1, List.drop_eq_getElem_cons h2, leadingRun_cons,
      ih (i + 1) (by omega) (by omega)]

theorem topLoop_eq_leadingRun (values p : Column) (n : Nat)
    (hv : n ≤ values.length) (hp : n ≤ p.length) :
    topLoop values p n = leadingRun (values.take n).reverse (p.take n).reverse := by
  induction n with
  | zero => rfl
  | succ n ih =>
    have h1 : n < values.length := by omega
    have h2 : n < p.length := by omega
    rw [topLoop, List.getElem?_eq_getElem h1, List.getElem?_eq_getElem h2,
      List.take_succ, List.take_succ, List.getElem?_eq_getElem h1,
      List.getElem?_eq_getElem h2]
    simp only [Option.toList_some, List.reverse_append, List.reverse_cons, List.reverse_nil,
      List.nil_append, List.singleton_append]
    rw [leadingRun_cons, ih (by omega) (by omega)]

theorem bottomLoop_eq (values p : Column) (h : Nat) (hv : values.length = h)
    (hp : p.length = h) : bottomLoop values p h 0 = leadingRun values p := by
  rw [bottomLoop_eq_leadingRun values p h 0 (by omega) (by omega)]
  rfl

theorem topLoop_eq (values p : Column) (h : Nat) (hv : values.length = h)
    (hp : p.length = h) : topLoop values p h = trailingRun values p := by
  rw [topLoop_eq_leadingRun values p h (by omega) (by omega), ← hv, List.take_length,
    hv, ← hp, List.take_length]
  rfl


/-! ## Lemmas: the stored form of a column -/

theorem truncateAndStore_exact (s : Model) (hs : Inv s) (index : Nat) (values : Column)
    (hi : index < s.m_data.length) (h0 : index ≠ 0) (hvl : values.length = s.m_yBinCount) :
    ∃ p, expandAndRetrieve s (index - referenceDistance s index) = some p ∧
      p.length = s.m_yBinCount ∧
      ∀ c t, (c, t) = (if referenceDistance s index ≤ maxdist
          then storedForm s.m_yBinCount (previousOffset s index) values p else (values, 0)) →
        truncateAndStore s index values = some (stored s index c t) := by
  have hit : index - 1 < s.m_trunc.length := by rw [hs.len]; omega
  have hpo : previousOffset s index = s.m_trunc[index - 1] := by
    simp [previousOffset, List.getD_eq_getElem?_getD, List.getElem?_eq_getElem hit]
  have hb := hs.bound (index - 1) _ (List.getElem?_eq_getElem hit)
  have hne : index ≠ index - 1 := by omega
  have hp1 : (s.m_trunc.set index 0)[index - 1]? = some (s.m_trunc[index - 1]) := by
    rw [List.getElem?_set_ne hne, List.getElem?_eq_getElem hit]
  unfold referenceDistance
  rw [hpo]
  obtain ⟨p, hp, hpl⟩ :=
    expandAndRetrieve_some s hs (index - ((s.m_trunc[index - 1]).natAbs + 1)) (by omega)
  refine ⟨p, hp, hpl, ?_⟩
  have hB := bottomLoop_eq values p s.m_yBinCount hvl hpl
  have hT := topLoop_eq values p s.m_yBinCount hvl hpl
  intro c t hct
  unfold truncateAndStore
  have hnle : ¬ s.m_data.length ≤ index := by omega
  have hv : ¬ (index = 0 ∨ values.length ≠ s.m_yBinCount) := by
    rintro (h | h)
    · exact h0 h
    · exact h hvl
  simp only [hnle, if_false, hv]
  rw [hp1]
  simp only
  revert hct hp hb
  generalize s.m_trunc[index - 1] = ptrunc
  intro hb hp hct
  have hnlt : ¬ index < ptrunc.natAbs + 1 := by omega
  simp only [hnlt, if_false]
  have hcongr : expandAndRetrieve { s with m_trunc := s.m_trunc.set index 0 }
      (index - (ptrunc.natAbs + 1)) = expandAndRetrieve s (index - (ptrunc.natAbs + 1)) := by
    apply expandAndRetrieve_congr
    · rfl
    · intro k _; rfl
    · intro k hk
      show (s.m_trunc.set index 0)[k]? = s.m_trunc[k]?
      rw [List.getElem?_set_ne (by omega)]
  rw [hcongr, hp]
  simp only [List.set_set]
  by_cases hd : ptrunc.natAbs + 1 ≤ maxdist
  · simp only [hd, if_true] at hct
    simp only [hpl, hd, and_self, if_true]
    rcases lt_trichotomy ptrunc 0 with hneg | hz | hpos
    · have h1 : ptrunc ≠ 0 := by omega
      have h2 : ¬ 0 < ptrunc := by omega
      have htc : topChosen ptrunc values p = false := by
        simp [topChosen, h1, h2]
      have hmr : matchedRun ptrunc values p =
          bottomLoop values p s.m_yBinCount 0 := by
        simp [matchedRun, htc, hB, hT]
      simp only [storedForm, htc, hmr] at hct
      simp only [h1, h2, ne_eq, not_false_eq_true, decide_True, decide_False, Bool.not_true,
        Bool.not_false, Bool.or_true, Bool.or_false, Bool.false_or, Bool.true_or, if_true,
        if_false, Bool.false_eq_true]
      by_cases hlim : s.m_yBinCount / 4 < bottomLoop values p s.m_yBinCount 0
      · simp only [hlim, if_true, Bool.false_eq_true, if_false] at hct ⊢
        injection hct with hc ht
        subst hc; subst ht
        rfl
      · simp only [hlim, if_false] at hct ⊢
        injection hct with hc ht
        subst hc; subst ht
        rfl
    · subst hz
      simp only [ne_eq, not_true_eq_false, decide_False, Bool.not_false, Bool.true_or,
        if_true, lt_self_iff_false]
      by_cases hbt : bottomLoop values p s.m_yBinCount 0 < topLoop values p s.m_yBinCount
      · have htc : topChosen 0 values p = true := by
          simp [topChosen, ← hB, ← hT, hbt]
        have hmr : matchedRun 0 values p = topLoop values p s.m_yBinCount := by
          simp [matchedRun, htc, hB, hT]
        simp only [storedForm, htc, hmr] at hct
        simp only [hbt, decide_True, if_true, Bool.not_true, Bool.false_eq_true, if_false]
        by_cases hlim : s.m_yBinCount / 4 < topLoop values p s.m_yBinCount
        · simp only [hlim, if_true] at hct ⊢
          injection hct with hc ht
          subst hc; subst ht
          rfl
        · simp only [hlim, if_false] at hct ⊢
          injection hct with hc ht
          subst hc; subst ht
          rfl
      · have htc : topChosen 0 values p = false := by
          simp [topChosen, ← hB, ← hT, hbt]
        have hmr : matchedRun 0 values p =
            bottomLoop values p s.m_yBinCount 0 := by
          simp [matchedRun, htc, hB, hT]
        simp only [storedForm, htc, hmr] at hct
        simp only [hbt, decide_False, if_true, Bool.not_false, Bool.false_eq_true, if_false]
        by_cases hlim : s.m_yBinCount / 4 < bottomLoop values p s.m_yBinCount 0
        · simp only [hlim, if_true, Bool.false_eq_true, if_false] at hct ⊢
          injection hct with hc ht
          subst hc; subst ht
          rfl
        · simp only [hlim, if_false] at hct ⊢
          injection hct with hc ht
          subst hc; subst ht
          rfl
    · have h1 : ptrunc ≠ 0 := by omega
      have htc : topChosen ptrunc values p = true := by
        simp [topChosen, h1, hpos]
      have hmr : matchedRun ptrunc values p = topLoop values p s.m_yBinCount := by
        simp [matchedRun, htc, hB, hT]
      simp only [storedForm, htc, hmr] at hct
      simp only [h1, hpos, ne_eq, not_false_eq_true, decide_True, decide_False, Bool.not_true,
        Bool.not_false, Bool.or_true, Bool.or_false, Bool.false_or, Bool.true_or, if_true,
        if_false, Bool.false_eq_true]
      by_cases hlim : s.m_yBinCount / 4 < topLoop values p s.m_yBinCount
      · simp only [hlim, if_true] at hct ⊢
        injection hct with hc ht
        subst hc; subst ht
        rfl
      · simp only [hlim, if_false] at hct ⊢
        injection hct with hc ht
        subst hc; subst ht
        rfl
  · simp only [hd, if_false] at hct
    simp only [hd, and_false, if_false]
    injection hct with hc ht
    subst hc; subst ht
    rfl

theorem truncateAndStore_verbatim (s : Model) (index : Nat) (values : Column)
    (hi : index < s.m_data.length) (hv : index = 0 ∨ values.length ≠ s.m_yBinCount) :
    truncateAndStore s index values = some (stored s index values 0) := by
  unfold truncateAndStore
  have hnle : ¬ s.m_data.length ≤ index := by omega
  simp only [hnle, if_false, hv, if_true, List.set_set]
  rfl

theorem bottomLoop_all (values p : Column) (n i : Nat)
    (h : ∀ j, i ≤ j → j < i + n →
      ∃ x y, values[j]? = some x ∧ p[j]? = some y ∧ FVal.feq x y = true) :
    bottomLoop values p n i = n := by
  induction n generalizing i with
  | zero => rfl
  | succ n ih =>
    obtain ⟨x, y, hx, hy, hxy⟩ := h i (le_refl i) (by omega)
    rw [bottomLoop, hx, hy]
    simp only [hxy, if_true]
    rw [ih (i + 1) (fun j h1 h2 => h j (by omega) (by omega))]

theorem topLoop_all (values p : Column) (n : Nat)
    (h : ∀ j, j < n → ∃ x y, values[j]? = some x ∧ p[j]? = some y ∧ FVal.feq x y = true) :
    topLoop values p n = n := by
  induction n with
  | zero => rfl
  | succ n ih =>
    obtain ⟨x, y, hx, hy, hxy⟩ := h n (by omega)
    rw [topLoop, hx, hy]
    simp only [hxy, if_true]
    rw [ih (fun j h1 => h j (by omega))]

theorem matchedRun_le (h : Nat) (ptrunc : Int) (values p : Column)
    (hv : values.length = h) : matchedRun ptrunc values p ≤ h := by
  unfold matchedRun
  split
  · have := (leadingRun_le values.reverse p.reverse).1
    rw [List.length_reverse] at this
    unfold trailingRun
    omega
  · have := (leadingRun_le values p).1
    omega

theorem matchedRun_all (h : Nat) (ptrunc : Int) (values p : Column)
    (hv : values.length = h) (hp : p.length = h)
    (hall : List.Forall₂ (fun x y => FVal.feq x y = true) values p) :
    matchedRun ptrunc values p = h := by
  have hget : ∀ j, j < h →
      ∃ x y, values[j]? = some x ∧ p[j]? = some y ∧ FVal.feq x y = true := by
    intro j hj
    rw [List.forall₂_iff_get] at hall
    have h1 : j < values.length := by omega
    have h2 : j < p.length := by omega
    exact ⟨values.get ⟨j, h1⟩, p.get ⟨j, h2⟩, List.getElem?_eq_getElem h1,
      List.getElem?_eq_getElem h2, hall.2 j h1 h2⟩
  unfold matchedRun
  split
  · rw [← topLoop_eq values p h hv hp]
    exact topLoop_all values p h hget
  · rw [← bottomLoop_eq values p h hv hp]
    exact bottomLoop_all values p h 0 (fun j _ hj => hget j (by omega))

/-- What `setColumn` stores at an index above 0 for a column of `m_yBinCount`
values, in a state that satisfies the storage invariant. -/
theorem setColumn_exact (s : Model) (hs : Inv s) (index : Nat) (values : Column)
    (hpos : 0 < index) (hvl : values.length = s.m_yBinCount) :
    ∃ r p, setColumn s index values = some r ∧
      expandAndRetrieve (beforeStore s index values)
        (index - referenceDistance (beforeStore s index values) index) = some p ∧
      p.length = s.m_yBinCount ∧
      ∀ col t, (col, t) = (if referenceDistance (beforeStore s index values) index ≤ maxdist
          then storedForm s.m_yBinCount (previousOffset (beforeStore s index values) index)
            values p
          else (values, 0)) →
        r.1.m_data[index]? = some col ∧ r.1.m_trunc[index]? = some t := by
  have hb := Inv_beforeStore s hs index values
  have hl := beforeStore_length s index values
  obtain ⟨p, hp, hpl, hst⟩ :=
    truncateAndStore_exact (beforeStore s index values) hb index values hl (by omega) hvl
  rcases hX : (if referenceDistance (beforeStore s index values) index ≤ maxdist
          then storedForm s.m_yBinCount (previousOffset (beforeStore s index values) index)
            values p
          else (values, 0)) with ⟨c0, t0⟩
  have hst0 := hst c0 t0 hX.symm
  refine ⟨notifyAfterStore (stored (beforeStore s index values) index c0 t0) index
    (scanExtents (growTo s index) values).allChange, p, ?_, hp, hpl, ?_⟩
  · unfold setColumn
    simp only
    change (match truncateAndStore (beforeStore s index values) index values with
      | none => none
      | some s3 => some (notifyAfterStore s3 index
          (scanExtents (growTo s index) values).allChange)) = _
    rw [hst0]
  · intro col t hct
    rw [hX] at hct
    injection hct with h1 h2
    subst h1; subst h2
    have hf := notifyAfterStore_fst
      (stored (beforeStore s index values) index col t) index
      (scanExtents (growTo s index) values).allChange
    rw [hf.1, hf.2.1]
    have hlt : index < (beforeStore s index values).m_trunc.length := by
      rw [hb.len]; exact hl
    constructor
    · show ((beforeStore s index values).m_data.set index col)[index]? = some col
      rw [List.getElem?_set_self hl]
    · show ((beforeStore s index values).m_trunc.set index t)[index]? = some t
      rw [List.getElem?_set_self hlt]

/-- What `setColumn` stores when the column has not `m_yBinCount` values, or
at index 0: the values as given, with offset 0. -/
theorem setColumn_verbatim (s : Model) (hs : Inv s) (index : Nat) (values : Column)
    (hv : index = 0 ∨ values.length ≠ s.m_yBinCount) :
    ∃ r, setColumn s index values = some r ∧
      r.1.m_data[index]? = some values ∧ r.1.m_trunc[index]? = some 0 := by
  have hl := beforeStore_length s index values
  have hst := truncateAndStore_verbatim (beforeStore s index values) index values hl hv
  refine ⟨notifyAfterStore (stored (beforeStore s index values) index values 0) index
    (scanExtents (growTo s index) values).allChange, ?_, ?_⟩
  · unfold setColumn
    simp only
    change (match truncateAndStore (beforeStore s index values) index values with
      | none => none
      | some s3 => some (notifyAfterStore s3 index
          (scanExtents (growTo s index) values).allChange)) = _
    rw [hst]
  · have hf := notifyAfterStore_fst
      (stored (beforeStore s index values) index values 0) index
      (scanExtents (growTo s index) values).allChange
    rw [hf.1, hf.2.1]
    have hlt : index < (beforeStore s index values).m_trunc.length := by
      rw [(Inv_beforeStore s hs index values).len]; exact hl
    constructor
    · show ((beforeStore s index values).m_data.set index values)[index]? = some values
      rw [List.getElem?_set_self hl]
    · show ((beforeStore s index values).m_trunc.set index 0)[index]? = some 0
      rw [List.getElem?_set_self hlt]

/-- C23. In a state reached by `setColumn` calls, a column of `m_yBinCount`
values written at an index above 0 whose reference column is at distance at
most 6 is stored truncated (offset not zero) exactly when the matched run in
the chosen direction exceeds `m_yBinCount / 4`; then `m_yBinCount` minus the
run values are stored, and otherwise the values are stored as given with
offset 0.  When every value equals (C++ `==`) the value of the reference
column in its bin, no value is stored.  The matched run is `matchedRun`: the
number of equal values counted on the column and the expansion `p` of its
reference from bin 0 up (`leadingRun`) or from the last bin down
(`trailingRun`), in the direction `topChosen`. -/
theorem truncation_threshold (resolution : Int) (yBinCount : Nat) (notifyOnAdd : Bool)
    (ops : List (Nat × Column)) (s : Model)
    (hs : setColumns (create resolution yBinCount notifyOnAdd) ops = some s)
    (index : Nat) (values : Column) (hpos : 0 < index)
    (hlen : values.length = s.m_yBinCount)
    (hdist : referenceDistance (beforeStore s index values) index ≤ 6) :
    ∃ r p col t, setColumn s index values = some r ∧
      expandAndRetrieve (beforeStore s index values)
        (index - referenceDistance (beforeStore s index values) index) = some p ∧
      r.1.m_data[index]? = some col ∧ r.1.m_trunc[index]? = some t ∧
      (t ≠ 0 ↔ s.m_yBinCount / 4 <
        matchedRun (previousOffset (beforeStore s index values) index)
          values p) ∧
      (t ≠ 0 → col.length = s.m_yBinCount -
        matchedRun (previousOffset (beforeStore s index values) index)
          values p) ∧
      (t = 0 → col = values) ∧
      (List.Forall₂ (fun x y => FVal.feq x y = true) values p → col.length = 0) := by
  obtain ⟨s1, hs1, hinv, _⟩ :=
    Inv_setColumns (create resolution yBinCount notifyOnAdd)
      (Inv_create resolution yBinCount notifyOnAdd) ops
  rw [hs] at hs1
  injection hs1 with hs1
  subst hs1
  obtain ⟨r, p, hr, hp, hpl, hex⟩ := setColumn_exact s hinv index values hpos hlen
  have hd : referenceDistance (beforeStore s index values) index ≤ maxdist := hdist
  obtain ⟨hcol, ht⟩ := hex
    (storedForm s.m_yBinCount (previousOffset (beforeStore s index values) index) values p).1
    (storedForm s.m_yBinCount (previousOffset (beforeStore s index values) index) values p).2
    (by rw [if_pos hd])
  refine ⟨r, p, _, _, hr, hp, hcol, ht, ?_⟩
  have hrun := matchedRun_le s.m_yBinCount
    (previousOffset (beforeStore s index values) index) values p hlen
  unfold storedForm
  by_cases hlim : s.m_yBinCount / 4 <
      matchedRun (previousOffset (beforeStore s index values) index) values p
  · rw [if_pos hlim]
    by_cases htc : topChosen (previousOffset (beforeStore s index values) index) values p = true
    · simp only [htc, if_true]
      have hne : (((previousOffset (beforeStore s index values) index).natAbs + 1 : Nat) : Int)
          ≠ 0 := by omega
      refine ⟨⟨fun _ => hlim, fun _ => hne⟩, fun _ => ?_, fun h => (hne h).elim, fun hall => ?_⟩
      · rw [List.length_take]; omega
      · rw [matchedRun_all _ _ _ _ hlen hpl hall]
        simp
    · simp only [htc, Bool.false_eq_true, if_false]
      have hne : -(((previousOffset (beforeStore s index values) index).natAbs + 1 : Nat) : Int)
          ≠ 0 := by omega
      refine ⟨⟨fun _ => hlim, fun _ => hne⟩, fun _ => ?_, fun h => (hne h).elim, fun hall => ?_⟩
      · rw [List.length_drop]; omega
      · rw [matchedRun_all _ _ _ _ hlen hpl hall, List.length_drop]
        omega
  · rw [if_neg hlim]
    refine ⟨⟨fun h => (h rfl).elim, fun h => (hlim h).elim⟩, fun h => (h rfl).elim,
      fun _ => rfl, fun hall => ?_⟩
    show values.length = 0
    rw [matchedRun_all _ _ _ _ hlen hpl hall] at hlim
    have : s.m_yBinCount = 0 := by
      by_contra hc
      exact hlim (Nat.div_lt_self (by omega) (by decide))
    omega

/-- C24. In a state reached by `setColumn` calls, a write at an index above 0
of a column that has not `m_yBinCount` values compares nothing and stores the
values as given.  For a column of `m_yBinCount` values the stored form is
determined by the values and the expansion `p` of one column: column
`index - 1` when that column is stored verbatim (offset 0), and otherwise the
column `index - 1` refers to.  When column `index - 1` is truncated the new
offset is 0 or has the sign of that column's offset and an absolute value
one greater; when it is verbatim the new offset is +1 exactly when the
matching trailing run is strictly longer than the matching leading run and
exceeds the threshold, and -1 exactly when the trailing run is not longer
and the leading run exceeds the threshold.  The runs are `leadingRun` and
`trailingRun`, counted on the values and on `p`. -/
theorem reference_and_direction (resolution : Int) (yBinCount : Nat) (notifyOnAdd : Bool)
    (ops : List (Nat × Column)) (s : Model)
    (hs : setColumns (create resolution yBinCount notifyOnAdd) ops = some s)
    (index : Nat) (values : Column) (hpos : 0 < index) :
    ∃ r col t, setColumn s index values = some r ∧
      r.1.m_data[index]? = some col ∧ r.1.m_trunc[index]? = some t ∧
      (values.length ≠ s.m_yBinCount → col = values ∧ t = 0) ∧
      (values.length = s.m_yBinCount →
        ∃ p, expandAndRetrieve (beforeStore s index values)
            (if previousOffset (beforeStore s index values) index = 0 then index - 1
              else index - 1 - (previousOffset (beforeStore s index values) index).natAbs)
              = some p ∧
          (col, t) = (if referenceDistance (beforeStore s index values) index ≤ maxdist
            then storedForm s.m_yBinCount
              (previousOffset (beforeStore s index values) index) values p
            else (values, 0)) ∧
          (previousOffset (beforeStore s index values) index ≠ 0 →
            t = 0 ∨
            (t.natAbs = (previousOffset (beforeStore s index values) index).natAbs + 1 ∧
              (0 < t ↔ 0 < previousOffset (beforeStore s index values) index))) ∧
          (previousOffset (beforeStore s index values) index = 0 →
            (t = 1 ↔ leadingRun values p < trailingRun values p ∧
              s.m_yBinCount / 4 < trailingRun values p) ∧
            (t = -1 ↔ ¬ leadingRun values p < trailingRun values p ∧
              s.m_yBinCount / 4 < leadingRun values p) ∧
            (t = 0 ∨ t = 1 ∨ t = -1))) := by
  obtain ⟨s1, hs1, hinv, _⟩ :=
    Inv_setColumns (create resolution yBinCount notifyOnAdd)
      (Inv_create resolution yBinCount notifyOnAdd) ops
  rw [hs] at hs1
  injection hs1 with hs1
  subst hs1
  by_cases hlen : values.length = s.m_yBinCount
  · obtain ⟨r, p, hr, hp, hpl, hex⟩ := setColumn_exact s hinv index values hpos hlen
    rcases hX : (if referenceDistance (beforeStore s index values) index ≤ maxdist
            then storedForm s.m_yBinCount
              (previousOffset (beforeStore s index values) index) values p
            else (values, 0)) with ⟨col, t⟩
    obtain ⟨hcol, ht⟩ := hex col t hX.symm
    refine ⟨r, col, t, hr, hcol, ht, fun h => (h hlen).elim, fun _ => ⟨p, ?_, hX.symm, ?_, ?_⟩⟩
    · rw [← hp]
      congr 1
      unfold referenceDistance
      split <;> omega
    · intro hne
      unfold storedForm topChosen at hX
      rw [if_neg hne] at hX
      split_ifs at hX with h1 h2 h3
      all_goals (injection hX with hc ht2; subst ht2)
      · right
        have h3p : 0 < previousOffset (beforeStore s index values) index := of_decide_eq_true h3
        refine ⟨Int.natAbs_ofNat _, fun _ => h3p, fun _ => by omega⟩
      · right
        have h3n : ¬ 0 < previousOffset (beforeStore s index values) index :=
          fun hc => h3 (decide_eq_true hc)
        refine ⟨?_, fun hc => ?_, fun hc => (h3n hc).elim⟩
        · rw [Int.natAbs_neg]; exact Int.natAbs_ofNat _
        · omega
      · left; rfl
      · left; rfl
    · intro hz
      have hd1 : referenceDistance (beforeStore s index values) index ≤ maxdist := by
        unfold referenceDistance
        rw [hz]
        decide
      rw [if_pos hd1] at hX
      unfold storedForm matchedRun topChosen at hX
      simp only [hz, if_true, Int.natAbs_zero, zero_add, Nat.cast_one] at hX
      by_cases hbt : leadingRun values p < trailingRun values p
      · simp only [hbt, decide_True, if_true] at hX
        by_cases hlim : s.m_yBinCount / 4 < trailingRun values p
        · rw [if_pos hlim] at hX
          injection hX with hc ht2
          subst ht2
          simp [hbt, hlim]
        · rw [if_neg hlim] at hX
          injection hX with hc ht2
          subst ht2
          simp [hbt, hlim]
      · simp only [hbt, decide_False, Bool.false_eq_true, if_false] at hX
        by_cases hlim : s.m_yBinCount / 4 < leadingRun values p
        · rw [if_pos hlim] at hX
          injection hX with hc ht2
          subst ht2
          simp [hbt, hlim]
        · rw [if_neg hlim] at hX
          injection hX with hc ht2
          subst ht2
          simp [hbt, hlim]
  · obtain ⟨r, hr, hcol, ht⟩ := setColumn_verbatim s hinv index values (Or.inr hlen)
    exact ⟨r, values, 0, hr, hcol, ht, fun _ => ⟨rfl, rfl⟩, fun h => (hlen h).elim⟩

theorem truncation_threshold_witness :
    setColumns (create 1 8 true) [(0, scenarioColumn0)] = some scenarioState ∧
    scenarioColumn1.length = scenarioState.m_yBinCount ∧
    referenceDistance (beforeStore scenarioState 1 scenarioColumn1) 1 ≤ 6 ∧
    ∃ r p col t, setColumn scenarioState 1 scenarioColumn1 = some r ∧
      expandAndRetrieve (beforeStore scenarioState 1 scenarioColumn1)
        (1 - referenceDistance (beforeStore scenarioState 1 scenarioColumn1) 1) = some p ∧
      r.1.m_data[1]? = some col ∧ r.1.m_trunc[1]? = some t ∧
      (t ≠ 0 ↔ scenarioState.m_yBinCount / 4 <
        matchedRun (previousOffset (beforeStore scenarioState 1 scenarioColumn1) 1)
          scenarioColumn1 p) ∧
      (t ≠ 0 → col.length = scenarioState.m_yBinCount -
        matchedRun (previousOffset (beforeStore scenarioState 1 scenarioColumn1) 1)
          scenarioColumn1 p) ∧
      (t = 0 → col = scenarioColumn1) ∧
      (List.Forall₂ (fun x y => FVal.feq x y = true) scenarioColumn1 p → col.length = 0) :=
  ⟨by decide, by decide, by decide,
    truncation_threshold 1 8 true [(0, scenarioColumn0)] scenarioState (by decide) 1
      scenarioColumn1 (by decide) (by decide) (by decide)⟩

theorem reference_and_direction_witness :
    setColumns (create 1 8 true) [(0, scenarioColumn0)] = some scenarioState ∧
    ∃ r col t, setColumn scenarioState 1 scenarioColumn1 = some r ∧
      r.1.m_data[1]? = some col ∧ r.1.m_trunc[1]? = some t ∧
      (scenarioColumn1.length ≠ scenarioState.m_yBinCount → col = scenarioColumn1 ∧ t = 0) ∧
      (scenarioColumn1.length = scenarioState.m_yBinCount →
        ∃ p, expandAndRetrieve (beforeStore scenarioState 1 scenarioColumn1)
            (if previousOffset (beforeStore scenarioState 1 scenarioColumn1) 1 = 0 then 1 - 1
              else 1 - 1 -
                (previousOffset (beforeStore scenarioState 1 scenarioColumn1) 1).natAbs)
              = some p ∧
          (col, t) =
            (if referenceDistance (beforeStore scenarioState 1 scenarioColumn1) 1 ≤ maxdist
            then storedForm scenarioState.m_yBinCount
              (previousOffset (beforeStore scenarioState 1 scenarioColumn1) 1)
              scenarioColumn1 p
            else (scenarioColumn1, 0)) ∧
          (previousOffset (beforeStore scenarioState 1 scenarioColumn1) 1 ≠ 0 →
            t = 0 ∨
            (t.natAbs =
                (previousOffset (beforeStore scenarioState 1 scenarioColumn1) 1).natAbs + 1 ∧
              (0 < t ↔ 0 < previousOffset (beforeStore scenarioState 1 scenarioColumn1) 1))) ∧
          (previousOffset (beforeStore scenarioState 1 scenarioColumn1) 1 = 0 →
            (t = 1 ↔
              leadingRun scenarioColumn1 p <
                trailingRun scenarioColumn1 p ∧
              scenarioState.m_yBinCount / 4 <
                trailingRun scenarioColumn1 p) ∧
            (t = -1 ↔
              ¬ leadingRun scenarioColumn1 p <
                trailingRun scenarioColumn1 p ∧
              scenarioState.m_yBinCount / 4 <
                leadingRun scenarioColumn1 p) ∧
            (t = 0 ∨ t = 1 ∨ t = -1))) :=
  ⟨by decide,
    reference_and_direction 1 8 true [(0, scenarioColumn0)] scenarioState (by decide) 1
      scenarioColumn1 (by decide)⟩

/-- Two writes at index 1 after `scenarioColumn0` at index 0.  A column that
matches in its first seven bins only has a leading run of 7 and a trailing run
of 0 and is stored in the bottom direction (offset -1, the value of bin 7); a
column that matches in its last seven bins only has a leading run of 0 and a
trailing run of 7 and is stored in the top direction (offset +1, the value of
bin 0). -/
theorem setColumn_direction_examples :
    leadingRun scenarioColumn1 scenarioColumn0 = 7 ∧
    trailingRun scenarioColumn1 scenarioColumn0 = 0 ∧
    (setColumn scenarioState 1 scenarioColumn1).map (fun r => (r.1.m_trunc, r.1.m_data)) =
      some ([0, -1], [scenarioColumn0, [FVal.fin 9]]) ∧
    leadingRun scenarioColumn2 scenarioColumn0 = 0 ∧
    trailingRun scenarioColumn2 scenarioColumn0 = 7 ∧
    (setColumn scenarioState 1 scenarioColumn2).map (fun r => (r.1.m_trunc, r.1.m_data)) =
      some ([0, 1], [scenarioColumn0, [FVal.fin 0]]) := by
  decide

theorem notifyOnAdd_permanent_witness :
    scenarioState.m_notifyOnAdd = true ∧
    ∃ s1, performAll scenarioState
        [Operation.setColumn 1 scenarioColumn1, Operation.setCompletion 50 true,
          Operation.setHeight 4, Operation.setBinName 0 "bin",
          Operation.setCompletion 100 false, Operation.setCompletion 0 false] = some s1 ∧
      s1.m_notifyOnAdd = true :=
  ⟨by decide, _, rfl,
    notifyOnAdd_permanent scenarioState
      [Operation.setColumn 1 scenarioColumn1, Operation.setCompletion 50 true,
        Operation.setHeight 4, Operation.setBinName 0 "bin",
        Operation.setCompletion 100 false, Operation.setCompletion 0 false] _
      (by decide) rfl⟩

end BasicCompressedDenseThreeDimensionalModel

namespace LADSPAPluginFactory

/-! ## Lemmas: splitting the search path -/

/-- With `LADSPA_PATH` unset and `HOME` set to `/home/u`, the default path
is split into its three directories. -/
theorem getPluginPath_default :
    getPluginPath { LADSPA_PATH := none, HOME := some "/home/u" } =
      some ["/home/u/.ladspa", "/usr/local/lib/ladspa", "/usr/lib/ladspa"] ∧
    getPluginPath { LADSPA_PATH := some "a::b:", HOME := none } =
      some ["a", "", "b", ""] := by
  decide

/-! ## Lemmas: live instances and loaded libraries -/

theorem getLADSPADescriptor_instances (host : FileHost) (f : FactoryState)
    (identifier : String) :
    (getLADSPADescriptor host f identifier).1.m_instances = f.m_instances := by
  rw [getLADSPADescriptor_fst]
  split
  · rcases loadLibrary_cases host f (host.parseIdentifier identifier).2.1 with h | ⟨_, _, h⟩
    · rw [h]
    · rw [h]
  · rfl

theorem getLADSPADescriptor_handles_mono (host : FileHost) (f : FactoryState)
    (identifier key : String) (h : (f.m_libraryHandles.lookup key).isSome = true) :
    ((getLADSPADescriptor host f identifier).1.m_libraryHandles.lookup key).isSome = true := by
  rw [getLADSPADescriptor_fst]
  split
  · rcases loadLibrary_cases host f (host.parseIdentifier identifier).2.1 with h1 | ⟨_, _, h1⟩
    · rw [h1]; exact h
    · rw [h1]
      exact lookup_mapAssign_isSome _ _ _ _ h
  · exact h

theorem getLADSPADescriptor_some_loaded (host : FileHost) (f : FactoryState)
    (identifier : String) (d : LADSPA_Descriptor)
    (h : (getLADSPADescriptor host f identifier).2 = some d) :
    ((getLADSPADescriptor host f identifier).1.m_libraryHandles.lookup
      (host.parseIdentifier identifier).2.1).isSome = true := by
  rw [getLADSPADescriptor_fst]
  unfold getLADSPADescriptor at h
  simp only at h
  split at h
  · cases h
  · rename_i handle hl
    rw [hl]
    rfl

theorem LiveLoaded_getLADSPADescriptor (host : FileHost) (f : FactoryState)
    (identifier : String) (h : LiveLoaded host f) :
    LiveLoaded host (getLADSPADescriptor host f identifier).1 := by
  intro i hi
  rw [getLADSPADescriptor_instances] at hi
  exact getLADSPADescriptor_handles_mono host f identifier _ (h i hi)

theorem LiveLoaded_instantiatePlugin (host : FileHost) (f : FactoryState)
    (identifier : String) (inst : Nat) (h : LiveLoaded host f) :
    LiveLoaded host (instantiatePlugin host f identifier inst).1 := by
  have h1 := LiveLoaded_getLADSPADescriptor host f identifier h
  have h2 := getLADSPADescriptor_some_loaded host f identifier
  unfold instantiatePlugin
  rcases hg : getLADSPADescriptor host f identifier with ⟨f1, d⟩
  rw [hg] at h1 h2
  cases d with
  | none => exact h1
  | some d =>
    intro i hi
    rcases List.mem_cons.mp hi with hi | hi
    · subst hi
      exact h2 d rfl
    · exact h1 i (List.mem_filter.mp hi).1

theorem lookup_filter_other {β : Type} (m : List (String × β)) (key other : String)
    (hko : other ≠ key) :
    (m.filter (fun kv => kv.1 ≠ key)).lookup other = m.lookup other := by
  induction m with
  | nil => rfl
  | cons kv rest ih =>
    obtain ⟨k, v⟩ := kv
    by_cases hk : k = key
    · subst hk
      have hne : (other == k) = false := by simpa using hko
      rw [List.filter_cons_of_neg (by simp), List.lookup_cons, hne]
      exact ih
    · rw [List.filter_cons_of_pos (by simpa using hk), List.lookup_cons, List.lookup_cons, ih]

theorem LiveLoaded_unloadLibrary (host : FileHost) (f : FactoryState) (soName : String)
    (h : LiveLoaded host f)
    (hunused : ∀ i ∈ f.m_instances, (host.parseIdentifier i.2).2.1 ≠ soName) :
    LiveLoaded host (unloadLibrary f soName) := by
  intro i hi
  rw [(unloadLibrary_handles f soName).2] at hi
  rw [(unloadLibrary_handles f soName).1, lookup_filter_other _ _ _ (hunused i hi)]
  exact h i hi

theorem LiveLoaded_releasePlugin (host : FileHost) (f : FactoryState) (inst : Nat)
    (identifier : String) (h : LiveLoaded host f) :
    LiveLoaded host (releasePlugin host f inst identifier) := by
  unfold releasePlugin
  split
  · exact h
  · have h1 : LiveLoaded host
        { f with m_instances := f.m_instances.filter (fun i => i.1 ≠ inst) } :=
      fun i hi => h i (List.mem_filter.mp hi).1
    simp only
    split
    · rename_i hs
      apply LiveLoaded_unloadLibrary host _ _ h1
      intro i hi hc
      rw [Bool.not_eq_true', List.any_eq_false] at hs
      exact hs i hi (by simpa using hc)
    · exact h1

theorem foldl_unloadLibrary_instances (f : FactoryState) (ks : List String) :
    (ks.foldl unloadLibrary f).m_instances = f.m_instances := by
  induction ks generalizing f with
  | nil => rfl
  | cons k ks ih => rw [List.foldl_cons, ih, (unloadLibrary_handles f k).2]

theorem foldl_unloadLibrary_handles (f : FactoryState) (ks : List String)
    (kv : String × String) (h : kv ∈ (ks.foldl unloadLibrary f).m_libraryHandles) :
    kv ∈ f.m_libraryHandles ∧ kv.1 ∉ ks := by
  induction ks generalizing f with
  | nil => exact ⟨h, by simp⟩
  | cons k ks ih =>
    rw [List.foldl_cons] at h
    obtain ⟨h1, h2⟩ := ih _ h
    rw [(unloadLibrary_handles f k).1] at h1
    obtain ⟨h3, h4⟩ := List.mem_filter.mp h1
    refine ⟨h3, ?_⟩
    intro hc
    rcases List.mem_cons.mp hc with h5 | h5
    · simp [h5] at h4
    · exact h2 h5

theorem LiveLoaded_foldl_unloadLibrary (host : FileHost) (f : FactoryState)
    (ks : List String) (h : LiveLoaded host f)
    (hunused : ∀ k ∈ ks, ∀ i ∈ f.m_instances, (host.parseIdentifier i.2).2.1 ≠ k) :
    LiveLoaded host (ks.foldl unloadLibrary f) := by
  induction ks generalizing f with
  | nil => exact h
  | cons k ks ih =>
    rw [List.foldl_cons]
    apply ih
    · exact LiveLoaded_unloadLibrary host f k h (hunused k (List.mem_cons_self _ _))
    · intro k2 hk2 i hi
      rw [(unloadLibrary_handles f k).2] at hi
      exact hunused k2 (List.mem_cons_of_mem _ hk2) i hi

theorem LiveLoaded_unloadUnusedLibraries (host : FileHost) (f : FactoryState)
    (h : LiveLoaded host f) : LiveLoaded host (unloadUnusedLibraries host f) := by
  unfold unloadUnusedLibraries
  apply LiveLoaded_foldl_unloadLibrary host f _ h
  intro k hk i hi hc
  obtain ⟨kv, hkv, rfl⟩ := List.mem_map.mp hk
  have hf := (List.mem_filter.mp hkv).2
  rw [Bool.not_eq_true', List.any_eq_false] at hf
  exact hf i hi (by simpa using hc)

theorem unloadUnusedLibraries_keys (host : FileHost) (f : FactoryState)
    (kv : String × String) (h : kv ∈ (unloadUnusedLibraries host f).m_libraryHandles) :
    ∃ i ∈ (unloadUnusedLibraries host f).m_instances,
      (host.parseIdentifier i.2).2.1 = kv.1 := by
  unfold unloadUnusedLibraries at h ⊢
  rw [foldl_unloadLibrary_instances]
  obtain ⟨h1, h2⟩ := foldl_unloadLibrary_handles f _ kv h
  by_contra hc
  apply h2
  apply List.mem_map.mpr
  refine ⟨kv, List.mem_filter.mpr ⟨h1, ?_⟩, rfl⟩
  simp only [Bool.not_eq_true', List.any_eq_false, decide_eq_true_eq]
  intro i hi heq
  exact hc ⟨i, hi, heq⟩

theorem LiveLoaded_foldl_enumerateStep (host : FileHost) (identifiers : List String)
    (acc : FactoryState × List String) (h : LiveLoaded host acc.1) :
    LiveLoaded host (identifiers.foldl (enumerateStep host) acc).1 := by
  induction identifiers generalizing acc with
  | nil => exact h
  | cons identifier rest ih =>
    rw [List.foldl_cons]
    apply ih
    have h1 := LiveLoaded_getLADSPADescriptor host acc.1 identifier h
    unfold enumerateStep
    rcases hg : getLADSPADescriptor host acc.1 identifier with ⟨f1, d⟩
    rw [hg] at h1
    cases d <;> exact h1

theorem LiveLoaded_call (host : FileHost) (f : FactoryState) (c : FactoryCall)
    (h : LiveLoaded host f) : LiveLoaded host (call host f c) := by
  cases c with
  | instantiatePlugin identifier inst => exact LiveLoaded_instantiatePlugin host f _ _ h
  | releasePlugin inst identifier => exact LiveLoaded_releasePlugin host f _ _ h
  | enumeratePlugins list =>
    exact LiveLoaded_unloadUnusedLibraries host _
      (LiveLoaded_foldl_enumerateStep host f.m_identifiers (f, list) h)
  | unloadUnusedLibraries => exact LiveLoaded_unloadUnusedLibraries host f h

theorem LiveLoaded_calls (host : FileHost) (f : FactoryState) (cs : List FactoryCall)
    (h : LiveLoaded host f) : LiveLoaded host (calls host f cs) := by
  unfold calls
  induction cs generalizing f with
  | nil => exact h
  | cons c cs ih =>
    rw [List.foldl_cons]
    exact ih _ (LiveLoaded_call host f c h)

/-- C27. In every state reached from a factory without live instances by
`instantiatePlugin`, `releasePlugin`, `enumeratePlugins` and
`unloadUnusedLibraries` calls, the library name in the identifier of every
live instance is a key of `m_libraryHandles`; and after
`unloadUnusedLibraries` is called in such a state, every key of
`m_libraryHandles` is the library name of some live instance. -/
theorem live_instances_loaded (host : FileHost) (f0 : FactoryState)
    (h0 : f0.m_instances = []) (cs : List FactoryCall) :
    (∀ i ∈ (calls host f0 cs).m_instances,
      ((calls host f0 cs).m_libraryHandles.lookup
        (host.parseIdentifier i.2).2.1).isSome = true) ∧
    (∀ kv ∈ (unloadUnusedLibraries host (calls host f0 cs)).m_libraryHandles,
      ∃ i ∈ (unloadUnusedLibraries host (calls host f0 cs)).m_instances,
        (host.parseIdentifier i.2).2.1 = kv.1) := by
  refine ⟨?_, fun kv hkv => unloadUnusedLibraries_keys host _ kv hkv⟩
  apply LiveLoaded_calls
  intro i hi
  rw [h0] at hi
  cases hi

theorem calls_exampleCalls :
    (calls oneLibraryHost emptyState exampleCalls).m_instances = [(2, "ladspa:lib.so:A")] ∧
    (calls oneLibraryHost emptyState exampleCalls).m_libraryHandles =
      [("lib.so", "lib.so")] := by
  decide

theorem live_instances_loaded_witness :
    emptyState.m_instances = [] ∧
    (∀ i ∈ (calls oneLibraryHost emptyState exampleCalls).m_instances,
      ((calls oneLibraryHost emptyState exampleCalls).m_libraryHandles.lookup
        (oneLibraryHost.parseIdentifier i.2).2.1).isSome = true) ∧
    (∀ kv ∈ (unloadUnusedLibraries oneLibraryHost
        (calls oneLibraryHost emptyState exampleCalls)).m_libraryHandles,
      ∃ i ∈ (unloadUnusedLibraries oneLibraryHost
          (calls oneLibraryHost emptyState exampleCalls)).m_instances,
        (oneLibraryHost.parseIdentifier i.2).2.1 = kv.1) :=
  ⟨rfl, live_instances_loaded oneLibraryHost emptyState rfl exampleCalls⟩

end LADSPAPluginFactory

namespace ResizeableBitset

/-- C28, at the failing input.  `a` is built with size 8, `b` is built with
size 8 and has bit 3 set.  After `a = b` (two distinct objects) `a.get(3)` is
false while `b.get(3)` is true; in general the assignment from another object
leaves every member of the target as it was. -/
theorem assign_does_not_copy :
    ((create 8).set 3).bind (fun b => (assign (create 8) b false).bind (fun a => a.get 3))
      = some false ∧
    ((create 8).set 3).bind (fun b => b.get 3) = some true ∧
    ∀ a b : ResizeableBitset, assign a b false = some a :=
  ⟨by decide, by decide, fun _ _ => rfl⟩

end ResizeableBitset

namespace PluginScan

/-! ## Lemmas: the success flag of the scan -/

theorem FlagTracksTable_scanStep (host : Host) (s : PluginScan) (p : HelperExec)
    (h : FlagTracksTable s) : FlagTracksTable (scanStep host s p) := by
  unfold scanStep
  split
  · exact h
  · split
    · exact h
    · unfold FlagTracksTable
      simp

theorem FlagTracksTable_foldl (host : Host) (helpers : List HelperExec) (s : PluginScan)
    (h : FlagTracksTable s) : FlagTracksTable (helpers.foldl (scanStep host) s) := by
  induction helpers generalizing s with
  | nil => exact h
  | cons p rest ih => exact ih _ (FlagTracksTable_scanStep host s p h)

theorem FlagTracksTable_clear (s : PluginScan) : FlagTracksTable (clear s) := by
  unfold FlagTracksTable clear
  simp

theorem FlagTracksTable_call (host : Host) (s : PluginScan) (c : ScanCall) :
    FlagTracksTable (call host s c) := by
  cases c with
  | scan helpers => exact FlagTracksTable_foldl host helpers _ (FlagTracksTable_clear s)
  | clear => exact FlagTracksTable_clear s

theorem FlagTracksTable_calls (host : Host) (cs : List ScanCall) :
    FlagTracksTable (calls host cs) := by
  unfold calls
  have h0 : FlagTracksTable create := by
    unfold FlagTracksTable create
    simp
  generalize create = s at h0
  induction cs generalizing s with
  | nil => exact h0
  | cons c rest ih => exact ih _ (FlagTracksTable_call host s c)

/-- C29. In every state reached from construction by `scan()` and `clear()`
calls, `scanSucceeded()` is true exactly when the helper table `m_kp` is not
empty, and `getStartupFailureReport()` does not take its `Did not scan for
plugins` return. -/
theorem scanSucceeded_iff_helper_registered (host : Host) (cs : List ScanCall) :
    (scanSucceeded (calls host cs) = true ↔ (calls host cs).m_kp ≠ []) ∧
    getStartupFailureReport (calls host cs) ≠ StartupFailureReport.didNotScan := by
  have h := FlagTracksTable_calls host cs
  refine ⟨h, ?_⟩
  unfold getStartupFailureReport
  unfold FlagTracksTable at h
  cases hs : (calls host cs).m_succeeded with
  | false => simp
  | true =>
    have hne : (calls host cs).m_kp ≠ [] := h.mp hs
    have hemp : (calls host cs).m_kp.isEmpty = false := by
      cases hk : (calls host cs).m_kp with
      | nil => exact (hne hk).elim
      | cons _ _ => rfl
    simp only [Bool.not_true, Bool.false_eq_true, if_false, hemp]
    split <;> simp

end PluginScan

namespace CSVFileWriter

/-! ## Lemmas: the frame total -/

theorem toInt32_of_small (x : Int) (h1 : -2 ^ 31 ≤ x) (h2 : x < 2 ^ 31) : toInt32 x = x := by
  unfold toInt32
  omega

theorem toInt64_of_small (x : Int) (h1 : -2 ^ 63 ≤ x) (h2 : x < 2 ^ 63) : toInt64 x = x := by
  unfold toInt64
  omega

theorem foldl_addSelection_of_small (selections : List Selection) (acc : Int)
    (hacc : 0 ≤ acc)
    (hpos : ∀ s ∈ selections, 0 ≤ s.endFrame - s.startFrame)
    (hsum : acc + exactFrameCount selections < 2 ^ 31) :
    selections.foldl (fun acc current => toInt32 (addSelection acc current)) acc =
      acc + exactFrameCount selections := by
  induction selections generalizing acc with
  | nil => simp [exactFrameCount]
  | cons s rest ih =>
    have hs := hpos s (List.mem_cons_self _ _)
    have hrest : ∀ t ∈ rest, 0 ≤ t.endFrame - t.startFrame :=
      fun t ht => hpos t (List.mem_cons_of_mem _ ht)
    have hnn : 0 ≤ exactFrameCount rest := by
      unfold exactFrameCount
      apply List.sum_nonneg
      intro x hx
      obtain ⟨t, ht, rfl⟩ := List.mem_map.mp hx
      exact hrest t ht
    have hcons : exactFrameCount (s :: rest) =
        (s.endFrame - s.startFrame) + exactFrameCount rest := by
      simp [exactFrameCount]
    rw [hcons] at hsum
    have hstep : toInt32 (addSelection acc s) = acc + (s.endFrame - s.startFrame) := by
      unfold addSelection
      rw [toInt64_of_small (s.endFrame - s.startFrame) (by omega) (by omega),
        toInt64_of_small _ (by omega) (by omega), toInt32_of_small _ (by omega) (by omega)]
    rw [List.foldl_cons, hstep, ih _ (by omega) hrest (by omega), hcons]
    omega

/-- When no selection has a negative length and the sum of the lengths is
below `2 ^ 31`, `nFramesToWrite` is that sum. -/
theorem nFramesToWrite_of_small (selections : List Selection)
    (hpos : ∀ s ∈ selections, 0 ≤ s.endFrame - s.startFrame)
    (hsum : exactFrameCount selections < 2 ^ 31) :
    nFramesToWrite selections = exactFrameCount selections := by
  unfold nFramesToWrite
  rw [foldl_addSelection_of_small selections 0 (le_refl 0) hpos (by omega)]
  omega

/-- C30, at the failing input.  For the one selection from frame 0 to frame
`2 ^ 31` the sum of the lengths is `2147483648`, and `nFramesToWrite` is
`-2147483648`; the progress reported when all the frames are written is then
`-100`. -/
theorem nFramesToWrite_wraps :
    exactFrameCount [{ startFrame := 0, endFrame := 2147483648 }] = 2147483648 ∧
    nFramesToWrite [{ startFrame := 0, endFrame := 2147483648 }] = -2147483648 ∧
    progress 2147483648 (nFramesToWrite [{ startFrame := 0, endFrame := 2147483648 }])
      = some (-100) := by
  decide

end CSVFileWriter
